import Mathlib

/-!
Verification of package `env` of lucasepe/toolbox, a dotenv parser.

Shallow embedding of `src/env/env.go`.

Modelling conventions.

* A Go `string` is modelled as a `List Char` (type `Str`): the text is taken to be
  valid UTF-8, one `Char` per rune.  Byte lengths (`len(s)`) are computed from the
  UTF-8 width of every character (`byteLen`), byte offsets likewise.
* `map[string]string` is an association list with unique keys (`EnvMap`); reading a
  missing key gives the empty string, as in Go.
* Go's `regexp` package is not part of the repository.  Each use of a compiled
  pattern is modelled by a function that computes what the leftmost-first match
  of that very pattern yields (`.` does not match a line feed, `\s` is
  `[\t\n\f\r ]`, `[^$]` matches a line feed).
* `bufio.Scanner` is not part of the repository either: `FromReader` receives the
  outcome of the scanning loop, either the error of `scanner.Err()` or the lines.
* The process environment that `Store` reads and writes is an explicit map from
  names to values, passed in and returned; `os.Environ` lists it as `name=value`
  strings.  `os.Setenv` is the one of Unix: it refuses with `EINVAL` an empty name,
  a name holding `=` or a NUL and a value holding a NUL, and leaves the environment
  as it is then; otherwise it sets the variable, or adds it.
-/

namespace Env

/-- A Go string, as the list of its runes. -/
abbrev Str := List Char

/-- Byte length of a string: Go's `len(s)`. -/
def byteLen (s : Str) : Nat := (s.map Char.utf8Size).sum

/-! ## The functions of package `strings` used by the parser -/

namespace strings

/-- Go `strings.Contains(s, string(c))` for a one-character separator. -/
def Contains (s : Str) (c : Char) : Bool := s.contains c

/-- Go `strings.Split(s, string(c))`: the segments between the occurrences of `c`. -/
def Split (c : Char) : Str → List Str
  | [] => [[]]
  | x :: xs =>
    if x = c then [] :: Split c xs
    else
      match Split c xs with
      | [] => [[x]]
      | seg :: segs => (x :: seg) :: segs

/-- Go `strings.Join(segs, string(c))`. -/
def Join (c : Char) : List Str → Str
  | [] => []
  | [s] => s
  | s :: t :: rest => s ++ c :: Join c (t :: rest)

/-- Go `strings.Count(s, string(c))`. -/
def Count (s : Str) (c : Char) : Nat := s.count c

/-- Go `strings.Index(s, string(c))`: byte offset of the first `c`, or `-1`. -/
def Index (c : Char) : Str → Int
  | [] => -1
  | x :: xs =>
    if x = c then 0
    else
      let i := Index c xs
      if i = -1 then -1 else i + x.utf8Size

/-- Go `strings.SplitN(s, string(c), 2)`: one element when `c` does not occur,
otherwise the text before the first `c` and the text after it. -/
def SplitN2 (c : Char) (s : Str) : List Str :=
  if c ∈ s then [s.takeWhile (fun x => x != c), (s.dropWhile (fun x => x != c)).drop 1]
  else [s]

/-- Go `strings.HasPrefix`. -/
def HasPrefix (s p : Str) : Bool := p.isPrefixOf s

/-- Go `strings.TrimPrefix`. -/
def TrimPrefix (s p : Str) : Str := if HasPrefix s p then s.drop p.length else s

/-- The characters with Unicode's White Space property, the ones `unicode.IsSpace`
accepts. -/
def unicodeSpaces : List Char :=
  ['\t', '\n', '\x0b', '\x0c', '\r', ' ', '\u0085', '\u00a0', '\u1680',
   '\u2000', '\u2001', '\u2002', '\u2003', '\u2004', '\u2005', '\u2006', '\u2007',
   '\u2008', '\u2009', '\u200a', '\u2028', '\u2029', '\u202f', '\u205f', '\u3000']

/-- Go `unicode.IsSpace`. -/
def IsSpace (c : Char) : Bool := unicodeSpaces.contains c

/-- Go `strings.TrimSpace`. -/
def TrimSpace (s : Str) : Str := (s.dropWhile IsSpace).rdropWhile IsSpace

/-- Go `strings.Trim(s, string(c))` for a one-character cutset. -/
def Trim (s : Str) (c : Char) : Str :=
  (s.dropWhile (fun x => x == c)).rdropWhile (fun x => x == c)

end strings

/-! ## The result mapping -/

/-- Go `map[string]string`, as an association list with unique keys. -/
abbrev EnvMap := List (Str × Str)

/-- Go `m[k]`: the value bound to `k`, the empty string when `k` is absent. -/
def EnvMap.get (m : EnvMap) (k : Str) : Str :=
  match m.lookup k with
  | some v => v
  | none => []

/-- Go `m[k] = v`: overwrite the entry of `k`, or add one. -/
def EnvMap.set : EnvMap → Str → Str → EnvMap
  | [], k, v => [(k, v)]
  | (k', v') :: rest, k, v =>
    if k' = k then (k, v) :: rest else (k', v') :: EnvMap.set rest k v

/-- The keys of a mapping. -/
def EnvMap.keys (m : EnvMap) : List Str := m.map Prod.fst

/-- The errors the package returns: the two `errors.New` of `parseLine`, and whatever
error the scanner reported. -/
inductive Error where
  | zeroLength
  | cantSeparate
  | scanner (msg : Str)
  deriving DecidableEq, Repr

/-! ## The compiled patterns -/

/-- `FindStringSubmatch` of `\A<q>(.*)<q>\z` for a quote character `q`: the text is `q`,
then any characters but a line feed, then `q`. The result is the whole match and
the group. -/
def quotesRegex_FindStringSubmatch (q : Char) (s : Str) : Option (List Str) :=
  match s with
  | [] => none
  | c :: rest =>
    if c = q ∧ rest.getLast? = some q ∧ '\n' ∉ rest.dropLast then some [s, rest.dropLast]
    else none

/-- The pattern `\A'(.*)'\z`. -/
def singleQuotesRegex_FindStringSubmatch (s : Str) : Option (List Str) :=
  quotesRegex_FindStringSubmatch '\'' s

/-- The pattern `\A"(.*)"\z`. -/
def doubleQuotesRegex_FindStringSubmatch (s : Str) : Option (List Str) :=
  quotesRegex_FindStringSubmatch '"' s

/-- `escapeRegex.ReplaceAllStringFunc(s, f)` for the pattern `\\.`: every backslash
followed by a character other than a line feed is a match, scanning left to right
without overlap. -/
def escapeRegex_ReplaceAllStringFunc (f : Str → Str) : Str → Str
  | [] => []
  | [x] => [x]
  | x :: c :: rest =>
    if x = '\\' ∧ c ≠ '\n' then f [x, c] ++ escapeRegex_ReplaceAllStringFunc f rest
    else x :: escapeRegex_ReplaceAllStringFunc f (c :: rest)

/-- `unescapeCharsRegex.ReplaceAllString(s, "$1")` for the pattern `\\([^$])`: every
backslash followed by a character other than `$` is replaced by that character. -/
def unescapeCharsRegex_ReplaceAllString : Str → Str
  | [] => []
  | [x] => [x]
  | x :: c :: rest =>
    if x = '\\' ∧ c ≠ '$' then c :: unescapeCharsRegex_ReplaceAllString rest
    else x :: unescapeCharsRegex_ReplaceAllString (c :: rest)

/-- The class `\s` of Go's regexp syntax: `[\t\n\f\r ]`. -/
def isRegexSpace (c : Char) : Bool := ['\t', '\n', '\x0c', '\r', ' '].contains c

/-- `exportRegex.ReplaceAllString(key, "$1")` for the pattern
`^\s*(?:export\s+)?(.*?)\s*$`. The pattern is anchored at both ends, so it matches
the whole text or nothing. Leading `\s*` is greedy; the `export\s+` group is taken
when the text goes on with `export` and at least one `\s`; the lazy group is what
is left without its trailing `\s` run, and must not hold a line feed. Without a
match the text is returned as it is. -/
def exportRegex_ReplaceAllString (key : Str) : Str :=
  let r := key.dropWhile isRegexSpace
  let afterExport := r.drop 6
  let body :=
    if strings.HasPrefix r "export".toList ∧ (afterExport.head?.map isRegexSpace) = some true
    then afterExport.dropWhile isRegexSpace
    else r
  let group1 := body.rdropWhile isRegexSpace
  if '\n' ∈ group1 then key else group1

/-- The class `[A-Z0-9_]`. -/
def isNameChar (c : Char) : Bool := c.isUpper || c.isDigit || c = '_'

/-- One optional literal character at the head of the text: what it matched and the
rest. -/
def optChar (c : Char) : Str → Str × Str
  | [] => ([], [])
  | x :: xs => if x = c then ([c], xs) else ([], x :: xs)

/-- A match of `(\\)?(\$)(\()?\{?([A-Z0-9_]+)?\}?` anchored at the head of the text:
the five submatches (whole match and groups 1 to 4) and the length of the match in
characters. The optional backslash is part of the match exactly when a `$`
follows it; every part after `\$` is optional and greedy, so no choice is ever
revised. -/
def expandVarRegex_matchHead (s : Str) : Option (List Str × Nat) :=
  let g1 : Str := if strings.HasPrefix s ['\\', '$'] then ['\\'] else []
  let s1 := s.drop g1.length
  if s1.head? = some '$' then
    let paren := optChar '(' (s1.drop 1)
    let brace := optChar '{' paren.2
    let g4 := brace.2.takeWhile isNameChar
    let close := optChar '}' (brace.2.dropWhile isNameChar)
    let whole := g1 ++ '$' :: (paren.1 ++ (brace.1 ++ (g4 ++ close.1)))
    some ([whole, g1, ['$'], paren.1, g4], whole.length)
  else none

/-- `expandVarRegex.FindStringSubmatch(s)`: the submatches of the leftmost match. -/
def expandVarRegex_FindStringSubmatch : Str → Option (List Str)
  | [] => none
  | x :: xs =>
    match expandVarRegex_matchHead (x :: xs) with
    | some (sub, _) => some sub
    | none => expandVarRegex_FindStringSubmatch xs

/-- The scan of `expandVarRegex.ReplaceAllStringFunc`: `skip` counts the characters of
the current match that are still to be passed over. -/
def expandVarRegex_replaceGo (f : Str → Str) : Nat → Str → Str
  | _, [] => []
  | skip + 1, _ :: xs => expandVarRegex_replaceGo f skip xs
  | 0, x :: xs =>
    match expandVarRegex_matchHead (x :: xs) with
    | some (sub, len) => f (sub.getD 0 []) ++ expandVarRegex_replaceGo f (len - 1) xs
    | none => x :: expandVarRegex_replaceGo f 0 xs

/-- `expandVarRegex.ReplaceAllStringFunc(s, f)`: every match, left to right and without
overlap, is replaced by `f` of the matched text. -/
def expandVarRegex_ReplaceAllStringFunc (s : Str) (f : Str → Str) : Str :=
  expandVarRegex_replaceGo f 0 s

/-! ## The parser (`env.go`) -/

/-- `expandVariables` (env.go 194-208). -/
def expandVariables (v : Str) (m : EnvMap) : Str :=
  expandVarRegex_ReplaceAllStringFunc v (fun s =>
    match expandVarRegex_FindStringSubmatch s with
    | none => s
    | some submatch =>
      if submatch.getD 1 [] = ['\\'] ∨ submatch.getD 2 [] = ['('] then
        (submatch.getD 0 []).drop 1
      else if submatch.getD 4 [] ≠ [] then
        m.get (submatch.getD 4 [])
      else s)

/-- `parseValue` (env.go 154-192). The named result `err` is never assigned. -/
def parseValue (value : Str) (envMap : EnvMap) : Except Error Str :=
  let res := strings.Trim value ' '
  if byteLen res ≤ 1 then .ok res
  else
    let singleQuotes := singleQuotesRegex_FindStringSubmatch res
    let doubleQuotes := doubleQuotesRegex_FindStringSubmatch res
    let res :=
      if singleQuotes ≠ none ∨ doubleQuotes ≠ none then (res.drop 1).dropLast else res
    let res :=
      if doubleQuotes ≠ none then
        unescapeCharsRegex_ReplaceAllString
          (escapeRegex_ReplaceAllStringFunc (fun mtch =>
            let c := strings.TrimPrefix mtch ['\\']
            if c = ['n'] then ['\n']
            else if c = ['r'] then ['\r']
            else mtch) res)
      else res
    let res := if singleQuotes = none then expandVariables res envMap else res
    .ok res

/-- The loop of the comment removal (env.go 112-125), over the segments that are left;
the state is the flag `quotesAreOpen` and the slice `segmentsToKeep`. -/
def keepSegments : List Str → Bool → List Str → List Str
  | [], _, segmentsToKeep => segmentsToKeep
  | segment :: rest, quotesAreOpen, segmentsToKeep =>
    let st : Bool × List Str :=
      if strings.Count segment '"' = 1 ∨ strings.Count segment '\'' = 1 then
        if quotesAreOpen then (false, segmentsToKeep ++ [segment])
        else (true, segmentsToKeep)
      else (quotesAreOpen, segmentsToKeep)
    if st.2.length = 0 ∨ st.1 = true then keepSegments rest st.1 (st.2 ++ [segment])
    else keepSegments rest st.1 st.2

/-- The comment removal of `parseLine` (env.go 107-128). -/
def stripComments (line : Str) : Str :=
  if strings.Contains line '#' then
    strings.Join '#' (keepSegments (strings.Split '#' line) false [])
  else line

/-- The separator step of `parseLine` (env.go 130-140): the raw key and the raw value,
or nothing when the split does not give two parts. -/
def splitKeyValue (line : Str) : Option (Str × Str) :=
  let firstEquals := strings.Index '=' line
  let firstColon := strings.Index ':' line
  let splitString :=
    if firstColon ≠ -1 ∧ (firstColon < firstEquals ∨ firstEquals = -1) then
      strings.SplitN2 ':' line
    else strings.SplitN2 '=' line
  match splitString with
  | [k, v] => some (k, v)
  | _ => none

/-- The key steps of `parseLine` (env.go 143-146). -/
def normalizeKey (key : Str) : Str :=
  exportRegex_ReplaceAllString (strings.TrimSpace (strings.TrimPrefix key "export".toList))

/-- `parseLine` (env.go 102-152). -/
def parseLine (line : Str) (envMap : EnvMap) : Except Error (Str × Str) :=
  if byteLen line = 0 then .error .zeroLength
  else
    match splitKeyValue (stripComments line) with
    | none => .error .cantSeparate
    | some (rawKey, rawValue) =>
      match parseValue rawValue envMap with
      | .ok value => .ok (normalizeKey rawKey, value)
      | .error e => .error e

/-- `isIgnoredLine` (env.go 210-213). -/
def isIgnoredLine (line : Str) : Bool :=
  let trimmedLine := strings.TrimSpace line
  byteLen trimmedLine = 0 || strings.HasPrefix trimmedLine ['#']

/-- The parsing loop of `FromReader` (env.go 30-40) from a given mapping. -/
def parseLines : List Str → EnvMap → EnvMap × Option Error
  | [], envMap => (envMap, none)
  | fullLine :: rest, envMap =>
    if !isIgnoredLine fullLine then
      match parseLine fullLine envMap with
      | .error err => (envMap, some err)
      | .ok (key, value) => parseLines rest (envMap.set key value)
    else parseLines rest envMap

/-- `FromReader` (env.go 17-41). The argument is the outcome of the scanner loop: the
error of `scanner.Err()`, or the scanned lines. -/
def FromReader (scanned : Except Error (List Str)) : EnvMap × Option Error :=
  match scanned with
  | .error err => ([], some err)
  | .ok lines => parseLines lines []

/-- The key under which a line is entered: the key `parseLine` gives for it. The key is
computed from the line alone, the mapping only matters for the value. -/
def lineKey (line : Str) : Option Str :=
  match parseLine line [] with
  | .ok (key, _) => some key
  | .error _ => none

/-! ## The process environment (`Store`) -/

/-- Go `os.Environ()`, with the process environment held as an explicit map from
variable names to values: one string `name=value` for every variable. -/
def os_Environ (E : EnvMap) : List Str := E.map (fun e => e.1 ++ '=' :: e.2)

/-- The checks at the head of Go `syscall.Setenv` (Unix), which `os.Setenv` calls: the
call fails with `EINVAL` when the name is empty, when the name holds a `=` or a NUL,
and when the value holds a NUL. -/
def os_Setenv_EINVAL (key value : Str) : Bool :=
  key.isEmpty || key.contains '=' || key.contains '\x00' || value.contains '\x00'

/-- Go `os.Setenv(key, value)` on the explicit map, as the environment after the call:
when the call fails the environment is as it was, otherwise the variable is set, or
added. The error itself is not part of the result: `Store`, the only caller,
discards it. -/
def os_Setenv (E : EnvMap) (key value : Str) : EnvMap :=
  if os_Setenv_EINVAL key value then E else E.set key value

/-- The first loop of `Store` (env.go 78-84): the set `currentEnv` of the names found
in the raw environment, each the text before the first `=` of a raw line. -/
def currentEnvKeys (rawEnv : List Str) : List Str :=
  rawEnv.map (fun rawEnvLine => (strings.Split '=' rawEnvLine).headD [])

/-- The second loop of `Store` (env.go 86-90), over the entries of `envMap` in the order
the `range` visits them. -/
def storeLoop (currentEnv : List Str) (overload : Bool) : List (Str × Str) → EnvMap → EnvMap
  | [], E => E
  | (key, value) :: rest, E =>
    if !(currentEnv.contains key) || overload then
      storeLoop currentEnv overload rest (os_Setenv E key value)
    else storeLoop currentEnv overload rest E

/-- `Store` (env.go 75-91): the process environment `E` after the call. -/
def Store (E : EnvMap) (envMap : EnvMap) (overload : Bool) : EnvMap :=
  storeLoop (currentEnvKeys (os_Environ E)) overload envMap E

end Env

/-!
Package `text` and the helper `unquoteUsage` of package `commander`.

`PadRight` and `Resize` index and count bytes: there a Go string is the list of its
bytes. Go's `int` and `uint` are taken to be 64 bits wide. The other functions read
runes and are modelled on `Str`, as above.
-/

namespace Text

open Env

/-- A Go string as its bytes. -/
abbrev Bytes := List UInt8

/-- Go `int(x)` for a `uint` value `x`: the same 64 bits read as a signed number. -/
def toInt (x : Nat) : Int :=
  if x % 2 ^ 64 < 2 ^ 63 then ((x % 2 ^ 64 : Nat) : Int) else ((x % 2 ^ 64 : Nat) : Int) - 2 ^ 64

/-- The result of an `int` operation whose exact value is `x`: Go wraps around. -/
def wrapInt (x : Int) : Int := (x + 2 ^ 63) % 2 ^ 64 - 2 ^ 63

/-- `PadRight` (pad.go 7-16). -/
def PadRight (str : Bytes) (length : Int) (pad : UInt8) : Bytes :=
  if (str.length : Int) ≥ length then str
  else str ++ List.replicate (length - str.length).toNat pad

/-- `Resize` (pad.go 34-51); `none` is the run-time panic of `b[i]` with `i` out of
range. The loop copies `b[0]`, ..., as long as `i < n-3`. -/
def Resize (s : Bytes) (length : Nat) : Option Bytes :=
  let n := toInt length
  if (s.length : Int) = n then some s
  else
    let s := PadRight s n 32
    if (s.length : Int) > n then
      let bound := wrapInt (n - 3)
      if bound ≤ (s.length : Int) then some (s.take bound.toNat ++ [46, 46, 46])
      else none
    else some s

/-- `runewidth.RuneWidth` of github.com/mattn/go-runewidth, on ASCII: no width for the
control characters, one column for every other character. The library is not part
of the repository; `WrapString` takes the width function as an argument. -/
def asciiRuneWidth (c : Char) : Nat := if c.toNat < 0x20 ∨ c.toNat = 0x7f then 0 else 1

/-- The variables of the loop of `WrapString`. -/
structure WrapState where
  buf : Str
  current : Nat
  wordBuf : Str
  spaceBuf : Str
  wordWidth : Nat
  spaceWidth : Nat
  deriving DecidableEq, Repr

/-- The statements `wordwrap.go` 39-45 and 51-57: the pending spaces and the pending
word go to `buf`. -/
def WrapState.flush (st : WrapState) : WrapState :=
  { buf := st.buf ++ st.spaceBuf ++ st.wordBuf
    current := st.current + (st.spaceWidth + st.wordWidth)
    wordBuf := [], spaceBuf := [], wordWidth := 0, spaceWidth := 0 }

/-- One turn of the loop of `WrapString` (wordwrap.go 26-73). -/
def WrapString.step (runeWidth : Char → Nat) (lim : Nat) (st : WrapState) (char : Char) :
    WrapState :=
  if char = '\n' then
    let st1 : WrapState :=
      if st.wordBuf.length = 0 then
        if st.current + st.spaceWidth > lim then
          { st with current := 0, spaceBuf := [], spaceWidth := 0 }
        else
          { st with current := st.current + st.spaceWidth, buf := st.buf ++ st.spaceBuf,
                    spaceBuf := [], spaceWidth := 0 }
      else st.flush
    { st1 with buf := st1.buf ++ ['\n'], current := 0 }
  else if strings.IsSpace char then
    let st1 : WrapState :=
      if st.spaceBuf.length = 0 ∨ st.wordBuf.length > 0 then st.flush else st
    { st1 with spaceBuf := st1.spaceBuf ++ [char], spaceWidth := st1.spaceWidth + runeWidth char }
  else
    let st1 : WrapState :=
      { st with wordBuf := st.wordBuf ++ [char], wordWidth := st.wordWidth + runeWidth char }
    if st1.current + (st1.spaceWidth + st1.wordWidth) > lim ∧ st1.wordWidth < lim then
      { st1 with buf := st1.buf ++ ['\n'], current := 0, spaceBuf := [], spaceWidth := 0 }
    else st1

/-- `WrapString` (wordwrap.go 17-85). -/
def WrapString (runeWidth : Char → Nat) (s : Str) (lim : Nat) : Str :=
  let st := s.foldl (WrapString.step runeWidth lim)
    { buf := [], current := 0, wordBuf := [], spaceBuf := [], wordWidth := 0, spaceWidth := 0 }
  if st.wordBuf.length = 0 then
    if st.current + st.spaceWidth ≤ lim then st.buf ++ st.spaceBuf else st.buf
  else st.buf ++ st.spaceBuf ++ st.wordBuf

/-- The step of `WordWrap` at a white-space rune or at the end of the text
(wordwrap.go 96-106): the word read so far, `text[j:i]`, goes to `wrap` behind a line
feed or a space. The result is the new `wrap` and the new `eoLine`. -/
def WordWrap.emit (lineWidth : Int) (i : Int) (word : Str) (inWord : Bool) (wrap : Str)
    (eoLine : Int) : Str × Int :=
  if inWord then
    if i ≥ eoLine then
      (wrap ++ ['\n'] ++ word, (byteLen (wrap ++ ['\n']) : Int) + lineWidth)
    else if byteLen wrap > 0 then (wrap ++ [' '] ++ word, eoLine)
    else (wrap ++ word, eoLine)
  else (wrap, eoLine)

/-- The loop of `WordWrap` (wordwrap.go 91-115) over the runes that are left. `i` is the
byte offset of the next rune; `word` is `text[j:i]`, the runes read since the word
began, when `inWord` is set. -/
def WordWrap.loop (lineWidth : Int) : Str → Int → Str → Bool → Str → Int → Str
  | [], i, word, inWord, wrap, eoLine => (WordWrap.emit lineWidth i word inWord wrap eoLine).1
  | r :: rest, i, word, inWord, wrap, eoLine =>
    if strings.IsSpace r then
      let st := WordWrap.emit lineWidth i word inWord wrap eoLine
      WordWrap.loop lineWidth rest (i + r.utf8Size) [] false st.1 st.2
    else if !inWord then
      WordWrap.loop lineWidth rest (i + r.utf8Size) [r] true wrap eoLine
    else
      WordWrap.loop lineWidth rest (i + r.utf8Size) (word ++ [r]) true wrap eoLine

/-- `WordWrap` (wordwrap.go 87-117); `none` is a run-time panic of the `make` of line 88:
a division by zero, or a negative capacity. -/
def WordWrap (text : Str) (lineWidth : Int) : Option Str :=
  if lineWidth = 0 then none
  else if (byteLen text : Int) + Int.tdiv (2 * (byteLen text : Int)) lineWidth < 0 then none
  else some (WordWrap.loop lineWidth text 0 [] false [] lineWidth)

/-- Go `strings.TrimRight(s, string(c))` for a one-character cutset. -/
def TrimRight (s : Str) (c : Char) : Str := s.rdropWhile (fun x => x == c)

/-- The loop of `Indent` (indent.go 22-26): what is written to the builder. -/
def Indent.write (indent : Str) : List Str → Str
  | [] => []
  | j :: rest => indent ++ j ++ ['\n'] ++ Indent.write indent rest

/-- `Indent` (indent.go 8-29). -/
def Indent (text indent : Str) : Str :=
  if byteLen text = 0 then text
  else
    let parts :=
      if text.getLast? = some '\n' then strings.Split '\n' text.dropLast
      else strings.Split '\n' (TrimRight text '\n')
    (Indent.write indent parts).dropLast

/-- The maximal runs of characters that are not white space, in order: the words of a
text. `cur` is the run being read. -/
def wordsFrom (cur : Str) : Str → List Str
  | [] => if cur = [] then [] else [cur]
  | c :: cs =>
    if strings.IsSpace c then
      if cur = [] then wordsFrom [] cs else cur :: wordsFrom [] cs
    else wordsFrom (cur ++ [c]) cs

/-- The words of a text. -/
def words (s : Str) : List Str := wordsFrom [] s

/-- Two characters next to each other are not both white space. -/
def NoDoubleSpace (s : Str) : Prop :=
  List.Chain' (fun a b => ¬ (strings.IsSpace a = true ∧ strings.IsSpace b = true)) s

/-- What holds of `wrap` all along: no two white-space characters side by side, every
white-space character a space or a line feed, none at the end. -/
def GoodWrap (wrap : Str) : Prop :=
  NoDoubleSpace wrap ∧ (∀ c ∈ wrap, strings.IsSpace c = true → c = ' ' ∨ c = '\n') ∧
    (∀ c, wrap.getLast? = some c → strings.IsSpace c = false)

/-- The word and the flag `inWord` of the loop: a word being read is not empty and holds
no white space; outside a word there is none. -/
def WordState (word : Str) (inWord : Bool) : Prop :=
  (inWord = true → word ≠ [] ∧ ∀ c ∈ word, strings.IsSpace c = false) ∧
    (inWord = false → word = [])

end Text

namespace Commander

open Env

/-- `unquoteUsage` (print_defaults.go 36-53), as a function of the usage string of the
flag: the text between the first two back quotes and, as usage, what follows the
second one without the white space around it; without a pair of back quotes, no
name and the usage as it is. -/
def unquoteUsage (usage : Str) : Str × Str :=
  if '`' ∈ usage then
    let afterFirst := (usage.dropWhile (fun c => c != '`')).drop 1
    if '`' ∈ afterFirst then
      (afterFirst.takeWhile (fun c => c != '`'),
        strings.TrimSpace ((afterFirst.dropWhile (fun c => c != '`')).drop 1))
    else ([], usage)
  else ([], usage)

end Commander

namespace Env

/-! ## Basic facts about the string functions -/

theorem byteLen_eq_zero_iff (s : Str) : byteLen s = 0 ↔ s = [] := by
  cases s with
  | nil => simp [byteLen]
  | cons x xs =>
    have := Char.utf8Size_pos x
    simp [byteLen]
    omega

theorem length_le_byteLen (s : Str) : s.length ≤ byteLen s := by
  induction s with
  | nil => simp [byteLen]
  | cons x xs ih =>
    have := Char.utf8Size_pos x
    simp [byteLen] at ih ⊢
    omega

namespace strings

theorem Split_ne_nil (c : Char) (s : Str) : Split c s ≠ [] := by
  induction s with
  | nil => simp [Split]
  | cons x xs ih =>
    unfold Split
    split
    · simp
    · split <;> simp

theorem Split_of_not_mem (c : Char) (s : Str) (h : c ∉ s) : Split c s = [s] := by
  induction s with
  | nil => simp [Split]
  | cons x xs ih =>
    simp only [List.mem_cons, not_or] at h
    have hx : ¬ x = c := fun e => h.1 e.symm
    simp [Split, hx, ih h.2]

theorem Split_append_cons (c : Char) (a b : Str) (h : c ∉ a) :
    Split c (a ++ c :: b) = a :: Split c b := by
  induction a with
  | nil => simp [Split]
  | cons x xs ih =>
    simp only [List.mem_cons, not_or] at h
    have hx : ¬ x = c := fun e => h.1 e.symm
    simp [Split, hx, ih h.2]

theorem Join_cons_cons (c : Char) (s t : Str) (rest : List Str) :
    Join c (s :: t :: rest) = s ++ c :: Join c (t :: rest) := rfl

theorem Join_Split (c : Char) (s : Str) : Join c (Split c s) = s := by
  induction s with
  | nil => simp [Split, Join]
  | cons x xs ih =>
    unfold Split
    split
    · rename_i hx
      rcases hs : Split c xs with _ | ⟨seg, segs⟩
      · exact absurd hs (Split_ne_nil c xs)
      · rw [hs] at ih
        simp [Join, ih, hx]
    · rcases hs : Split c xs with _ | ⟨seg, segs⟩
      · exact absurd hs (Split_ne_nil c xs)
      · rw [hs] at ih
        cases segs with
        | nil => simpa [Join] using ih
        | cons t rest =>
          simp only [Join_cons_cons] at ih ⊢
          simp [← ih]

theorem mem_of_mem_Split (c : Char) (s seg : Str) (h : seg ∈ Split c s) :
    ∀ x ∈ seg, x ∈ s ∧ x ≠ c := by
  induction s generalizing seg with
  | nil =>
    simp [Split] at h
    subst h
    simp
  | cons y ys ih =>
    unfold Split at h
    split at h
    · rcases List.mem_cons.1 h with h | h
      · subst h; simp
      · intro x hx
        exact ⟨List.mem_cons_of_mem _ (ih seg h x hx).1, (ih seg h x hx).2⟩
    · rename_i hy
      rcases hs : Split c ys with _ | ⟨seg0, segs⟩
      · exact absurd hs (Split_ne_nil c ys)
      · rw [hs] at h
        rcases List.mem_cons.1 h with h | h
        · subst h
          intro x hx
          rcases List.mem_cons.1 hx with hx | hx
          · subst hx; exact ⟨List.mem_cons_self _ _, hy⟩
          · have := ih seg0 (by rw [hs]; exact List.mem_cons_self _ _) x hx
            exact ⟨List.mem_cons_of_mem _ this.1, this.2⟩
        · intro x hx
          have := ih seg (by rw [hs]; exact List.mem_cons_of_mem _ h) x hx
          exact ⟨List.mem_cons_of_mem _ this.1, this.2⟩

theorem mem_Join (c : Char) (segs : List Str) (x : Char) (h : x ∈ Join c segs) :
    x = c ∨ ∃ seg ∈ segs, x ∈ seg := by
  induction segs with
  | nil => simp [Join] at h
  | cons s rest ih =>
    cases rest with
    | nil => exact Or.inr ⟨s, List.mem_cons_self _ _, by simpa [Join] using h⟩
    | cons t rest =>
      rw [Join_cons_cons] at h
      rcases List.mem_append.1 h with h | h
      · exact Or.inr ⟨s, List.mem_cons_self _ _, h⟩
      · rcases List.mem_cons.1 h with h | h
        · exact Or.inl h
        · rcases ih h with h | ⟨seg, hseg, hx⟩
          · exact Or.inl h
          · exact Or.inr ⟨seg, List.mem_cons_of_mem _ hseg, hx⟩

theorem Index_cons_self (c : Char) (xs : Str) : Index c (c :: xs) = 0 := by
  simp [Index]

theorem Index_cons_ne (c x : Char) (xs : Str) (h : x ≠ c) :
    Index c (x :: xs) = if Index c xs = -1 then -1 else Index c xs + x.utf8Size := by
  simp [Index, h]

theorem neg_one_le_Index (c : Char) (s : Str) : -1 ≤ Index c s := by
  induction s with
  | nil => simp [Index]
  | cons x xs ih =>
    by_cases hx : x = c
    · subst hx; rw [Index_cons_self]; omega
    · rw [Index_cons_ne c x xs hx]
      split <;> omega

theorem Index_eq_neg_one_iff (c : Char) (s : Str) : Index c s = -1 ↔ c ∉ s := by
  induction s with
  | nil => simp [Index]
  | cons x xs ih =>
    by_cases hx : x = c
    · subst hx; rw [Index_cons_self]; simp
    · have hx2 : ¬ c = x := fun e => hx e.symm
      rw [Index_cons_ne c x xs hx]
      simp only [List.mem_cons, hx2, false_or]
      have := neg_one_le_Index c xs
      have hp := Char.utf8Size_pos x
      split
      · rename_i hi; simp [← ih, hi]
      · rename_i hi
        constructor
        · intro h; omega
        · intro h; exact absurd (ih.2 h) hi

theorem byteLen_cons (x : Char) (xs : Str) : byteLen (x :: xs) = x.utf8Size + byteLen xs := by
  simp [byteLen]

theorem Index_append_cons (c : Char) (a b : Str) (h : c ∉ a) :
    Index c (a ++ c :: b) = byteLen a := by
  induction a with
  | nil => simp [Index, byteLen]
  | cons x xs ih =>
    simp only [List.mem_cons, not_or] at h
    have hx : ¬ x = c := fun e => h.1 e.symm
    have hi := ih h.2
    rw [List.cons_append, Index_cons_ne c x _ hx, hi, byteLen_cons]
    split
    · omega
    · push_cast; omega

theorem Index_append_of_not_mem (c d : Char) (a b : Str) (h : c ∉ a) (hcd : c ≠ d) :
    Index c (a ++ d :: b) = -1 ∨ (byteLen a : Int) < Index c (a ++ d :: b) := by
  induction a with
  | nil =>
    have hdc : ¬ d = c := fun e => hcd e.symm
    rw [List.nil_append, Index_cons_ne c d b hdc]
    have hp := Char.utf8Size_pos d
    have hnn := neg_one_le_Index c b
    split
    · left; rfl
    · right; simp only [byteLen, List.map_nil, List.sum_nil]; push_cast; omega
  | cons x xs ih =>
    simp only [List.mem_cons, not_or] at h
    have hx : ¬ x = c := fun e => h.1 e.symm
    rw [List.cons_append, Index_cons_ne c x _ hx, byteLen_cons]
    rcases ih h.2 with hi | hi
    · simp [hi]
    · right
      split
      · omega
      · push_cast; omega

theorem SplitN2_of_not_mem (c : Char) (s : Str) (h : c ∉ s) : SplitN2 c s = [s] := by
  simp [SplitN2, h]

theorem SplitN2_append_cons (c : Char) (a b : Str) (h : c ∉ a) :
    SplitN2 c (a ++ c :: b) = [a, b] := by
  have hp : ∀ x ∈ a, (fun x => x != c) x = true := by
    intro x hx
    simp only [bne_iff_ne, ne_eq]
    intro e; subst e; exact h hx
  simp only [SplitN2, List.mem_append, List.mem_cons, true_or, or_true, if_true]
  rw [List.takeWhile_append_of_pos hp, List.dropWhile_append_of_pos hp]
  simp

end strings
end Env

namespace Env

/-! ## The separator step -/

theorem exists_first_sep (line : Str) (h : '=' ∈ line ∨ ':' ∈ line) :
    ∃ k v, '=' ∉ k ∧ ':' ∉ k ∧ (line = k ++ '=' :: v ∨ line = k ++ ':' :: v) := by
  induction line with
  | nil => simp at h
  | cons x xs ih =>
    by_cases hx : x = '='
    · exact ⟨[], xs, by simp, by simp, Or.inl (by simp [hx])⟩
    · by_cases hx2 : x = ':'
      · exact ⟨[], xs, by simp, by simp, Or.inr (by simp [hx2])⟩
      · have h2 : '=' ∈ xs ∨ ':' ∈ xs := by
          rcases h with h | h
          · rcases List.mem_cons.1 h with h | h
            · exact absurd h.symm hx
            · exact Or.inl h
          · rcases List.mem_cons.1 h with h | h
            · exact absurd h.symm hx2
            · exact Or.inr h
        obtain ⟨k, v, h1, h2, h3⟩ := ih h2
        refine ⟨x :: k, v, ?_, ?_, ?_⟩
        · simp only [List.mem_cons, not_or]; exact ⟨fun e => hx e.symm, h1⟩
        · simp only [List.mem_cons, not_or]; exact ⟨fun e => hx2 e.symm, h2⟩
        · rcases h3 with h3 | h3 <;> simp [h3]

theorem splitKeyValue_equals (k v : Str) (h1 : '=' ∉ k) (h2 : ':' ∉ k) :
    splitKeyValue (k ++ '=' :: v) = some (k, v) := by
  have he := strings.Index_append_cons '=' k v h1
  have hc := strings.Index_append_of_not_mem ':' '=' k v h2 (by decide)
  have hcond : ¬ (strings.Index ':' (k ++ '=' :: v) ≠ -1 ∧
      (strings.Index ':' (k ++ '=' :: v) < strings.Index '=' (k ++ '=' :: v) ∨
        strings.Index '=' (k ++ '=' :: v) = -1)) := by
    rw [he]
    rintro ⟨hne, hlt | hlt⟩
    · rcases hc with hc | hc
      · exact hne hc
      · omega
    · omega
  unfold splitKeyValue
  dsimp only
  rw [if_neg hcond, strings.SplitN2_append_cons '=' k v h1]

theorem splitKeyValue_colon (k v : Str) (h1 : '=' ∉ k) (h2 : ':' ∉ k) :
    splitKeyValue (k ++ ':' :: v) = some (k, v) := by
  have hc := strings.Index_append_cons ':' k v h2
  have he := strings.Index_append_of_not_mem '=' ':' k v h1 (by decide)
  have hcond : (strings.Index ':' (k ++ ':' :: v) ≠ -1 ∧
      (strings.Index ':' (k ++ ':' :: v) < strings.Index '=' (k ++ ':' :: v) ∨
        strings.Index '=' (k ++ ':' :: v) = -1)) := by
    rw [hc]
    refine ⟨by omega, ?_⟩
    rcases he with he | he
    · exact Or.inr he
    · exact Or.inl he
  unfold splitKeyValue
  dsimp only
  rw [if_pos hcond, strings.SplitN2_append_cons ':' k v h2]

theorem splitKeyValue_eq_none_iff (line : Str) :
    splitKeyValue line = none ↔ '=' ∉ line ∧ ':' ∉ line := by
  constructor
  · intro h
    by_contra hcon
    have hsep : '=' ∈ line ∨ ':' ∈ line := by
      by_cases h1 : '=' ∈ line
      · exact Or.inl h1
      · by_cases h2 : ':' ∈ line
        · exact Or.inr h2
        · exact absurd ⟨h1, h2⟩ hcon
    obtain ⟨k, v, h1, h2, h3 | h3⟩ := exists_first_sep line hsep
    · rw [h3, splitKeyValue_equals k v h1 h2] at h; cases h
    · rw [h3, splitKeyValue_colon k v h1 h2] at h; cases h
  · rintro ⟨h1, h2⟩
    have hc : strings.Index ':' line = -1 := (strings.Index_eq_neg_one_iff ':' line).2 h2
    simp [splitKeyValue, hc, strings.SplitN2_of_not_mem '=' line h1]

/-! ## The comment removal -/

theorem stripComments_of_not_mem (line : Str) (h : '#' ∉ line) : stripComments line = line := by
  simp [stripComments, strings.Contains, h]

theorem keepSegments_step (seg : Str) (rest : List Str) (b : Bool) (keep : List Str) :
    ∃ b' keep', keepSegments (seg :: rest) b keep = keepSegments rest b' keep' ∧
      ∀ s ∈ keep', s ∈ keep ∨ s = seg := by
  simp only [keepSegments]
  split_ifs
  all_goals
    refine ⟨_, _, rfl, ?_⟩
    intro s hs
    simp only [List.mem_append, List.mem_singleton] at hs
    tauto

theorem keepSegments_subset (segs : List Str) (b : Bool) (keep : List Str) :
    ∀ s ∈ keepSegments segs b keep, s ∈ keep ∨ s ∈ segs := by
  induction segs generalizing b keep with
  | nil => intro s hs; exact Or.inl (by simpa [keepSegments] using hs)
  | cons seg rest ih =>
    intro s hs
    obtain ⟨b', keep', he, hk⟩ := keepSegments_step seg rest b keep
    rw [he] at hs
    rcases ih _ _ s hs with h | h
    · rcases hk s h with h | h
      · exact Or.inl h
      · exact Or.inr (by simp [h])
    · exact Or.inr (List.mem_cons_of_mem _ h)

theorem mem_stripComments (line : Str) (x : Char) (h : x ∈ stripComments line) : x ∈ line := by
  unfold stripComments at h
  split at h
  · rename_i hc
    rcases strings.mem_Join '#' _ x h with h | ⟨seg, hseg, hx⟩
    · subst h; simpa [strings.Contains] using hc
    · rcases keepSegments_subset _ _ _ seg hseg with h | h
      · simp at h
      · exact (strings.mem_of_mem_Split '#' line seg h x hx).1
  · exact h

end Env

namespace Env

/-! ## Trimming -/

theorem dropWhile_of_forall_not {p : Char → Bool} (s : Str) (h : ∀ x ∈ s, p x = false) :
    s.dropWhile p = s := by
  cases s with
  | nil => rfl
  | cons x xs => simp [List.dropWhile, h x (List.mem_cons_self _ _)]

theorem rdropWhile_of_forall_not {p : Char → Bool} (s : Str) (h : ∀ x ∈ s, p x = false) :
    s.rdropWhile p = s := by
  rw [List.rdropWhile_eq_self_iff]
  intro hl
  simp [h _ (List.getLast_mem hl)]

theorem dropWhile_replicate_append (p : Char → Bool) (c : Char) (n : Nat) (s : Str)
    (hc : p c = true) : (List.replicate n c ++ s).dropWhile p = s.dropWhile p := by
  induction n with
  | zero => simp
  | succ n ih => simp [List.replicate_succ, List.dropWhile, hc, ih]

theorem rdropWhile_append_replicate (p : Char → Bool) (c : Char) (n : Nat) (s : Str)
    (hc : p c = true) : (s ++ List.replicate n c).rdropWhile p = s.rdropWhile p := by
  induction n with
  | zero => simp
  | succ n ih =>
    rw [List.replicate_succ', ← List.append_assoc, List.rdropWhile_concat, if_pos hc, ih]

theorem Trim_of_ends (s : Str) (c : Char) (h1 : s.head? ≠ some c) (h2 : s.getLast? ≠ some c) :
    strings.Trim s c = s := by
  have hd : s.dropWhile (fun x => x == c) = s := by
    cases s with
    | nil => rfl
    | cons x xs =>
      have : ¬ x = c := by simpa using h1
      exact List.dropWhile_cons_of_neg (by simpa using this)
  unfold strings.Trim
  rw [hd, List.rdropWhile_eq_self_iff]
  intro hl
  have : s.getLast? = some (s.getLast hl) := List.getLast?_eq_getLast _ hl
  intro e
  simp only [beq_iff_eq] at e
  rw [this, e] at h2
  exact h2 rfl

theorem Trim_spaces_around (n k : Nat) (s : Str) (h1 : s.head? ≠ some ' ')
    (h2 : s.getLast? ≠ some ' ') :
    strings.Trim (List.replicate n ' ' ++ (s ++ List.replicate k ' ')) ' ' = s := by
  have hs := Trim_of_ends s ' ' h1 h2
  unfold strings.Trim at hs ⊢
  rw [dropWhile_replicate_append _ _ _ _ (by simp)]
  have hd : s.dropWhile (fun x => x == ' ') = s := by
    cases s with
    | nil => rfl
    | cons x xs =>
      have : ¬ x = ' ' := by simpa using h1
      exact List.dropWhile_cons_of_neg (by simpa using this)
  rw [hd] at hs
  cases s with
  | nil =>
    simp only [List.nil_append]
    have : (List.replicate k ' ').dropWhile (fun x => x == ' ') = [] := by
      rw [List.dropWhile_eq_nil_iff]
      intro x hx
      simp [List.eq_of_mem_replicate hx]
    rw [this]; rfl
  | cons x xs =>
    have hx : ¬ x = ' ' := by simpa using h1
    have : ((x :: xs) ++ List.replicate k ' ').dropWhile (fun x => x == ' ')
        = (x :: xs) ++ List.replicate k ' ' := by
      rw [List.cons_append]
      exact List.dropWhile_cons_of_neg (by simpa using hx)
    rw [this, rdropWhile_append_replicate _ _ _ _ (by simp), hs]

/-! ## Variable expansion -/

theorem matchHead_of_no_dollar (s : Str) (h : '$' ∉ s) : expandVarRegex_matchHead s = none := by
  have hp : strings.HasPrefix s ['\\', '$'] = false := by
    cases s with
    | nil => rfl
    | cons x xs =>
      cases xs with
      | nil => simp [strings.HasPrefix, List.isPrefixOf]
      | cons y ys =>
        have : ¬ y = '$' := by
          intro e; subst e; simp at h
        simp only [strings.HasPrefix, List.isPrefixOf, Bool.and_eq_false_imp, beq_iff_eq,
          Bool.and_true, beq_eq_false_iff_ne, ne_eq]
        intro _ e
        exact this e.symm
  have hh : s.head? ≠ some '$' := by
    cases s with
    | nil => simp
    | cons x xs =>
      intro e
      simp only [List.head?_cons, Option.some.injEq] at e
      subst e; simp at h
  simp [expandVarRegex_matchHead, hp, hh]

theorem replaceGo_of_no_dollar (f : Str → Str) (s : Str) (h : '$' ∉ s) :
    expandVarRegex_replaceGo f 0 s = s := by
  induction s with
  | nil => rfl
  | cons x xs ih =>
    have hxs : '$' ∉ xs := fun hm => h (List.mem_cons_of_mem _ hm)
    simp only [expandVarRegex_replaceGo, matchHead_of_no_dollar _ h, ih hxs]

theorem expandVariables_of_no_dollar (v : Str) (m : EnvMap) (h : '$' ∉ v) :
    expandVariables v m = v := by
  unfold expandVariables expandVarRegex_ReplaceAllStringFunc
  exact replaceGo_of_no_dollar _ v h

theorem replaceGo_skip (f : Str → Str) (n : Nat) (s : Str) :
    expandVarRegex_replaceGo f n s = expandVarRegex_replaceGo f 0 (s.drop n) := by
  induction n generalizing s with
  | zero => rfl
  | succ n ih =>
    cases s with
    | nil => simp [expandVarRegex_replaceGo]
    | cons x xs => simp only [expandVarRegex_replaceGo, List.drop_succ_cons]; exact ih xs

/-- The match of `${NAME}` at the head of a text. -/
theorem matchHead_braced (name rest : Str) (hn : ∀ c ∈ name, isNameChar c = true) :
    expandVarRegex_matchHead ('$' :: '{' :: (name ++ '}' :: rest)) =
      some (['$' :: '{' :: (name ++ ['}']), [], ['$'], [], name], name.length + 3) := by
  have hp : strings.HasPrefix ('$' :: '{' :: (name ++ '}' :: rest)) ['\\', '$'] = false := by
    simp [strings.HasPrefix, List.isPrefixOf]
  have ht : (name ++ '}' :: rest).takeWhile isNameChar = name := by
    rw [List.takeWhile_append_of_pos hn]
    simp [List.takeWhile, show isNameChar '}' = false by decide]
  have hd : (name ++ '}' :: rest).dropWhile isNameChar = '}' :: rest := by
    rw [List.dropWhile_append_of_pos hn]
    simp [List.dropWhile, show isNameChar '}' = false by decide]
  simp [expandVarRegex_matchHead, hp, optChar, ht, hd]

theorem FindStringSubmatch_braced (name rest : Str) (hn : ∀ c ∈ name, isNameChar c = true) :
    expandVarRegex_FindStringSubmatch ('$' :: '{' :: (name ++ '}' :: rest)) =
      some ['$' :: '{' :: (name ++ ['}']), [], ['$'], [], name] := by
  simp [expandVarRegex_FindStringSubmatch, matchHead_braced name rest hn]

/-- A value that is just `${NAME}` expands to the value bound to `NAME`. -/
theorem expandVariables_braced (name : Str) (m : EnvMap) (hn : ∀ c ∈ name, isNameChar c = true)
    (hne : name ≠ []) :
    expandVariables ('$' :: '{' :: (name ++ ['}'])) m = m.get name := by
  unfold expandVariables expandVarRegex_ReplaceAllStringFunc
  simp only [expandVarRegex_replaceGo, matchHead_braced name [] hn, List.getD_cons_zero]
  rw [replaceGo_skip]
  have hdrop : (name ++ ['}']).drop (name.length + 1) = [] := by
    apply List.drop_eq_nil_of_le
    simp
  rw [hdrop, FindStringSubmatch_braced name [] hn]
  simp [expandVarRegex_replaceGo, hne]

end Env

namespace Env

/-! ## Values, keys, lines -/

theorem quotesRegex_none_of_head (q : Char) (s : Str) (h : s.head? ≠ some q) :
    quotesRegex_FindStringSubmatch q s = none := by
  cases s with
  | nil => rfl
  | cons x xs =>
    have : ¬ x = q := by simpa using h
    simp [quotesRegex_FindStringSubmatch, this]

/-- A value that does not start with a quote and holds no `$` is returned trimmed. -/
theorem parseValue_literal (v t : Str) (m : EnvMap) (ht : strings.Trim v ' ' = t)
    (hq1 : t.head? ≠ some '\'') (hq2 : t.head? ≠ some '"') (hd : '$' ∉ t) :
    parseValue v m = .ok t := by
  unfold parseValue
  simp only [ht, singleQuotesRegex_FindStringSubmatch, doubleQuotesRegex_FindStringSubmatch,
    quotesRegex_none_of_head _ t hq1, quotesRegex_none_of_head _ t hq2]
  simp [expandVariables_of_no_dollar t m hd]

theorem parseValue_isOk (v : Str) (m : EnvMap) : ∃ r, parseValue v m = .ok r := by
  unfold parseValue
  dsimp only
  split
  · exact ⟨_, rfl⟩
  · exact ⟨_, rfl⟩

theorem rdropWhile_cons_of_neg (p : Char → Bool) (x : Char) (xs : Str) (h : p x = false) :
    ∃ t, (x :: xs).rdropWhile p = x :: t := by
  have hne : (x :: xs).rdropWhile p ≠ [] := by
    intro e
    rw [List.rdropWhile_eq_nil_iff] at e
    have := e x (List.mem_cons_self _ _)
    simp [h] at this
  have hpre : (x :: xs).rdropWhile p <+: x :: xs := List.rdropWhile_prefix p _
  rcases hr : (x :: xs).rdropWhile p with _ | ⟨y, t⟩
  · exact absurd hr hne
  · rw [hr] at hpre
    obtain ⟨u, hu⟩ := hpre
    simp only [List.cons_append, List.cons.injEq] at hu
    exact ⟨t, by rw [hu.1]⟩

theorem isIgnoredLine_cons (x : Char) (xs : Str) (h1 : strings.IsSpace x = false) (h2 : x ≠ '#') :
    isIgnoredLine (x :: xs) = false := by
  have hd : (x :: xs).dropWhile strings.IsSpace = x :: xs :=
    List.dropWhile_cons_of_neg (by simp [h1])
  obtain ⟨t, ht⟩ := rdropWhile_cons_of_neg strings.IsSpace x xs h1
  have hb : byteLen (x :: t) ≠ 0 := by
    rw [Ne, byteLen_eq_zero_iff]; simp
  have hx : ¬ ('#' = x) := fun e => h2 e.symm
  simp [isIgnoredLine, strings.TrimSpace, hd, ht, hb, strings.HasPrefix, List.isPrefixOf, hx]

theorem ne_nil_of_not_ignored (line : Str) (h : isIgnoredLine line = false) : line ≠ [] := by
  rintro rfl
  revert h
  decide

theorem isRegexSpace_imp_IsSpace (c : Char) (h : isRegexSpace c = true) :
    strings.IsSpace c = true := by
  simp only [isRegexSpace, List.contains_eq_any_beq, List.any_cons, List.any_nil, Bool.or_false,
    Bool.or_eq_true, beq_iff_eq] at h
  rcases h with h | h | h | h | h <;> subst h <;> decide

/-- A key without white space that does not begin with `export` is left as it is. -/
theorem normalizeKey_of_plain (k : Str) (hs : ∀ c ∈ k, strings.IsSpace c = false)
    (he : strings.HasPrefix k "export".toList = false) : normalizeKey k = k := by
  have hr : ∀ c ∈ k, isRegexSpace c = false := by
    intro c hc
    by_contra hcon
    have := isRegexSpace_imp_IsSpace c (by simpa using hcon)
    rw [hs c hc] at this
    cases this
  have hn : '\n' ∉ k := by
    intro hmem
    have := hs _ hmem
    revert this
    decide
  unfold normalizeKey strings.TrimPrefix strings.TrimSpace
  rw [he]
  simp only [Bool.false_eq_true, if_false]
  rw [dropWhile_of_forall_not k hs, rdropWhile_of_forall_not k hs]
  unfold exportRegex_ReplaceAllString
  simp only [dropWhile_of_forall_not k hr, he, Bool.false_eq_true, false_and, if_false,
    rdropWhile_of_forall_not k hr, hn]

theorem nameChar_not_space : ∀ c ∈ strings.unicodeSpaces, isNameChar c = false := by decide

theorem not_IsSpace_of_isNameChar (c : Char) (h : isNameChar c = true) :
    strings.IsSpace c = false := by
  by_contra hs
  have hmem : c ∈ strings.unicodeSpaces := by
    simpa [strings.IsSpace] using hs
  rw [nameChar_not_space c hmem] at h
  cases h

theorem normalizeKey_name (k : Str) (hk : ∀ c ∈ k, isNameChar c = true) : normalizeKey k = k := by
  apply normalizeKey_of_plain k (fun c hc => not_IsSpace_of_isNameChar c (hk c hc))
  cases k with
  | nil => rfl
  | cons x xs =>
    have : ¬ ('e' = x) := by
      intro e
      have := hk x (List.mem_cons_self _ _)
      rw [← e] at this
      revert this
      decide
    simp [strings.HasPrefix, List.isPrefixOf, this]

/-! ## The parsing loop -/

theorem parseLines_append (pre rest : List Str) (m : EnvMap) :
    parseLines (pre ++ rest) m =
      match parseLines pre m with
      | (m', none) => parseLines rest m'
      | (m', some e) => (m', some e) := by
  induction pre generalizing m with
  | nil => simp [parseLines]
  | cons l ls ih =>
    simp only [List.cons_append, parseLines]
    split
    · split
      · rfl
      · exact ih _
    · exact ih _

/-- One line that is not ignored and parses is one insertion into the mapping. -/
theorem parseLines_cons_ok (l : Str) (rest : List Str) (m : EnvMap) (k v : Str)
    (hi : isIgnoredLine l = false) (hp : parseLine l m = .ok (k, v)) :
    parseLines (l :: rest) m = parseLines rest (m.set k v) := by
  simp [parseLines, hi, hp]

theorem parseLine_of_split (line : Str) (m : EnvMap) (k v value : Str) (hne : line ≠ [])
    (hs : splitKeyValue (stripComments line) = some (k, v))
    (hv : parseValue v m = .ok value) :
    parseLine line m = .ok (normalizeKey k, value) := by
  have hb : ¬ byteLen line = 0 := by rw [byteLen_eq_zero_iff]; exact hne
  simp [parseLine, hb, hs, hv]

end Env

namespace Env

/-! ## The mapping -/

theorem EnvMap.get_cons (k0 v0 k : Str) (rest : EnvMap) :
    EnvMap.get ((k0, v0) :: rest) k = if k = k0 then v0 else EnvMap.get rest k := by
  by_cases h : k = k0
  · simp [EnvMap.get, List.lookup, h]
  · have hb : (k == k0) = false := by simpa using h
    simp [EnvMap.get, List.lookup, hb, h]

theorem EnvMap.get_nil (k : Str) : EnvMap.get [] k = [] := rfl

theorem EnvMap.get_set_self (m : EnvMap) (k v : Str) : (m.set k v).get k = v := by
  induction m with
  | nil => simp [EnvMap.set, EnvMap.get, List.lookup]
  | cons p rest ih =>
    obtain ⟨k', v'⟩ := p
    by_cases h : k' = k
    · simp [EnvMap.set, h, EnvMap.get, List.lookup]
    · have hb : (k == k') = false := by simpa using fun e => h e.symm
      simp only [EnvMap.set, h, if_false, EnvMap.get, List.lookup, hb]
      exact ih

theorem EnvMap.get_set_ne (m : EnvMap) (k k' v : Str) (h : k' ≠ k) :
    (m.set k v).get k' = m.get k' := by
  induction m with
  | nil =>
    have hb : (k' == k) = false := by simpa using h
    simp [EnvMap.set, EnvMap.get, List.lookup, hb]
  | cons p rest ih =>
    obtain ⟨k0, v0⟩ := p
    by_cases h0 : k0 = k
    · subst h0
      have hb : (k' == k0) = false := by simpa using h
      simp [EnvMap.set, EnvMap.get, List.lookup, hb]
    · simp only [EnvMap.set, h0, if_false, EnvMap.get, List.lookup]
      cases hb : (k' == k0)
      · exact ih
      · rfl

theorem parseValue_unquoted (v t : Str) (m : EnvMap) (ht : strings.Trim v ' ' = t)
    (hlen : 1 < byteLen t) (hq1 : t.head? ≠ some '\'') (hq2 : t.head? ≠ some '"') :
    parseValue v m = .ok (expandVariables t m) := by
  unfold parseValue
  have hl : ¬ byteLen t ≤ 1 := by omega
  simp only [ht, singleQuotesRegex_FindStringSubmatch, doubleQuotesRegex_FindStringSubmatch,
    quotesRegex_none_of_head _ t hq1, quotesRegex_none_of_head _ t hq2, hl]
  simp

theorem not_mem_of_forall (p : Char → Bool) (s : Str) (h : ∀ c ∈ s, p c = true) (x : Char)
    (hx : p x = false) : x ∉ s := by
  intro hm
  rw [h x hm] at hx
  cases hx

/-- A line `K=v` with a name `K` and a value of letters and digits parses to `(K, v)`
whatever the mapping. -/
theorem parseLine_plain (K v : Str) (m : EnvMap) (hK : K ≠ []) (hKn : ∀ c ∈ K, isNameChar c = true)
    (hv : ∀ c ∈ v, c.isAlphanum = true) :
    isIgnoredLine (K ++ '=' :: v) = false ∧ parseLine (K ++ '=' :: v) m = .ok (K, v) := by
  have hKeq : '=' ∉ K := not_mem_of_forall _ _ hKn _ (by decide)
  have hKcol : ':' ∉ K := not_mem_of_forall _ _ hKn _ (by decide)
  constructor
  · obtain ⟨a, as, rfl⟩ := List.exists_cons_of_ne_nil hK
    have ha := hKn a (List.mem_cons_self _ _)
    refine isIgnoredLine_cons a _ (not_IsSpace_of_isNameChar a ha) ?_
    rintro rfl; revert ha; decide
  · have hh : '#' ∉ K ++ '=' :: v := by
      intro hm
      rcases List.mem_append.1 hm with h | h
      · exact not_mem_of_forall _ _ hKn _ (by decide) h
      · rcases List.mem_cons.1 h with h | h
        · revert h; decide
        · exact not_mem_of_forall _ _ hv _ (by decide) h
    have hsplit := splitKeyValue_equals K v hKeq hKcol
    have hval : parseValue v m = .ok v := by
      apply parseValue_literal v v m
      · apply Trim_of_ends
        · cases v with
          | nil => simp
          | cons x xs =>
            have := hv x (List.mem_cons_self _ _)
            simp only [List.head?_cons, ne_eq, Option.some.injEq]
            rintro rfl; revert this; decide
        · intro e
          have := hv _ (List.mem_of_getLast?_eq_some e)
          revert this; decide
      · cases v with
        | nil => simp
        | cons x xs =>
          have := hv x (List.mem_cons_self _ _)
          simp only [List.head?_cons, ne_eq, Option.some.injEq]
          rintro rfl; revert this; decide
      · cases v with
        | nil => simp
        | cons x xs =>
          have := hv x (List.mem_cons_self _ _)
          simp only [List.head?_cons, ne_eq, Option.some.injEq]
          rintro rfl; revert this; decide
      · exact not_mem_of_forall _ _ hv _ (by decide)
    have := parseLine_of_split (K ++ '=' :: v) m K v v (by simp)
      (by rw [stripComments_of_not_mem _ hh]; exact hsplit) hval
    rw [this, normalizeKey_name _ hKn]

/-- A line `K=${NAME}` parses to `K` bound to the value `NAME` has in the mapping. -/
theorem parseLine_reference (K name : Str) (m : EnvMap) (hKn : ∀ c ∈ K, isNameChar c = true)
    (hn : name ≠ []) (hnn : ∀ c ∈ name, isNameChar c = true) :
    isIgnoredLine (K ++ '=' :: '$' :: '{' :: (name ++ ['}'])) = false ∧
      parseLine (K ++ '=' :: '$' :: '{' :: (name ++ ['}'])) m = .ok (K, m.get name) := by
  constructor
  · cases K with
    | nil => exact isIgnoredLine_cons '=' _ (by decide) (by decide)
    | cons a as =>
      have ha := hKn a (List.mem_cons_self _ _)
      refine isIgnoredLine_cons a _ (not_IsSpace_of_isNameChar a ha) ?_
      rintro rfl; revert ha; decide
  · have hh : '#' ∉ K ++ '=' :: '$' :: '{' :: (name ++ ['}']) := by
      simp only [List.mem_append, List.mem_cons, List.mem_singleton, not_or]
      exact ⟨not_mem_of_forall _ _ hKn _ (by decide), by decide, by decide, by decide,
        not_mem_of_forall _ _ hnn _ (by decide), by decide, by simp⟩
    have hsplit := splitKeyValue_equals K ('$' :: '{' :: (name ++ ['}']))
      (not_mem_of_forall _ _ hKn _ (by decide)) (not_mem_of_forall _ _ hKn _ (by decide))
    have hval : parseValue ('$' :: '{' :: (name ++ ['}'])) m = .ok (m.get name) := by
      rw [parseValue_unquoted _ ('$' :: '{' :: (name ++ ['}'])) m, expandVariables_braced name m hnn hn]
      · apply Trim_of_ends
        · simp
        · rw [show '$' :: '{' :: (name ++ ['}']) = ('$' :: '{' :: name) ++ ['}'] by simp,
            List.getLast?_concat]
          simp
      · have := length_le_byteLen ('$' :: '{' :: (name ++ ['}']))
        simp only [List.length_cons, List.length_append, List.length_nil] at this
        omega
      · simp
      · simp
    have := parseLine_of_split (K ++ '=' :: '$' :: '{' :: (name ++ ['}'])) m K _ _ (by simp)
      (by rw [stripComments_of_not_mem _ hh]; exact hsplit) hval
    rw [this, normalizeKey_name _ hKn]

/-! ## The claims -/

/-- C1. References are resolved against the entries of strictly earlier lines only: for
distinct names `A`, `B` (upper-case letters, digits, underscore) and a value `v` of
letters and digits, `FromReader` on the lines `A=v`, `B=${A}` gives `B = v`, and on the
lines `B=${A}`, `A=v` it gives `B = ""` and `A = v`; neither reports an error. -/
theorem FromReader_reference_order (A B v : Str) (hA : A ≠ [])
    (hAn : ∀ c ∈ A, isNameChar c = true) (hBn : ∀ c ∈ B, isNameChar c = true) (hAB : A ≠ B)
    (hv : ∀ c ∈ v, c.isAlphanum = true) :
    (FromReader (.ok [A ++ '=' :: v, B ++ '=' :: '$' :: '{' :: (A ++ ['}'])])
        = ([(A, v), (B, v)], none) ∧
      (FromReader (.ok [A ++ '=' :: v, B ++ '=' :: '$' :: '{' :: (A ++ ['}'])])).1.get B = v) ∧
    (FromReader (.ok [B ++ '=' :: '$' :: '{' :: (A ++ ['}']), A ++ '=' :: v])
        = ([(B, []), (A, v)], none) ∧
      (FromReader (.ok [B ++ '=' :: '$' :: '{' :: (A ++ ['}']), A ++ '=' :: v])).1.get B = [] ∧
      (FromReader (.ok [B ++ '=' :: '$' :: '{' :: (A ++ ['}']), A ++ '=' :: v])).1.get A = v) := by
  have hBA : ¬ B = A := fun e => hAB e.symm
  have h1 : FromReader (.ok [A ++ '=' :: v, B ++ '=' :: '$' :: '{' :: (A ++ ['}'])])
      = ([(A, v), (B, v)], none) := by
    unfold FromReader
    dsimp only
    rw [parseLines_cons_ok _ _ [] A v (parseLine_plain A v [] hA hAn hv).1
        (parseLine_plain A v [] hA hAn hv).2,
      parseLines_cons_ok _ _ _ B _ (parseLine_reference B A (EnvMap.set [] A v) hBn hA hAn).1
        (parseLine_reference B A (EnvMap.set [] A v) hBn hA hAn).2]
    simp [parseLines, EnvMap.set, EnvMap.get_cons, hAB]
  have h2 : FromReader (.ok [B ++ '=' :: '$' :: '{' :: (A ++ ['}']), A ++ '=' :: v])
      = ([(B, []), (A, v)], none) := by
    unfold FromReader
    dsimp only
    rw [parseLines_cons_ok _ _ [] B _ (parseLine_reference B A [] hBn hA hAn).1
        (parseLine_reference B A [] hBn hA hAn).2,
      parseLines_cons_ok _ _ _ A v (parseLine_plain A v (EnvMap.set [] B (EnvMap.get [] A)) hA hAn hv).1
        (parseLine_plain A v (EnvMap.set [] B (EnvMap.get [] A)) hA hAn hv).2]
    simp [parseLines, EnvMap.set, EnvMap.get_nil, hBA]
  refine ⟨⟨h1, ?_⟩, h2, ?_, ?_⟩
  · rw [h1]; simp [EnvMap.get_cons, hBA]
  · rw [h2]; simp [EnvMap.get_cons]
  · rw [h2]; simp [EnvMap.get_cons, hAB]

/-- C1 at `A=1`, `B=${A}`. -/
theorem FromReader_reference_order_witness :
    FromReader (.ok [['A', '=', '1'], ['B', '=', '$', '{', 'A', '}']])
        = ([(['A'], ['1']), (['B'], ['1'])], none) ∧
    FromReader (.ok [['B', '=', '$', '{', 'A', '}'], ['A', '=', '1']])
        = ([(['B'], []), (['A'], ['1'])], none) :=
  have h := FromReader_reference_order ['A'] ['B'] ['1'] (by decide) (by decide) (by decide)
    (by decide) (by decide)
  ⟨h.1.1, h.2.1⟩

end Env

namespace Env

/-- C2. Partial result with error: when the lines `pre` parse without error and `bad` is
a line that is not ignored and holds neither `=` nor `:`, `FromReader` on
`pre ++ [bad] ++ post` reports an error together with exactly the mapping it returns
for `pre`; no line of `post` contributes. -/
theorem FromReader_partial_result (pre post : List Str) (bad : Str)
    (hpre : (FromReader (.ok pre)).2 = none) (hbad : isIgnoredLine bad = false)
    (heq : '=' ∉ bad) (hcol : ':' ∉ bad) :
    FromReader (.ok (pre ++ bad :: post))
      = ((FromReader (.ok pre)).1, some Error.cantSeparate) := by
  have hne : ¬ byteLen bad = 0 := by
    rw [byteLen_eq_zero_iff]; exact ne_nil_of_not_ignored bad hbad
  have hsplit : splitKeyValue (stripComments bad) = none :=
    (splitKeyValue_eq_none_iff _).2
      ⟨fun h => heq (mem_stripComments bad _ h), fun h => hcol (mem_stripComments bad _ h)⟩
  have hline : ∀ m, parseLine bad m = .error Error.cantSeparate := by
    intro m
    simp [parseLine, hne, hsplit]
  unfold FromReader at hpre ⊢
  dsimp only at hpre ⊢
  rw [parseLines_append]
  rcases hp : parseLines pre [] with ⟨m', e⟩
  rw [hp] at hpre
  dsimp only at hpre
  subst hpre
  simp [parseLines, hbad, hline]

/-- C2 at `A=1`, `BADLINE`, `C=3`. -/
theorem FromReader_partial_result_witness :
    FromReader (.ok ([['A', '=', '1']] ++ "BADLINE".toList :: [['C', '=', '3']]))
      = ([(['A'], ['1'])], some Error.cantSeparate) :=
  FromReader_partial_result [['A', '=', '1']] [['C', '=', '3']] "BADLINE".toList
    (by decide) (by decide) (by decide) (by decide)

/-- C3. `parseLine` fails exactly when the line is empty or, after the comment removal,
holds neither `=` nor `:`; a line that still holds one of them after the comment
removal is parsed without error. -/
theorem parseLine_error_iff (line : Str) (m : EnvMap) :
    ((∃ e, parseLine line m = .error e) ↔
      (line = [] ∨ ('=' ∉ stripComments line ∧ ':' ∉ stripComments line))) ∧
    (('=' ∈ stripComments line ∨ ':' ∈ stripComments line) →
      ∃ key value, parseLine line m = .ok (key, value)) := by
  have hok : ('=' ∈ stripComments line ∨ ':' ∈ stripComments line) →
      ∃ key value, parseLine line m = .ok (key, value) := by
    intro h
    have hne : line ≠ [] := by
      rintro rfl
      revert h
      decide
    rcases hs : splitKeyValue (stripComments line) with _ | ⟨k, v⟩
    · rw [splitKeyValue_eq_none_iff] at hs
      rcases h with h | h
      · exact absurd h hs.1
      · exact absurd h hs.2
    · obtain ⟨value, hv⟩ := parseValue_isOk v m
      exact ⟨normalizeKey k, value, parseLine_of_split line m k v value hne hs hv⟩
  refine ⟨⟨?_, ?_⟩, hok⟩
  · rintro ⟨e, he⟩
    by_cases hl : line = []
    · exact Or.inl hl
    · right
      by_contra hcon
      have hsep : '=' ∈ stripComments line ∨ ':' ∈ stripComments line := by
        by_cases h1 : '=' ∈ stripComments line
        · exact Or.inl h1
        · by_cases h2 : ':' ∈ stripComments line
          · exact Or.inr h2
          · exact absurd ⟨h1, h2⟩ hcon
      obtain ⟨key, value, hkv⟩ := hok hsep
      rw [hkv] at he
      cases he
  · rintro (hl | hs)
    · subst hl
      exact ⟨Error.zeroLength, rfl⟩
    · by_cases hb : byteLen line = 0
      · exact ⟨Error.zeroLength, by simp [parseLine, hb]⟩
      · exact ⟨Error.cantSeparate, by
          simp [parseLine, hb, (splitKeyValue_eq_none_iff _).2 hs]⟩

/-- C4. Separator choice, on a line without `#`: when the text `k` before the first `:`
holds no `=`, the raw key is `k` and the raw value all that follows that `:`; when the
text `k` before the first `=` holds no `:`, the raw key is `k` and the raw value all
that follows that `=`, further `=` and `:` included. The entry is the normalized
key with the parsed value. -/
theorem parseLine_separator_choice (k v : Str) (m : EnvMap) (hk1 : '=' ∉ k) (hk2 : ':' ∉ k)
    (hk3 : '#' ∉ k) (hv : '#' ∉ v) :
    (splitKeyValue (stripComments (k ++ ':' :: v)) = some (k, v) ∧
      parseLine (k ++ ':' :: v) m = (parseValue v m).map (fun value => (normalizeKey k, value))) ∧
    (splitKeyValue (stripComments (k ++ '=' :: v)) = some (k, v) ∧
      parseLine (k ++ '=' :: v) m = (parseValue v m).map (fun value => (normalizeKey k, value))) := by
  have hh : ∀ c : Char, c ≠ '#' → '#' ∉ k ++ c :: v := by
    intro c hc hm
    rcases List.mem_append.1 hm with h | h
    · exact hk3 h
    · rcases List.mem_cons.1 h with h | h
      · exact hc h.symm
      · exact hv h
  obtain ⟨value, hval⟩ := parseValue_isOk v m
  have hc : splitKeyValue (stripComments (k ++ ':' :: v)) = some (k, v) := by
    rw [stripComments_of_not_mem _ (hh ':' (by decide))]
    exact splitKeyValue_colon k v hk1 hk2
  have he : splitKeyValue (stripComments (k ++ '=' :: v)) = some (k, v) := by
    rw [stripComments_of_not_mem _ (hh '=' (by decide))]
    exact splitKeyValue_equals k v hk1 hk2
  refine ⟨⟨hc, ?_⟩, he, ?_⟩
  · rw [parseLine_of_split _ m k v value (by simp) hc hval, hval]; rfl
  · rw [parseLine_of_split _ m k v value (by simp) he hval, hval]; rfl

/-- C4 at `KEY: value=1` and at `A='postgres://h:5432/db?sslmode=disable'`. -/
theorem parseLine_separator_choice_witness :
    parseLine "KEY: value=1".toList [] = .ok ("KEY".toList, "value=1".toList) ∧
    parseLine "A='postgres://h:5432/db?sslmode=disable'".toList []
      = .ok ("A".toList, "postgres://h:5432/db?sslmode=disable".toList) :=
  ⟨(parseLine_separator_choice "KEY".toList " value=1".toList [] (by decide) (by decide)
      (by decide) (by decide)).1.2.trans rfl,
    (parseLine_separator_choice "A".toList "'postgres://h:5432/db?sslmode=disable'".toList []
      (by decide) (by decide) (by decide) (by decide)).2.2.trans rfl⟩

end Env

namespace Env

/-! ## Keys of the mapping under the parsing loop -/

theorem parseLine_ok_inv (line : Str) (m : EnvMap) (k v : Str) (h : parseLine line m = .ok (k, v)) :
    line ≠ [] ∧ ∃ rk rv, splitKeyValue (stripComments line) = some (rk, rv) ∧
      k = normalizeKey rk ∧ parseValue rv m = .ok v := by
  unfold parseLine at h
  split at h
  · cases h
  · rename_i hb
    refine ⟨fun e => hb ((byteLen_eq_zero_iff line).2 e), ?_⟩
    split at h
    · cases h
    · rename_i rk rv hs
      refine ⟨rk, rv, hs, ?_⟩
      split at h
      · rename_i value hv
        simp only [Except.ok.injEq, Prod.mk.injEq] at h
        exact ⟨h.1.symm, by rw [hv, h.2]⟩
      · cases h

theorem lineKey_of_parseLine (line : Str) (m : EnvMap) (k v : Str)
    (h : parseLine line m = .ok (k, v)) : lineKey line = some k := by
  obtain ⟨hne, rk, rv, hs, hk, _⟩ := parseLine_ok_inv line m k v h
  obtain ⟨value, hv⟩ := parseValue_isOk rv []
  simp [lineKey, parseLine_of_split line [] rk rv value hne hs hv, hk]

theorem EnvMap.keys_set (m : EnvMap) (k v : Str) :
    (m.set k v).keys = if k ∈ m.keys then m.keys else m.keys ++ [k] := by
  induction m with
  | nil => simp [EnvMap.set, EnvMap.keys]
  | cons p rest ih =>
    obtain ⟨k0, v0⟩ := p
    by_cases h0 : k0 = k
    · subst h0
      simp [EnvMap.set, EnvMap.keys]
    · have hne : ¬ k = k0 := fun e => h0 e.symm
      simp only [EnvMap.keys] at ih
      simp only [EnvMap.set, h0, if_false, EnvMap.keys, List.map_cons, List.mem_cons, hne,
        false_or, ih]
      split <;> simp

theorem EnvMap.mem_keys_set (m : EnvMap) (k v k' : Str) :
    k' ∈ (m.set k v).keys ↔ k' = k ∨ k' ∈ m.keys := by
  rw [EnvMap.keys_set]
  split
  · rename_i hk
    constructor
    · exact Or.inr
    · rintro (h | h)
      · rw [h]; exact hk
      · exact h
  · simp [or_comm]

theorem EnvMap.nodup_keys_set (m : EnvMap) (k v : Str) (h : m.keys.Nodup) :
    (m.set k v).keys.Nodup := by
  rw [EnvMap.keys_set]
  split
  · exact h
  · rename_i hk
    rw [List.nodup_append]
    refine ⟨h, List.nodup_singleton k, ?_⟩
    intro a ha hb
    simp only [List.mem_singleton] at hb
    exact hk (hb ▸ ha)

/-- The keys after a successful pass: those present before, and the keys of the lines
that are not ignored. -/
theorem parseLines_keys (ls : List Str) (m0 m : EnvMap) (h : parseLines ls m0 = (m, none))
    (hn : m0.keys.Nodup) :
    m.keys.Nodup ∧ ∀ k, k ∈ m.keys ↔
      (k ∈ m0.keys ∨ ∃ l ∈ ls, isIgnoredLine l = false ∧ lineKey l = some k) := by
  induction ls generalizing m0 with
  | nil =>
    simp only [parseLines, Prod.mk.injEq, and_true] at h
    subst h
    exact ⟨hn, by simp⟩
  | cons l rest ih =>
    by_cases hi : isIgnoredLine l = false
    · rcases hp : parseLine l m0 with e | ⟨k0, v0⟩
      · simp [parseLines, hi, hp] at h
      · rw [parseLines_cons_ok l rest m0 k0 v0 hi hp] at h
        obtain ⟨h1, h2⟩ := ih _ h (EnvMap.nodup_keys_set m0 k0 v0 hn)
        refine ⟨h1, fun k => ?_⟩
        rw [h2 k, EnvMap.mem_keys_set]
        have hk0 := lineKey_of_parseLine l m0 k0 v0 hp
        constructor
        · rintro ((hk | hk) | ⟨l', hl', hig, hkey⟩)
          · exact Or.inr ⟨l, List.mem_cons_self _ _, hi, by rw [hk0, hk]⟩
          · exact Or.inl hk
          · exact Or.inr ⟨l', List.mem_cons_of_mem _ hl', hig, hkey⟩
        · rintro (hk | ⟨l', hl', hig, hkey⟩)
          · exact Or.inl (Or.inr hk)
          · rcases List.mem_cons.1 hl' with hl' | hl'
            · subst hl'
              rw [hk0] at hkey
              exact Or.inl (Or.inl (Option.some.inj hkey).symm)
            · exact Or.inr ⟨l', hl', hig, hkey⟩
    · have hi' : isIgnoredLine l = true := by simpa using hi
      have hstep : parseLines (l :: rest) m0 = parseLines rest m0 := by
        simp [parseLines, hi']
      rw [hstep] at h
      obtain ⟨h1, h2⟩ := ih _ h hn
      refine ⟨h1, fun k => ?_⟩
      rw [h2 k]
      constructor
      · rintro (hk | ⟨l', hl', hig, hkey⟩)
        · exact Or.inl hk
        · exact Or.inr ⟨l', List.mem_cons_of_mem _ hl', hig, hkey⟩
      · rintro (hk | ⟨l', hl', hig, hkey⟩)
        · exact Or.inl hk
        · rcases List.mem_cons.1 hl' with hl' | hl'
          · subst hl'
            rw [hi'] at hig
            cases hig
          · exact Or.inr ⟨l', hl', hig, hkey⟩

/-- Lines that do not assign `k` leave the value of `k` as it was. -/
theorem parseLines_get_of_no_key (ls : List Str) (m0 m : EnvMap) (k : Str)
    (h : parseLines ls m0 = (m, none))
    (hk : ∀ l ∈ ls, isIgnoredLine l = false → lineKey l ≠ some k) : m.get k = m0.get k := by
  induction ls generalizing m0 with
  | nil =>
    simp only [parseLines, Prod.mk.injEq, and_true] at h
    rw [h]
  | cons l rest ih =>
    have hrest : ∀ l' ∈ rest, isIgnoredLine l' = false → lineKey l' ≠ some k :=
      fun l' hl' => hk l' (List.mem_cons_of_mem _ hl')
    by_cases hi : isIgnoredLine l = false
    · rcases hp : parseLine l m0 with e | ⟨k0, v0⟩
      · simp [parseLines, hi, hp] at h
      · rw [parseLines_cons_ok l rest m0 k0 v0 hi hp] at h
        rw [ih _ h hrest]
        apply EnvMap.get_set_ne
        intro e
        apply hk l (List.mem_cons_self _ _) hi
        rw [lineKey_of_parseLine l m0 k0 v0 hp, e]
    · have hi' : isIgnoredLine l = true := by simpa using hi
      have hstep : parseLines (l :: rest) m0 = parseLines rest m0 := by
        simp [parseLines, hi']
      rw [hstep] at h
      exact ih _ h hrest

/-- C5. Last write wins: when `FromReader` succeeds, the value of a key is the value
parsed from the last line that assigns it, parsed against the mapping as it stood
just before that line; and the mapping holds exactly one entry for each distinct
normalized key of the lines that are not ignored. -/
theorem FromReader_last_write_wins (lines : List Str) (m : EnvMap)
    (h : FromReader (.ok lines) = (m, none)) :
    (∀ pre l post k v, lines = pre ++ l :: post → isIgnoredLine l = false →
      parseLine l (FromReader (.ok pre)).1 = .ok (k, v) →
      (∀ l' ∈ post, isIgnoredLine l' = false → lineKey l' ≠ some k) →
      m.get k = v) ∧
    m.keys.Nodup ∧
    (∀ k, k ∈ m.keys ↔ ∃ l ∈ lines, isIgnoredLine l = false ∧ lineKey l = some k) := by
  unfold FromReader at h
  dsimp only at h
  refine ⟨?_, ?_, ?_⟩
  · intro pre l post k v hl hi hp hpost
    subst hl
    unfold FromReader at hp
    dsimp only at hp
    rw [parseLines_append] at h
    rcases hpre : parseLines pre [] with ⟨m1, e1⟩
    rw [hpre] at h hp
    dsimp only at hp
    cases e1 with
    | some e => simp at h
    | none =>
      dsimp only at h
      rw [parseLines_cons_ok l post m1 k v hi hp] at h
      rw [parseLines_get_of_no_key post _ m k h hpost, EnvMap.get_set_self]
  · exact (parseLines_keys lines [] m h (by simp [EnvMap.keys])).1
  · intro k
    rw [(parseLines_keys lines [] m h (by simp [EnvMap.keys])).2 k]
    simp [EnvMap.keys]

/-- C5 at `A=1`, `B=2`, `A=3`: the value of `A` is the one of the third line, and the
keys are `A` and `B`, once each. -/
theorem FromReader_last_write_wins_witness :
    EnvMap.get [(['A'], ['3']), (['B'], ['2'])] ['A'] = ['3'] ∧
    EnvMap.keys [(['A'], ['3']), (['B'], ['2'])] = [['A'], ['B']] :=
  ⟨(FromReader_last_write_wins [['A', '=', '1'], ['B', '=', '2'], ['A', '=', '3']]
      [(['A'], ['3']), (['B'], ['2'])] rfl).1
      [['A', '=', '1'], ['B', '=', '2']] ['A', '=', '3'] [] ['A'] ['3'] rfl rfl rfl
      (by simp), rfl⟩

end Env

namespace Env

/-! ## Steps of the comment removal -/

theorem keepSegments_toggle_closed (seg : Str) (rest keep : List Str)
    (h : strings.Count seg '"' = 1 ∨ strings.Count seg '\'' = 1) :
    keepSegments (seg :: rest) false keep = keepSegments rest true (keep ++ [seg]) := by
  simp [keepSegments, h]

theorem keepSegments_toggle_open (seg : Str) (rest keep : List Str)
    (h : strings.Count seg '"' = 1 ∨ strings.Count seg '\'' = 1) :
    keepSegments (seg :: rest) true keep = keepSegments rest false (keep ++ [seg]) := by
  simp [keepSegments, h]

theorem keepSegments_plain_closed (seg : Str) (rest keep : List Str)
    (h1 : strings.Count seg '"' ≠ 1) (h2 : strings.Count seg '\'' ≠ 1) (hk : keep ≠ []) :
    keepSegments (seg :: rest) false keep = keepSegments rest false keep := by
  simp [keepSegments, h1, h2, hk]

theorem keepSegments_plain_open (seg : Str) (rest keep : List Str)
    (h1 : strings.Count seg '"' ≠ 1) (h2 : strings.Count seg '\'' ≠ 1) :
    keepSegments (seg :: rest) true keep = keepSegments rest true (keep ++ [seg]) := by
  simp [keepSegments, h1, h2]

theorem keepSegments_plain_first (seg : Str) (rest : List Str)
    (h1 : strings.Count seg '"' ≠ 1) (h2 : strings.Count seg '\'' ≠ 1) :
    keepSegments (seg :: rest) false [] = keepSegments rest false [seg] := by
  simp [keepSegments, h1, h2]

theorem Contains_append_cons (a b : Str) (c : Char) : strings.Contains (a ++ c :: b) c = true := by
  simp [strings.Contains]

/-- A `#` between a segment that opens a quote and a segment that closes it is kept. -/
theorem stripComments_quoted_hash (s1 s2 : Str) (h1 : '#' ∉ s1) (h2 : '#' ∉ s2)
    (ht1 : strings.Count s1 '"' = 1 ∨ strings.Count s1 '\'' = 1)
    (ht2 : strings.Count s2 '"' = 1 ∨ strings.Count s2 '\'' = 1) :
    stripComments (s1 ++ '#' :: s2) = s1 ++ '#' :: s2 := by
  unfold stripComments
  rw [Contains_append_cons, if_pos rfl, strings.Split_append_cons '#' s1 s2 h1,
    strings.Split_of_not_mem '#' s2 h2, keepSegments_toggle_closed s1 _ _ ht1,
    keepSegments_toggle_open s2 _ _ ht2]
  simp [keepSegments, strings.Join]

/-! ## Quoted values -/

theorem quotesRegex_quoted (q : Char) (x : Str) (h : '\n' ∉ x) :
    quotesRegex_FindStringSubmatch q (q :: (x ++ [q])) = some [q :: (x ++ [q]), x] := by
  simp [quotesRegex_FindStringSubmatch, h]

theorem escapeRegex_of_no_backslash (f : Str → Str) (x : Str) (h : '\\' ∉ x) :
    escapeRegex_ReplaceAllStringFunc f x = x := by
  induction x with
  | nil => rfl
  | cons a as ih =>
    have ha : ¬ a = '\\' := by
      intro e; subst e; simp at h
    have has : '\\' ∉ as := fun hm => h (List.mem_cons_of_mem _ hm)
    cases as with
    | nil => rfl
    | cons b bs =>
      simp only [escapeRegex_ReplaceAllStringFunc, ha, false_and, if_false, ih has]

theorem unescapeCharsRegex_of_no_backslash (x : Str) (h : '\\' ∉ x) :
    unescapeCharsRegex_ReplaceAllString x = x := by
  induction x with
  | nil => rfl
  | cons a as ih =>
    have ha : ¬ a = '\\' := by
      intro e; subst e; simp at h
    have has : '\\' ∉ as := fun hm => h (List.mem_cons_of_mem _ hm)
    cases as with
    | nil => rfl
    | cons b bs =>
      simp only [unescapeCharsRegex_ReplaceAllString, ha, false_and, if_false, ih has]

theorem byteLen_quoted (q : Char) (x : Str) : ¬ byteLen (q :: (x ++ [q])) ≤ 1 := by
  have := length_le_byteLen (q :: (x ++ [q]))
  simp only [List.length_cons, List.length_append, List.length_nil] at this
  omega

theorem Trim_quoted (q : Char) (x : Str) (n k : Nat) (hq : q ≠ ' ') :
    strings.Trim (List.replicate n ' ' ++ (q :: (x ++ [q]) ++ List.replicate k ' ')) ' '
      = q :: (x ++ [q]) := by
  apply Trim_spaces_around
  · simpa using hq
  · rw [show q :: (x ++ [q]) = (q :: x) ++ [q] by simp, List.getLast?_concat]
    simpa using hq

/-- A single-quoted value, spaces around it or not, is its interior. -/
theorem parseValue_single (x : Str) (m : EnvMap) (n k : Nat) (hx : '\n' ∉ x) :
    parseValue (List.replicate n ' ' ++ ('\'' :: (x ++ ['\'']) ++ List.replicate k ' ')) m
      = .ok x := by
  unfold parseValue
  simp only [Trim_quoted '\'' x n k (by decide), byteLen_quoted, if_false,
    singleQuotesRegex_FindStringSubmatch, doubleQuotesRegex_FindStringSubmatch,
    quotesRegex_quoted '\'' x hx,
    quotesRegex_none_of_head '"' ('\'' :: (x ++ ['\''])) (by simp)]
  simp

/-- A double-quoted value, spaces around it or not: the interior goes through the two
escape passes and the expansion. -/
theorem parseValue_double (x : Str) (m : EnvMap) (n k : Nat) (hx : '\n' ∉ x) :
    parseValue (List.replicate n ' ' ++ ('"' :: (x ++ ['"']) ++ List.replicate k ' ')) m
      = .ok (expandVariables (unescapeCharsRegex_ReplaceAllString
          (escapeRegex_ReplaceAllStringFunc (fun mtch =>
            if strings.TrimPrefix mtch ['\\'] = ['n'] then ['\n']
            else if strings.TrimPrefix mtch ['\\'] = ['r'] then ['\r']
            else mtch) x)) m) := by
  unfold parseValue
  simp only [Trim_quoted '"' x n k (by decide), byteLen_quoted, if_false,
    singleQuotesRegex_FindStringSubmatch, doubleQuotesRegex_FindStringSubmatch,
    quotesRegex_quoted '"' x hx,
    quotesRegex_none_of_head '\'' ('"' :: (x ++ ['"'])) (by simp)]
  simp

theorem parseValue_double_plain (x : Str) (m : EnvMap) (hn : '\n' ∉ x) (hb : '\\' ∉ x)
    (hd : '$' ∉ x) : parseValue ('"' :: (x ++ ['"'])) m = .ok x := by
  have := parseValue_double x m 0 0 hn
  simp only [List.replicate_zero, List.nil_append, List.append_nil] at this
  rw [this, escapeRegex_of_no_backslash _ x hb, unescapeCharsRegex_of_no_backslash x hb,
    expandVariables_of_no_dollar x m hd]

end Env

namespace Env

theorem Count_eq_zero_of_not_mem (s : Str) (c : Char) (h : c ∉ s) : strings.Count s c = 0 := by
  simp [strings.Count, List.count_eq_zero, h]

/-- The line `K=<q>a#b<q>`, for a quote character `q` that occurs in none of `K`, `a`,
`b`: the comment removal leaves it whole and the separator step splits it at the `=`
that follows `K`. -/
theorem split_quoted_hash (q : Char) (K a b : Str) (hq : q = '"' ∨ q = '\'')
    (hKn : ∀ c ∈ K, isNameChar c = true)
    (ha : ∀ c ∈ a, c ≠ '"' ∧ c ≠ '\'' ∧ c ≠ '#')
    (hb : ∀ c ∈ b, c ≠ '"' ∧ c ≠ '\'' ∧ c ≠ '#') :
    splitKeyValue (stripComments (K ++ '=' :: q :: (a ++ '#' :: (b ++ [q]))))
      = some (K, q :: ((a ++ '#' :: b) ++ [q])) := by
  have hKd : '"' ∉ K := not_mem_of_forall _ _ hKn _ (by decide)
  have hKs : '\'' ∉ K := not_mem_of_forall _ _ hKn _ (by decide)
  have hKh : '#' ∉ K := not_mem_of_forall _ _ hKn _ (by decide)
  have had : '"' ∉ a := fun h => (ha _ h).1 rfl
  have has : '\'' ∉ a := fun h => (ha _ h).2.1 rfl
  have hah : '#' ∉ a := fun h => (ha _ h).2.2 rfl
  have hbd : '"' ∉ b := fun h => (hb _ h).1 rfl
  have hbs : '\'' ∉ b := fun h => (hb _ h).2.1 rfl
  have hbh : '#' ∉ b := fun h => (hb _ h).2.2 rfl
  have hre : K ++ '=' :: q :: (a ++ '#' :: (b ++ [q])) = (K ++ '=' :: q :: a) ++ '#' :: (b ++ [q]) := by
    simp
  have hqh : q ≠ '#' := by rcases hq with rfl | rfl <;> decide
  have h1 : '#' ∉ K ++ '=' :: q :: a := by
    intro hm
    rcases List.mem_append.1 hm with h | h
    · exact hKh h
    · rcases List.mem_cons.1 h with h | h
      · revert h; decide
      · rcases List.mem_cons.1 h with h | h
        · exact hqh h.symm
        · exact hah h
  have h2 : '#' ∉ b ++ [q] := by
    intro hm
    rcases List.mem_append.1 hm with h | h
    · exact hbh h
    · simp only [List.mem_singleton] at h
      exact hqh h.symm
  have ht1 : strings.Count (K ++ '=' :: q :: a) '"' = 1 ∨
      strings.Count (K ++ '=' :: q :: a) '\'' = 1 := by
    rcases hq with rfl | rfl
    · left
      have e1 := Count_eq_zero_of_not_mem K _ hKd
      have e2 := Count_eq_zero_of_not_mem a _ had
      simp only [strings.Count] at e1 e2 ⊢
      simp [List.count_append, List.count_cons, e1, e2]
    · right
      have e1 := Count_eq_zero_of_not_mem K _ hKs
      have e2 := Count_eq_zero_of_not_mem a _ has
      simp only [strings.Count] at e1 e2 ⊢
      simp [List.count_append, List.count_cons, e1, e2]
  have ht2 : strings.Count (b ++ [q]) '"' = 1 ∨ strings.Count (b ++ [q]) '\'' = 1 := by
    rcases hq with rfl | rfl
    · left
      have e2 := Count_eq_zero_of_not_mem b _ hbd
      simp only [strings.Count] at e2 ⊢
      simp [List.count_append, List.count_cons, e2]
    · right
      have e2 := Count_eq_zero_of_not_mem b _ hbs
      simp only [strings.Count] at e2 ⊢
      simp [List.count_append, List.count_cons, e2]
  rw [hre, stripComments_quoted_hash _ _ h1 h2 ht1 ht2, ← hre]
  have := splitKeyValue_equals K (q :: (a ++ '#' :: (b ++ [q])))
    (not_mem_of_forall _ _ hKn _ (by decide)) (not_mem_of_forall _ _ hKn _ (by decide))
  rw [this]
  simp

/-- C6. A `#` inside a quoted value survives: for a key `K` (upper-case letters, digits,
underscore) and texts `a`, `b` without quote character, `#`, `$`, backslash (and, the
text being one line of the source, without line feed), the lines `K="a#b"` and
`K='a#b'` parse to the entry `K = a#b`. -/
theorem parseLine_hash_in_quotes (K a b : Str) (m : EnvMap)
    (hKn : ∀ c ∈ K, isNameChar c = true)
    (ha : ∀ c ∈ a, c ≠ '"' ∧ c ≠ '\'' ∧ c ≠ '#' ∧ c ≠ '$' ∧ c ≠ '\\' ∧ c ≠ '\n')
    (hb : ∀ c ∈ b, c ≠ '"' ∧ c ≠ '\'' ∧ c ≠ '#' ∧ c ≠ '$' ∧ c ≠ '\\' ∧ c ≠ '\n') :
    parseLine (K ++ '=' :: '"' :: (a ++ '#' :: (b ++ ['"']))) m = .ok (K, a ++ '#' :: b) ∧
    parseLine (K ++ '=' :: '\'' :: (a ++ '#' :: (b ++ ['\'']))) m = .ok (K, a ++ '#' :: b) := by
  have ha3 : ∀ c ∈ a, c ≠ '"' ∧ c ≠ '\'' ∧ c ≠ '#' := fun c hc =>
    ⟨(ha c hc).1, (ha c hc).2.1, (ha c hc).2.2.1⟩
  have hb3 : ∀ c ∈ b, c ≠ '"' ∧ c ≠ '\'' ∧ c ≠ '#' := fun c hc =>
    ⟨(hb c hc).1, (hb c hc).2.1, (hb c hc).2.2.1⟩
  have hx : ∀ c : Char, c ≠ '#' → (∀ d ∈ a, d ≠ c) → (∀ d ∈ b, d ≠ c) → c ∉ a ++ '#' :: b := by
    intro c hc h1 h2 hm
    rcases List.mem_append.1 hm with h | h
    · exact h1 c h rfl
    · rcases List.mem_cons.1 h with h | h
      · exact hc h
      · exact h2 c h rfl
  have hn : '\n' ∉ a ++ '#' :: b :=
    hx _ (by decide) (fun d hd => (ha d hd).2.2.2.2.2) (fun d hd => (hb d hd).2.2.2.2.2)
  have hbs : '\\' ∉ a ++ '#' :: b :=
    hx _ (by decide) (fun d hd => (ha d hd).2.2.2.2.1) (fun d hd => (hb d hd).2.2.2.2.1)
  have hd : '$' ∉ a ++ '#' :: b :=
    hx _ (by decide) (fun d hd => (ha d hd).2.2.2.1) (fun d hd => (hb d hd).2.2.2.1)
  constructor
  · have hv := parseValue_double_plain (a ++ '#' :: b) m hn hbs hd
    rw [parseLine_of_split _ m K _ _ (by simp)
      (split_quoted_hash '"' K a b (Or.inl rfl) hKn ha3 hb3) hv, normalizeKey_name K hKn]
  · have hv := parseValue_single (a ++ '#' :: b) m 0 0 hn
    simp only [List.replicate_zero, List.nil_append, List.append_nil] at hv
    rw [parseLine_of_split _ m K _ _ (by simp)
      (split_quoted_hash '\'' K a b (Or.inr rfl) hKn ha3 hb3) hv, normalizeKey_name K hKn]

/-- C6 at `KEY="a#b"` and `KEY='a#b'`. -/
theorem parseLine_hash_in_quotes_witness :
    parseLine "KEY=\"a#b\"".toList [] = .ok ("KEY".toList, "a#b".toList) ∧
    parseLine "KEY='a#b'".toList [] = .ok ("KEY".toList, "a#b".toList) :=
  parseLine_hash_in_quotes "KEY".toList "a".toList "b".toList [] (by decide) (by decide)
    (by decide)

/-- C7, the code at `A=1 # it's`: the apostrophe of the comment opens the quote flag, the
comment is kept and becomes part of the value. -/
theorem parseLine_comment_with_apostrophe :
    stripComments "A=1 # it's".toList = "A=1 # it's".toList ∧
    parseLine "A=1 # it's".toList [] = .ok ("A".toList, "1 # it's".toList) := by
  constructor
  · decide
  · rfl

/-- C8, the code at `A=1 # x # it's`: the second segment is dropped and the third is
kept, so what is handed to the separator step is `A=1 # it's`, which is no leading
part of the line. -/
theorem stripComments_not_a_truncation :
    strings.Split '#' "A=1 # x # it's".toList = ["A=1 ".toList, " x ".toList, " it's".toList] ∧
    keepSegments ["A=1 ".toList, " x ".toList, " it's".toList] false []
      = ["A=1 ".toList, " it's".toList] ∧
    stripComments "A=1 # x # it's".toList = "A=1 # it's".toList ∧
    ¬ (stripComments "A=1 # x # it's".toList <+: "A=1 # x # it's".toList) := by
  decide

end Env

namespace Env

theorem keepSegments_all_plain_closed (segs keep : List Str) (hk : keep ≠ [])
    (h : ∀ seg ∈ segs, strings.Count seg '"' ≠ 1 ∧ strings.Count seg '\'' ≠ 1) :
    keepSegments segs false keep = keep := by
  induction segs with
  | nil => rfl
  | cons seg rest ih =>
    rw [keepSegments_plain_closed seg rest keep (h seg (List.mem_cons_self _ _)).1
      (h seg (List.mem_cons_self _ _)).2 hk]
    exact ih (fun s hs => h s (List.mem_cons_of_mem _ hs))

/-- The behaviour C7 describes, for a comment without quote characters: the line
`K=v # c` parses to the entry `K = v`. -/
theorem parseLine_trailing_comment_plain (K v c : Str) (m : EnvMap)
    (hKn : ∀ x ∈ K, isNameChar x = true) (hv : ∀ x ∈ v, x.isAlphanum = true)
    (hc : '"' ∉ c ∧ '\'' ∉ c) :
    parseLine (K ++ '=' :: (v ++ ' ' :: '#' :: ' ' :: c)) m = .ok (K, v) := by
  have hre : K ++ '=' :: (v ++ ' ' :: '#' :: ' ' :: c) = (K ++ '=' :: (v ++ [' '])) ++ '#' :: (' ' :: c) := by
    simp
  have h1 : '#' ∉ K ++ '=' :: (v ++ [' ']) := by
    intro hm
    rcases List.mem_append.1 hm with h | h
    · exact not_mem_of_forall _ _ hKn _ (by decide) h
    · rcases List.mem_cons.1 h with h | h
      · revert h; decide
      · rcases List.mem_append.1 h with h | h
        · exact not_mem_of_forall _ _ hv _ (by decide) h
        · revert h; decide
  have hq : ∀ q : Char, q = '"' ∨ q = '\'' → q ∉ K ++ '=' :: (v ++ [' ']) := by
    intro q hq hm
    rcases List.mem_append.1 hm with h | h
    · rcases hq with rfl | rfl
      · exact not_mem_of_forall _ _ hKn _ (by decide) h
      · exact not_mem_of_forall _ _ hKn _ (by decide) h
    · rcases List.mem_cons.1 h with h | h
      · rcases hq with rfl | rfl <;> revert h <;> decide
      · rcases List.mem_append.1 h with h | h
        · rcases hq with rfl | rfl
          · exact not_mem_of_forall _ _ hv _ (by decide) h
          · exact not_mem_of_forall _ _ hv _ (by decide) h
        · rcases hq with rfl | rfl <;> revert h <;> decide
  have hsegs : ∀ seg ∈ strings.Split '#' (' ' :: c),
      strings.Count seg '"' ≠ 1 ∧ strings.Count seg '\'' ≠ 1 := by
    intro seg hseg
    have hmem := strings.mem_of_mem_Split '#' _ seg hseg
    have hno : ∀ q : Char, q = '"' ∨ q = '\'' → q ∉ seg := by
      intro q hq hm
      have := (hmem q hm).1
      rcases List.mem_cons.1 this with h | h
      · rcases hq with rfl | rfl <;> revert h <;> decide
      · rcases hq with rfl | rfl
        · exact hc.1 h
        · exact hc.2 h
    rw [Count_eq_zero_of_not_mem seg _ (hno _ (Or.inl rfl)),
      Count_eq_zero_of_not_mem seg _ (hno _ (Or.inr rfl))]
    exact ⟨by decide, by decide⟩
  have hstrip : stripComments (K ++ '=' :: (v ++ ' ' :: '#' :: ' ' :: c)) = K ++ '=' :: (v ++ [' ']) := by
    rw [hre]
    unfold stripComments
    rw [Contains_append_cons, if_pos rfl, strings.Split_append_cons '#' _ _ h1,
      keepSegments_plain_first _ _
        (by rw [Count_eq_zero_of_not_mem _ _ (hq _ (Or.inl rfl))]; decide)
        (by rw [Count_eq_zero_of_not_mem _ _ (hq _ (Or.inr rfl))]; decide),
      keepSegments_all_plain_closed _ _ (by simp) hsegs]
    rfl
  have hval : parseValue (v ++ [' ']) m = .ok v := by
    have hh : ∀ q : Char, q.isAlphanum = false → v.head? ≠ some q := by
      intro q hq e
      have := hv q (List.mem_of_mem_head? e)
      rw [hq] at this
      cases this
    apply parseValue_literal _ v m
    · have := Trim_spaces_around 0 1 v (hh _ (by decide)) (by
        intro e
        have := hv _ (List.mem_of_getLast?_eq_some e)
        revert this; decide)
      simpa using this
    · exact hh _ (by decide)
    · exact hh _ (by decide)
    · exact not_mem_of_forall _ _ hv _ (by decide)
  have hsplit : splitKeyValue (stripComments (K ++ '=' :: (v ++ ' ' :: '#' :: ' ' :: c)))
      = some (K, v ++ [' ']) := by
    rw [hstrip]
    exact splitKeyValue_equals K _ (not_mem_of_forall _ _ hKn _ (by decide))
      (not_mem_of_forall _ _ hKn _ (by decide))
  rw [parseLine_of_split _ m K _ _ (by simp) hsplit hval, normalizeKey_name K hKn]

/-- C9, the code at `KEY="a"#"b"`: both segments hold two quote characters, and the `#`
and the segment after it are removed. -/
theorem stripComments_balanced_hash_removed :
    strings.Split '#' "KEY=\"a\"#\"b\"".toList = ["KEY=\"a\"".toList, "\"b\"".toList] ∧
    strings.Count "KEY=\"a\"".toList '"' = 2 ∧ strings.Count "\"b\"".toList '"' = 2 ∧
    stripComments "KEY=\"a\"#\"b\"".toList = "KEY=\"a\"".toList := by
  decide

/-- C9, amended. A segment that holds neither exactly one `"` nor exactly one `'` does
not move the quote flag. At the first `#` of a line the flag is closed: when the
segments on both sides of that `#` are such segments, the `#` and the segment after
it are removed, and the rest of the line is treated as if they were not there.
Such a segment is kept only while the flag is open. -/
theorem stripComments_balanced_hash (s1 s2 : Str) (h1 : '#' ∉ s1) (h2 : '#' ∉ s2)
    (c1 : strings.Count s1 '"' ≠ 1 ∧ strings.Count s1 '\'' ≠ 1)
    (c2 : strings.Count s2 '"' ≠ 1 ∧ strings.Count s2 '\'' ≠ 1) :
    stripComments (s1 ++ '#' :: s2) = s1 ∧
    (∀ tail, stripComments (s1 ++ '#' :: (s2 ++ '#' :: tail)) = stripComments (s1 ++ '#' :: tail)) ∧
    (∀ rest keep, keep ≠ [] → keepSegments (s2 :: rest) false keep = keepSegments rest false keep) ∧
    (∀ rest keep, keepSegments (s2 :: rest) true keep = keepSegments rest true (keep ++ [s2])) := by
  refine ⟨?_, ?_, ?_, ?_⟩
  · unfold stripComments
    rw [Contains_append_cons, if_pos rfl, strings.Split_append_cons '#' s1 s2 h1,
      strings.Split_of_not_mem '#' s2 h2, keepSegments_plain_first s1 _ c1.1 c1.2,
      keepSegments_plain_closed s2 _ _ c2.1 c2.2 (by simp)]
    rfl
  · intro tail
    unfold stripComments
    rw [Contains_append_cons, Contains_append_cons, if_pos rfl, if_pos rfl,
      strings.Split_append_cons '#' s1 _ h1, strings.Split_append_cons '#' s2 _ h2,
      strings.Split_append_cons '#' s1 _ h1, keepSegments_plain_first s1 _ c1.1 c1.2,
      keepSegments_plain_closed s2 _ _ c2.1 c2.2 (by simp),
      keepSegments_plain_first s1 _ c1.1 c1.2]
  · intro rest keep hk
    exact keepSegments_plain_closed s2 rest keep c2.1 c2.2 hk
  · intro rest keep
    exact keepSegments_plain_open s2 rest keep c2.1 c2.2

/-- C9 amended, at `KEY="a"#"b"`. -/
theorem stripComments_balanced_hash_witness :
    stripComments ("KEY=\"a\"".toList ++ '#' :: "\"b\"".toList) = "KEY=\"a\"".toList :=
  (stripComments_balanced_hash "KEY=\"a\"".toList "\"b\"".toList (by decide) (by decide)
    (by decide) (by decide)).1

/-- C10. Single quotes give the interior as it is: for every text `x` without line feed
and every mapping, `parseValue` of `'x'`, with any number of spaces before and after,
is `x`, without error; nothing is decoded and nothing is expanded, whatever `x`
holds. -/
theorem parseValue_single_quotes (x : Str) (m : EnvMap) (n k : Nat) (hx : '\n' ∉ x) :
    parseValue (List.replicate n ' ' ++ ('\'' :: (x ++ ['\'']) ++ List.replicate k ' ')) m
      = .ok x :=
  parseValue_single x m n k hx

/-- C10 at `'${OTHER}'` with `OTHER` bound, at backslash-`n`, and at a text with quotes
and spaces around it. -/
theorem parseValue_single_quotes_witness :
    parseValue "'${OTHER}'".toList [("OTHER".toList, "1".toList)] = .ok "${OTHER}".toList ∧
    parseValue "'\\n'".toList [] = .ok "\\n".toList ∧
    parseValue "  'a'\"$B\\' ".toList [("B".toList, "2".toList)] = .ok "a'\"$B\\".toList :=
  ⟨parseValue_single_quotes "${OTHER}".toList [("OTHER".toList, "1".toList)] 0 0 (by decide),
    parseValue_single_quotes "\\n".toList [] 0 0 (by decide),
    parseValue_single_quotes "a'\"$B\\".toList [("B".toList, "2".toList)] 2 1 (by decide)⟩

end Env

namespace Env

/-! ## The escape passes of double-quoted values -/

theorem escapeRegex_cons_ne (f : Str → Str) (x : Char) (t : Str) (hx : x ≠ '\\') :
    escapeRegex_ReplaceAllStringFunc f (x :: t) = x :: escapeRegex_ReplaceAllStringFunc f t := by
  cases t with
  | nil => rfl
  | cons c rest => simp [escapeRegex_ReplaceAllStringFunc, hx]

theorem escapeRegex_pair (f : Str → Str) (c : Char) (t : Str) (hc : c ≠ '\n') :
    escapeRegex_ReplaceAllStringFunc f ('\\' :: c :: t)
      = f ['\\', c] ++ escapeRegex_ReplaceAllStringFunc f t := by
  simp [escapeRegex_ReplaceAllStringFunc, hc]

theorem escapeRegex_append (f : Str → Str) (a t : Str) (ha : '\\' ∉ a) :
    escapeRegex_ReplaceAllStringFunc f (a ++ t) = a ++ escapeRegex_ReplaceAllStringFunc f t := by
  induction a with
  | nil => rfl
  | cons x xs ih =>
    simp only [List.mem_cons, not_or] at ha
    rw [List.cons_append, escapeRegex_cons_ne f x _ (fun e => ha.1 e.symm), ih ha.2]
    rfl

theorem unescapeCharsRegex_cons_ne (x : Char) (t : Str) (hx : x ≠ '\\') :
    unescapeCharsRegex_ReplaceAllString (x :: t) = x :: unescapeCharsRegex_ReplaceAllString t := by
  cases t with
  | nil => rfl
  | cons c rest => simp [unescapeCharsRegex_ReplaceAllString, hx]

theorem unescapeCharsRegex_pair (c : Char) (t : Str) (hc : c ≠ '$') :
    unescapeCharsRegex_ReplaceAllString ('\\' :: c :: t)
      = c :: unescapeCharsRegex_ReplaceAllString t := by
  simp [unescapeCharsRegex_ReplaceAllString, hc]

theorem unescapeCharsRegex_dollar (t : Str) :
    unescapeCharsRegex_ReplaceAllString ('\\' :: '$' :: t)
      = '\\' :: '$' :: unescapeCharsRegex_ReplaceAllString t := by
  rw [show unescapeCharsRegex_ReplaceAllString ('\\' :: '$' :: t)
      = '\\' :: unescapeCharsRegex_ReplaceAllString ('$' :: t) by
        simp [unescapeCharsRegex_ReplaceAllString],
    unescapeCharsRegex_cons_ne '$' t (by decide)]

theorem unescapeCharsRegex_append (a t : Str) (ha : '\\' ∉ a) :
    unescapeCharsRegex_ReplaceAllString (a ++ t) = a ++ unescapeCharsRegex_ReplaceAllString t := by
  induction a with
  | nil => rfl
  | cons x xs ih =>
    simp only [List.mem_cons, not_or] at ha
    rw [List.cons_append, unescapeCharsRegex_cons_ne x _ (fun e => ha.1 e.symm), ih ha.2]
    rfl

/-- The function `parseValue` hands to `escapeRegex.ReplaceAllStringFunc`. -/
theorem escape_callback (c : Char) :
    (if strings.TrimPrefix ['\\', c] ['\\'] = ['n'] then ['\n']
      else if strings.TrimPrefix ['\\', c] ['\\'] = ['r'] then ['\r']
      else ['\\', c])
      = if c = 'n' then ['\n'] else if c = 'r' then ['\r'] else ['\\', c] := by
  simp [strings.TrimPrefix, strings.HasPrefix, List.isPrefixOf]

/-- The value of a double-quoted text `a\cb` whose parts `a`, `b` hold no backslash and
no `$`: the pair is decoded, the rest is copied. -/
theorem parseValue_double_pair (a b : Str) (c : Char) (m : EnvMap)
    (ha : ∀ x ∈ a, x ≠ '\\' ∧ x ≠ '$' ∧ x ≠ '\n')
    (hb : ∀ x ∈ b, x ≠ '\\' ∧ x ≠ '$' ∧ x ≠ '\n') (hc : c ≠ '\n') (hcd : c ≠ '$') :
    parseValue ('"' :: ((a ++ '\\' :: c :: b) ++ ['"'])) m
      = .ok (a ++ (if c = 'n' then '\n' else if c = 'r' then '\r' else c) :: b) := by
  have hab : '\\' ∉ a := fun h => (ha _ h).1 rfl
  have hbb : '\\' ∉ b := fun h => (hb _ h).1 rfl
  have had : '$' ∉ a := fun h => (ha _ h).2.1 rfl
  have hbd : '$' ∉ b := fun h => (hb _ h).2.1 rfl
  have hn : '\n' ∉ a ++ '\\' :: c :: b := by
    intro hm
    rcases List.mem_append.1 hm with h | h
    · exact (ha _ h).2.2 rfl
    · rcases List.mem_cons.1 h with h | h
      · revert h; decide
      · rcases List.mem_cons.1 h with h | h
        · exact hc h.symm
        · exact (hb _ h).2.2 rfl
  have := parseValue_double (a ++ '\\' :: c :: b) m 0 0 hn
  simp only [List.replicate_zero, List.nil_append, List.append_nil] at this
  rw [this, escapeRegex_append _ a _ hab, escapeRegex_pair _ c b hc, escape_callback,
    escapeRegex_of_no_backslash _ b hbb]
  have hdollar : ∀ d : Char, d ≠ '$' → '$' ∉ a ++ d :: b := by
    intro d hd hm
    rcases List.mem_append.1 hm with h | h
    · exact had h
    · rcases List.mem_cons.1 h with h | h
      · exact hd h.symm
      · exact hbd h
  by_cases h1 : c = 'n'
  · subst h1
    simp only [if_true, List.singleton_append]
    rw [unescapeCharsRegex_append a _ hab, unescapeCharsRegex_cons_ne '\n' b (by decide),
      unescapeCharsRegex_of_no_backslash b hbb,
      expandVariables_of_no_dollar _ m (hdollar '\n' (by decide))]
  · by_cases h2 : c = 'r'
    · subst h2
      simp only [if_true, List.singleton_append]
      rw [if_neg h1, unescapeCharsRegex_append a _ hab, List.singleton_append, unescapeCharsRegex_cons_ne '\r' b (by decide),
        unescapeCharsRegex_of_no_backslash b hbb,
        expandVariables_of_no_dollar _ m (hdollar '\r' (by decide))]
      rw [if_neg h1]
    · simp only [h1, h2, if_false]
      rw [show ['\\', c] ++ b = '\\' :: c :: b by rfl, unescapeCharsRegex_append a _ hab,
        unescapeCharsRegex_pair c b hcd, unescapeCharsRegex_of_no_backslash b hbb,
        expandVariables_of_no_dollar _ m (hdollar c hcd)]

/-! ## Values that are not quoted -/

/-- A value that neither quote pattern matches and that holds no `$` is returned
trimmed, nothing else changed. -/
theorem parseValue_not_quoted (v t : Str) (m : EnvMap) (ht : strings.Trim v ' ' = t)
    (hs : singleQuotesRegex_FindStringSubmatch t = none)
    (hd : doubleQuotesRegex_FindStringSubmatch t = none) (hdollar : '$' ∉ t) :
    parseValue v m = .ok t := by
  unfold parseValue
  simp only [ht, hs, hd]
  simp [expandVariables_of_no_dollar t m hdollar]

theorem dropWhile_append_cons_of_neg (p : Char → Bool) (a b : Str) (x : Char) (hx : p x = false) :
    (a ++ x :: b).dropWhile p = a.dropWhile p ++ x :: b := by
  induction a with
  | nil => simp [List.dropWhile, hx]
  | cons y ys ih =>
    by_cases hy : p y = true
    · simp [List.dropWhile, hy, ih]
    · simp [List.dropWhile, hy]

theorem rdropWhile_append_cons_of_neg (p : Char → Bool) (a b : Str) (x : Char) (hx : p x = false) :
    (a ++ x :: b).rdropWhile p = a ++ x :: b.rdropWhile p := by
  unfold List.rdropWhile
  rw [List.reverse_append, List.reverse_cons, List.append_assoc, List.singleton_append,
    dropWhile_append_cons_of_neg p b.reverse a.reverse x hx]
  simp

/-- Trimming spaces off a text with a character other than a space inside. -/
theorem Trim_append_cons (a b : Str) (x : Char) (hx : x ≠ ' ') :
    strings.Trim (a ++ x :: b) ' '
      = a.dropWhile (fun c => c == ' ') ++ x :: b.rdropWhile (fun c => c == ' ') := by
  unfold strings.Trim
  rw [dropWhile_append_cons_of_neg _ a b x (by simpa using hx),
    rdropWhile_append_cons_of_neg _ _ b x (by simpa using hx)]

end Env

namespace Env

/-! ## Matches of the reference pattern -/

theorem EnvMap.get_of_not_mem_keys (m : EnvMap) (k : Str) (h : k ∉ m.keys) : m.get k = [] := by
  induction m with
  | nil => rfl
  | cons p rest ih =>
    obtain ⟨k0, v0⟩ := p
    simp only [EnvMap.keys, List.map_cons, List.mem_cons, not_or] at h
    rw [EnvMap.get_cons, if_neg h.1]
    exact ih h.2

theorem optChar_of_name (c : Char) (name rest : Str) (d : Char)
    (hn : ∀ x ∈ name, isNameChar x = true) (hc : isNameChar c = false) (hd : d ≠ c) :
    optChar c (name ++ d :: rest) = ([], name ++ d :: rest) := by
  cases name with
  | nil =>
    simp [optChar, hd]
  | cons x xs =>
    have hx : ¬ x = c := by
      intro e
      have := hn x (List.mem_cons_self _ _)
      rw [e, hc] at this
      cases this
    simp [optChar, hx]

theorem optChar_of_name_end (c : Char) (name : Str)
    (hn : ∀ x ∈ name, isNameChar x = true) (hc : isNameChar c = false) :
    optChar c name = ([], name) := by
  cases name with
  | nil => rfl
  | cons x xs =>
    have hx : ¬ x = c := by
      intro e
      have := hn x (List.mem_cons_self _ _)
      rw [e, hc] at this
      cases this
    simp [optChar, hx]

/-- The match of a bare `$NAME` that ends the text. -/
theorem matchHead_bare (name : Str) (hn : ∀ c ∈ name, isNameChar c = true) :
    expandVarRegex_matchHead ('$' :: name)
      = some (['$' :: name, [], ['$'], [], name], name.length + 1) := by
  have hp : strings.HasPrefix ('$' :: name) ['\\', '$'] = false := by
    simp [strings.HasPrefix, List.isPrefixOf]
  have ht : name.takeWhile isNameChar = name := List.takeWhile_eq_self_iff.2 hn
  have hd : name.dropWhile isNameChar = [] := List.dropWhile_eq_nil_iff.2 hn
  have hc : optChar '}' [] = ([], []) := rfl
  simp [expandVarRegex_matchHead, hp, optChar_of_name_end '(' name hn (by decide),
    optChar_of_name_end '{' name hn (by decide), ht, hd, hc]

/-- The match of an escaped `\$NAME` that ends the text. -/
theorem matchHead_escaped (name : Str) (hn : ∀ c ∈ name, isNameChar c = true) :
    expandVarRegex_matchHead ('\\' :: '$' :: name)
      = some (['\\' :: '$' :: name, ['\\'], ['$'], [], name], name.length + 2) := by
  have hp : strings.HasPrefix ('\\' :: '$' :: name) ['\\', '$'] = true := by
    simp [strings.HasPrefix, List.isPrefixOf]
  have ht : name.takeWhile isNameChar = name := List.takeWhile_eq_self_iff.2 hn
  have hd : name.dropWhile isNameChar = [] := List.dropWhile_eq_nil_iff.2 hn
  have hc : optChar '}' [] = ([], []) := rfl
  simp [expandVarRegex_matchHead, hp, optChar_of_name_end '(' name hn (by decide),
    optChar_of_name_end '{' name hn (by decide), ht, hd, hc]

/-- The match of `$(NAME` in front of a `)`. -/
theorem matchHead_paren (name rest : Str) (hn : ∀ c ∈ name, isNameChar c = true) :
    expandVarRegex_matchHead ('$' :: '(' :: (name ++ ')' :: rest))
      = some (['$' :: '(' :: name, [], ['$'], ['('], name], name.length + 2) := by
  have hp : strings.HasPrefix ('$' :: '(' :: (name ++ ')' :: rest)) ['\\', '$'] = false := by
    simp [strings.HasPrefix, List.isPrefixOf]
  have ht : (name ++ ')' :: rest).takeWhile isNameChar = name := by
    rw [List.takeWhile_append_of_pos hn]
    simp [List.takeWhile, show isNameChar ')' = false by decide]
  have hd : (name ++ ')' :: rest).dropWhile isNameChar = ')' :: rest := by
    rw [List.dropWhile_append_of_pos hn]
    simp [List.dropWhile, show isNameChar ')' = false by decide]
  have ho : optChar '(' ('(' :: (name ++ ')' :: rest)) = (['('], name ++ ')' :: rest) := by
    simp [optChar]
  have hc : optChar '}' (')' :: rest) = ([], ')' :: rest) := by simp [optChar]
  simp [expandVarRegex_matchHead, hp, ho,
    optChar_of_name '{' name rest ')' hn (by decide) (by decide), ht, hd, hc]

/-- One step of the replacement scan at a match. -/
theorem replaceGo_match (f : Str → Str) (s : Str) (sub : List Str) (len : Nat)
    (h : expandVarRegex_matchHead s = some (sub, len)) (hlen : 0 < len) :
    expandVarRegex_replaceGo f 0 s
      = f (sub.getD 0 []) ++ expandVarRegex_replaceGo f 0 (s.drop len) := by
  cases s with
  | nil => simp [expandVarRegex_matchHead, strings.HasPrefix, List.isPrefixOf] at h
  | cons x xs =>
    obtain ⟨n, rfl⟩ : ∃ n, len = n + 1 := ⟨len - 1, by omega⟩
    simp only [expandVarRegex_replaceGo, h, Nat.add_sub_cancel, List.drop_succ_cons]
    rw [replaceGo_skip]

theorem FindStringSubmatch_of_matchHead (s : Str) (sub : List Str) (len : Nat)
    (h : expandVarRegex_matchHead s = some (sub, len)) :
    expandVarRegex_FindStringSubmatch s = some sub := by
  cases s with
  | nil => simp [expandVarRegex_matchHead, strings.HasPrefix, List.isPrefixOf] at h
  | cons x xs => simp [expandVarRegex_FindStringSubmatch, h]

/-- A value that is just `$NAME` expands to the value bound to `NAME`. -/
theorem expandVariables_bare (name : Str) (m : EnvMap) (hn : ∀ c ∈ name, isNameChar c = true)
    (hne : name ≠ []) : expandVariables ('$' :: name) m = m.get name := by
  unfold expandVariables expandVarRegex_ReplaceAllStringFunc
  rw [replaceGo_match _ _ _ _ (matchHead_bare name hn) (by omega)]
  have hdrop : ('$' :: name).drop (name.length + 1) = [] := by
    apply List.drop_eq_nil_of_le; simp
  rw [hdrop]
  simp [FindStringSubmatch_of_matchHead _ _ _ (matchHead_bare name hn), expandVarRegex_replaceGo,
    hne]

/-- A value that is just `\$NAME` loses the backslash and is not expanded. -/
theorem expandVariables_escaped (name : Str) (m : EnvMap)
    (hn : ∀ c ∈ name, isNameChar c = true) :
    expandVariables ('\\' :: '$' :: name) m = '$' :: name := by
  unfold expandVariables expandVarRegex_ReplaceAllStringFunc
  rw [replaceGo_match _ _ _ _ (matchHead_escaped name hn) (by omega)]
  have hdrop : ('\\' :: '$' :: name).drop (name.length + 2) = [] := by
    apply List.drop_eq_nil_of_le; simp
  rw [hdrop]
  simp [FindStringSubmatch_of_matchHead _ _ _ (matchHead_escaped name hn),
    expandVarRegex_replaceGo]

/-- The scan at a `${NAME}` that other text follows. -/
theorem replaceGo_braced (f : Str → Str) (name rest : Str)
    (hn : ∀ c ∈ name, isNameChar c = true) :
    expandVarRegex_replaceGo f 0 ('$' :: '{' :: (name ++ '}' :: rest))
      = f ('$' :: '{' :: (name ++ ['}'])) ++ expandVarRegex_replaceGo f 0 rest := by
  rw [replaceGo_match _ _ _ _ (matchHead_braced name rest hn) (by omega)]
  have hdrop : ('$' :: '{' :: (name ++ '}' :: rest)).drop (name.length + 3) = rest := by
    rw [show '$' :: '{' :: (name ++ '}' :: rest) = ('$' :: '{' :: (name ++ ['}'])) ++ rest by simp]
    rw [List.drop_append_of_le_length (by simp)]
    rw [List.drop_eq_nil_of_le (by simp)]
    rfl
  rw [hdrop]
  rfl

end Env

namespace Env

theorem not_dollar_of_trimmed (a b : Str) (e : Char) (ha : '$' ∉ a) (hb : '$' ∉ b) (he : e ≠ '$') :
    '$' ∉ a.dropWhile (fun c => c == ' ') ++ '\\' :: e :: b.rdropWhile (fun c => c == ' ') := by
  intro hm
  rcases List.mem_append.1 hm with h | h
  · exact ha ((List.dropWhile_suffix _).subset h)
  · rcases List.mem_cons.1 h with h | h
    · revert h; decide
    · rcases List.mem_cons.1 h with h | h
      · exact he h.symm
      · exact hb ((List.rdropWhile_prefix _ _).subset h)

/-- C11. Escape decoding of double-quoted values: for texts `a`, `b` without backslash,
`$` and line feed, `parseValue` of `"a\nb"` is `a`, a line feed, `b`, and of `"a\rb"`
it is `a`, a carriage return, `b`. In a value that is not quoted (neither quote
pattern matches its trimmed text) the same two characters stay as they are: the
result is the value with the spaces around it trimmed. -/
theorem parseValue_escape_decoding (a b : Str) (m : EnvMap)
    (ha : ∀ x ∈ a, x ≠ '\\' ∧ x ≠ '$' ∧ x ≠ '\n')
    (hb : ∀ x ∈ b, x ≠ '\\' ∧ x ≠ '$' ∧ x ≠ '\n') :
    parseValue ('"' :: ((a ++ '\\' :: 'n' :: b) ++ ['"'])) m = .ok (a ++ '\n' :: b) ∧
    parseValue ('"' :: ((a ++ '\\' :: 'r' :: b) ++ ['"'])) m = .ok (a ++ '\r' :: b) ∧
    (∀ e : Char, e = 'n' ∨ e = 'r' →
      singleQuotesRegex_FindStringSubmatch (strings.Trim (a ++ '\\' :: e :: b) ' ') = none →
      doubleQuotesRegex_FindStringSubmatch (strings.Trim (a ++ '\\' :: e :: b) ' ') = none →
      parseValue (a ++ '\\' :: e :: b) m
        = .ok (a.dropWhile (fun c => c == ' ') ++ '\\' :: e :: b.rdropWhile (fun c => c == ' '))) := by
  refine ⟨?_, ?_, ?_⟩
  · have := parseValue_double_pair a b 'n' m ha hb (by decide) (by decide)
    simpa using this
  · have := parseValue_double_pair a b 'r' m ha hb (by decide) (by decide)
    rw [this, if_neg (by decide), if_pos rfl]
  · intro e he hs hd
    have htrim := Trim_append_cons a (e :: b) '\\' (by decide)
    have hr : (e :: b).rdropWhile (fun c => c == ' ') = e :: b.rdropWhile (fun c => c == ' ') := by
      have := rdropWhile_append_cons_of_neg (fun c => c == ' ') [] b e
        (by rcases he with rfl | rfl <;> decide)
      simpa using this
    rw [hr] at htrim
    apply parseValue_not_quoted _ _ m htrim
    · rw [← htrim]; exact hs
    · rw [← htrim]; exact hd
    · exact not_dollar_of_trimmed a b e (fun h => (ha _ h).2.1 rfl) (fun h => (hb _ h).2.1 rfl)
        (by rcases he with rfl | rfl <;> decide)

/-- C11 at `a = x`, `b = y`: `"x\ny"`, `"x\ry"`, and the unquoted ` x\ny `. -/
theorem parseValue_escape_decoding_witness :
    parseValue "\"x\\ny\"".toList [] = .ok "x\ny".toList ∧
    parseValue "\"x\\ry\"".toList [] = .ok "x\ry".toList ∧
    parseValue " x\\ny ".toList [] = .ok "x\\ny".toList :=
  ⟨(parseValue_escape_decoding "x".toList "y".toList [] (by decide) (by decide)).1,
    (parseValue_escape_decoding "x".toList "y".toList [] (by decide) (by decide)).2.1,
    (parseValue_escape_decoding " x".toList "y ".toList [] (by decide) (by decide)).2.2 'n'
      (Or.inl rfl) rfl rfl⟩

/-- C12. An escaped dollar suppresses the expansion: for every `NAME` (upper-case letters,
digits, underscore) and every mapping, `parseValue` of the unquoted `\$NAME` and of
the double-quoted `"\$NAME"` is the text `$NAME`. In a double-quoted value a pair
of a backslash and a character `c` other than `n`, `r`, `$` (and line feed) is decoded
to `c` alone: in the value, when the text around the pair holds no backslash and no
`$`; and by the two escape passes, whatever text follows the pair. -/
theorem parseValue_escaped_dollar (name : Str) (m : EnvMap)
    (hn : ∀ c ∈ name, isNameChar c = true) :
    parseValue ('\\' :: '$' :: name) m = .ok ('$' :: name) ∧
    parseValue ('"' :: (('\\' :: '$' :: name) ++ ['"'])) m = .ok ('$' :: name) ∧
    (∀ (a b : Str) (c : Char), (∀ x ∈ a, x ≠ '\\' ∧ x ≠ '$' ∧ x ≠ '\n') →
      (∀ x ∈ b, x ≠ '\\' ∧ x ≠ '$' ∧ x ≠ '\n') → c ≠ 'n' → c ≠ 'r' → c ≠ '$' → c ≠ '\n' →
      parseValue ('"' :: ((a ++ '\\' :: c :: b) ++ ['"'])) m = .ok (a ++ c :: b)) ∧
    (∀ (f : Str → Str) (a t : Str) (c : Char), '\\' ∉ a → c ≠ 'n' → c ≠ 'r' → c ≠ '$' → c ≠ '\n' →
      f ['\\', c] = ['\\', c] →
      unescapeCharsRegex_ReplaceAllString (escapeRegex_ReplaceAllStringFunc f (a ++ '\\' :: c :: t))
        = a ++ c :: unescapeCharsRegex_ReplaceAllString (escapeRegex_ReplaceAllStringFunc f t)) := by
  have hnb : '\\' ∉ name := not_mem_of_forall _ _ hn _ (by decide)
  have hnn : '\n' ∉ name := not_mem_of_forall _ _ hn _ (by decide)
  refine ⟨?_, ?_, ?_, ?_⟩
  · rw [parseValue_unquoted _ ('\\' :: '$' :: name) m, expandVariables_escaped name m hn]
    · apply Trim_of_ends
      · simp
      · intro e
        have hmem := List.mem_of_getLast?_eq_some e
        rcases List.mem_cons.1 hmem with h | h
        · revert h; decide
        · rcases List.mem_cons.1 h with h | h
          · revert h; decide
          · exact not_mem_of_forall _ _ hn _ (by decide) h
    · have := length_le_byteLen ('\\' :: '$' :: name)
      simp only [List.length_cons] at this
      omega
    · simp
    · simp
  · have hline : '\n' ∉ '\\' :: '$' :: name := by
      intro hm
      rcases List.mem_cons.1 hm with h | h
      · revert h; decide
      · rcases List.mem_cons.1 h with h | h
        · revert h; decide
        · exact hnn h
    have := parseValue_double ('\\' :: '$' :: name) m 0 0 hline
    simp only [List.replicate_zero, List.nil_append, List.append_nil] at this
    rw [this, escapeRegex_pair _ '$' name (by decide), escape_callback, if_neg (by decide),
      if_neg (by decide), escapeRegex_of_no_backslash _ name hnb]
    rw [show ['\\', '$'] ++ name = '\\' :: '$' :: name by rfl, unescapeCharsRegex_dollar,
      unescapeCharsRegex_of_no_backslash name hnb, expandVariables_escaped name m hn]
  · intro a b c ha hb h1 h2 h3 h4
    rw [parseValue_double_pair a b c m ha hb h4 h3, if_neg h1, if_neg h2]
  · intro f a t c ha h1 h2 h3 h4 hf
    rw [escapeRegex_append f a _ ha, escapeRegex_pair f c t h4, hf,
      show ['\\', c] ++ escapeRegex_ReplaceAllStringFunc f t
        = '\\' :: c :: escapeRegex_ReplaceAllStringFunc f t by rfl,
      unescapeCharsRegex_append a _ ha, unescapeCharsRegex_pair c _ h3]

/-- C12 at `NAME` bound to `v`: `\$NAME`, `"\$NAME"`, and the pair backslash-`t` in
`"a\tb"`. -/
theorem parseValue_escaped_dollar_witness :
    parseValue "\\$NAME".toList [("NAME".toList, "v".toList)] = .ok "$NAME".toList ∧
    parseValue "\"\\$NAME\"".toList [("NAME".toList, "v".toList)] = .ok "$NAME".toList ∧
    parseValue "\"a\\tb\"".toList [("NAME".toList, "v".toList)] = .ok "atb".toList :=
  ⟨(parseValue_escaped_dollar "NAME".toList [("NAME".toList, "v".toList)] (by decide)).1,
    (parseValue_escaped_dollar "NAME".toList [("NAME".toList, "v".toList)] (by decide)).2.1,
    (parseValue_escaped_dollar "NAME".toList [("NAME".toList, "v".toList)] (by decide)).2.2.1
      "a".toList "b".toList 't' (by decide) (by decide) (by decide) (by decide) (by decide)
      (by decide)⟩

/-- C13, the code at `$(A)`: the test `submatch[2] == "("` looks at the group that holds
the `$`, so it never holds; the name captured after the `(` is substituted and the
`)` is copied: with `A` bound to `1` the result is `1)`, with `A` unbound it is `)`. -/
theorem expandVariables_paren_substituted :
    expandVarRegex_FindStringSubmatch "$(A)".toList
      = some ["$(A".toList, [], "$".toList, "(".toList, "A".toList] ∧
    expandVariables "$(A)".toList [("A".toList, "1".toList)] = "1)".toList ∧
    expandVariables "$(A)".toList [] = ")".toList := by
  decide

/-- C14. References that are not bound are no error: for a `NAME` (upper-case letters,
digits, underscore) that is no key of the mapping, `$NAME` and `${NAME}` expand to
the empty text; and `parseValue` reports no error, whatever the raw value and the
mapping. -/
theorem expandVariables_unbound (name : Str) (m : EnvMap) (hne : name ≠ [])
    (hn : ∀ c ∈ name, isNameChar c = true) (hm : name ∉ m.keys) :
    expandVariables ('$' :: name) m = [] ∧
    expandVariables ('$' :: '{' :: (name ++ ['}'])) m = [] ∧
    parseValue ('$' :: name) m = .ok [] ∧
    parseValue ('$' :: '{' :: (name ++ ['}'])) m = .ok [] ∧
    (∀ (value : Str) (envMap : EnvMap), ∃ res, parseValue value envMap = .ok res) := by
  have hget := EnvMap.get_of_not_mem_keys m name hm
  have h1 : expandVariables ('$' :: name) m = [] := by
    rw [expandVariables_bare name m hn hne, hget]
  have h2 : expandVariables ('$' :: '{' :: (name ++ ['}'])) m = [] := by
    rw [expandVariables_braced name m hn hne, hget]
  obtain ⟨x, xs, rfl⟩ := List.exists_cons_of_ne_nil hne
  refine ⟨h1, h2, ?_, ?_, parseValue_isOk⟩
  · rw [parseValue_unquoted _ ('$' :: x :: xs) m, h1]
    · apply Trim_of_ends
      · simp
      · intro e
        have hmem := List.mem_of_getLast?_eq_some e
        rcases List.mem_cons.1 hmem with h | h
        · revert h; decide
        · exact not_mem_of_forall _ _ hn _ (by decide) h
    · have := length_le_byteLen ('$' :: x :: xs)
      simp only [List.length_cons] at this
      omega
    · simp
    · simp
  · rw [parseValue_unquoted _ ('$' :: '{' :: ((x :: xs) ++ ['}'])) m, h2]
    · apply Trim_of_ends
      · simp
      · rw [show '$' :: '{' :: ((x :: xs) ++ ['}']) = ('$' :: '{' :: x :: xs) ++ ['}'] by simp,
          List.getLast?_concat]
        simp
    · have := length_le_byteLen ('$' :: '{' :: ((x :: xs) ++ ['}']))
      simp only [List.length_cons, List.length_append, List.length_nil] at this
      omega
    · simp
    · simp

/-- C14 at `OPTION_NOT_DEFINED` with only `OPTION_A` bound. -/
theorem expandVariables_unbound_witness :
    expandVariables "$OPTION_NOT_DEFINED".toList [("OPTION_A".toList, "1".toList)] = [] ∧
    expandVariables "${OPTION_NOT_DEFINED}".toList [("OPTION_A".toList, "1".toList)] = [] :=
  ⟨(expandVariables_unbound "OPTION_NOT_DEFINED".toList [("OPTION_A".toList, "1".toList)]
      (by decide) (by decide) (by decide)).1,
    (expandVariables_unbound "OPTION_NOT_DEFINED".toList [("OPTION_A".toList, "1".toList)]
      (by decide) (by decide) (by decide)).2.1⟩

/-- C15. The expansion is one pass from left to right and is not applied to what it
substitutes: for names `A`, `B` and every mapping, `${A}${B}` expands to the value of
`A` followed by the value of `B`, as they are, also when these values hold `$`
references or backslashes. -/
theorem expandVariables_single_pass (A B : Str) (m : EnvMap) (hA : A ≠ []) (hB : B ≠ [])
    (hAn : ∀ c ∈ A, isNameChar c = true) (hBn : ∀ c ∈ B, isNameChar c = true) :
    expandVariables ('$' :: '{' :: (A ++ '}' :: '$' :: '{' :: (B ++ ['}']))) m
      = m.get A ++ m.get B := by
  have hB' := expandVariables_braced B m hBn hB
  unfold expandVariables expandVarRegex_ReplaceAllStringFunc at hB' ⊢
  rw [replaceGo_braced _ A _ hAn, hB']
  simp [FindStringSubmatch_braced A [] hAn, hA]

/-- C15 at `A` bound to `$B` and `B` bound to `\$A`: the result is `$B\$A`. -/
theorem expandVariables_single_pass_witness :
    expandVariables "${A}${B}".toList [("A".toList, "$B".toList), ("B".toList, "\\$A".toList)]
      = "$B\\$A".toList :=
  expandVariables_single_pass "A".toList "B".toList
    [("A".toList, "$B".toList), ("B".toList, "\\$A".toList)] (by decide) (by decide)
    (by decide) (by decide)

end Env

namespace Env

/-! ## Keys with `export`, keys and values with white space around them -/

theorem rdropWhile_append_of_pos (p : Char → Bool) (l ws : Str) (h : ∀ c ∈ ws, p c = true) :
    (l ++ ws).rdropWhile p = l.rdropWhile p := by
  unfold List.rdropWhile
  rw [List.reverse_append, List.dropWhile_append_of_pos (by simpa using h)]

theorem TrimSpace_padded (ws1 ws2 k : Str) (h1 : ∀ c ∈ ws1, strings.IsSpace c = true)
    (h2 : ∀ c ∈ ws2, strings.IsSpace c = true) (hk : ∀ c ∈ k, strings.IsSpace c = false) :
    strings.TrimSpace (ws1 ++ (k ++ ws2)) = k := by
  unfold strings.TrimSpace
  rw [List.dropWhile_append_of_pos h1]
  cases k with
  | nil =>
    rw [List.nil_append, List.dropWhile_eq_nil_iff.2 h2]
    rfl
  | cons x xs =>
    rw [List.cons_append, List.dropWhile_cons_of_neg (by simp [hk x (List.mem_cons_self _ _)]),
      ← List.cons_append, rdropWhile_append_of_pos _ _ _ h2, rdropWhile_of_forall_not _ hk]

theorem exportRegex_of_plain (k : Str) (hs : ∀ c ∈ k, strings.IsSpace c = false)
    (he : strings.HasPrefix k "export".toList = false) : exportRegex_ReplaceAllString k = k := by
  have hr : ∀ c ∈ k, isRegexSpace c = false := by
    intro c hc
    by_contra hcon
    have := isRegexSpace_imp_IsSpace c (by simpa using hcon)
    rw [hs c hc] at this
    cases this
  have hn : '\n' ∉ k := by
    intro hmem
    have := hs _ hmem
    revert this
    decide
  unfold exportRegex_ReplaceAllString
  simp only [dropWhile_of_forall_not k hr, he, Bool.false_eq_true, false_and, if_false,
    rdropWhile_of_forall_not k hr, hn]

theorem HasPrefix_export_of_name (k : Str) (hk : ∀ c ∈ k, isNameChar c = true) :
    strings.HasPrefix k "export".toList = false := by
  cases k with
  | nil => rfl
  | cons x xs =>
    have : ¬ ('e' = x) := by
      intro e
      have := hk x (List.mem_cons_self _ _)
      rw [← e] at this
      revert this
      decide
    simp [strings.HasPrefix, List.isPrefixOf, this]

/-- The first half of what C16 describes: `export`, white space, `NAME` is normalized
to `NAME`. (So is `export` directly followed by `NAME`.) -/
theorem normalizeKey_export_name (ws name : Str) (hws : ∀ c ∈ ws, strings.IsSpace c = true)
    (hn : ∀ c ∈ name, isNameChar c = true) :
    normalizeKey ("export".toList ++ (ws ++ name)) = name := by
  have hp : strings.HasPrefix ("export".toList ++ (ws ++ name)) "export".toList = true := by
    simp [strings.HasPrefix]
  have hdrop : ("export".toList ++ (ws ++ name)).drop "export".toList.length = ws ++ name :=
    List.drop_left _ _
  have hsp : ∀ c ∈ name, strings.IsSpace c = false :=
    fun c hc => not_IsSpace_of_isNameChar c (hn c hc)
  have ht := TrimSpace_padded ws [] name hws (by simp) hsp
  rw [List.append_nil] at ht
  unfold normalizeKey strings.TrimPrefix
  rw [hp, if_pos rfl, hdrop, ht]
  exact exportRegex_of_plain name hsp (HasPrefix_export_of_name name hn)

/-- C16, the code at `exported` and `exportFOO`: `strings.TrimPrefix(key, "export")` cuts
the six letters off whatever follows them, so the normalized keys are `ed` and
`FOO`; the line `exported=1` is entered under the key `ed`. -/
theorem normalizeKey_export_cut_off :
    strings.TrimPrefix "exported".toList "export".toList = "ed".toList ∧
    normalizeKey "exported".toList = "ed".toList ∧
    normalizeKey "exportFOO".toList = "FOO".toList ∧
    exportRegex_ReplaceAllString "exported".toList = "exported".toList ∧
    FromReader (.ok ["exported=1".toList]) = ([("ed".toList, "1".toList)], none) := by
  decide

end Env

namespace Env

theorem not_mem_of_valueChars (v : Str) (hv : ∀ c ∈ v, c.isAlphanum = true ∨ c = '_') (x : Char)
    (h1 : x.isAlphanum = false) (h2 : x ≠ '_') : x ∉ v := by
  intro hm
  rcases hv x hm with h | h
  · rw [h1] at h; cases h
  · exact h2 h

/-- A value of letters, digits and underscores with spaces around it is parsed to
itself. -/
theorem parseValue_plain_padded (v : Str) (n k : Nat) (m : EnvMap)
    (hv : ∀ c ∈ v, c.isAlphanum = true ∨ c = '_') :
    parseValue (List.replicate n ' ' ++ (v ++ List.replicate k ' ')) m = .ok v := by
  have hh : ∀ q : Char, q.isAlphanum = false → q ≠ '_' → v.head? ≠ some q := by
    intro q h1 h2 e
    exact not_mem_of_valueChars v hv q h1 h2 (List.mem_of_mem_head? e)
  apply parseValue_literal _ v m
  · exact Trim_spaces_around n k v (hh _ (by decide) (by decide)) (by
      intro e
      exact not_mem_of_valueChars v hv _ (by decide) (by decide) (List.mem_of_getLast?_eq_some e))
  · exact hh _ (by decide) (by decide)
  · exact hh _ (by decide) (by decide)
  · exact not_mem_of_valueChars v hv _ (by decide) (by decide)

theorem isIgnoredLine_padded (ws : Str) (x : Char) (xs : Str)
    (hws : ∀ c ∈ ws, strings.IsSpace c = true) (h1 : strings.IsSpace x = false) (h2 : x ≠ '#') :
    isIgnoredLine (ws ++ x :: xs) = false := by
  have hd : (ws ++ x :: xs).dropWhile strings.IsSpace = x :: xs := by
    rw [List.dropWhile_append_of_pos hws]
    exact List.dropWhile_cons_of_neg (by simp [h1])
  obtain ⟨t, ht⟩ := rdropWhile_cons_of_neg strings.IsSpace x xs h1
  have hb : byteLen (x :: t) ≠ 0 := by
    rw [Ne, byteLen_eq_zero_iff]; simp
  have hx : ¬ ('#' = x) := fun e => h2 e.symm
  simp [isIgnoredLine, strings.TrimSpace, hd, ht, hb, strings.HasPrefix, List.isPrefixOf, hx]

theorem IsSpace_of_blank (c : Char) (h : c = ' ' ∨ c = '\t') : strings.IsSpace c = true := by
  rcases h with rfl | rfl <;> decide

/-- A plain assignment with blanks (spaces, tabs) around the key and spaces around the
value. -/
theorem parseLine_padded (ws1 ws2 K v : Str) (n k : Nat) (m : EnvMap)
    (h1 : ∀ c ∈ ws1, c = ' ' ∨ c = '\t') (h2 : ∀ c ∈ ws2, c = ' ' ∨ c = '\t')
    (hKn : ∀ c ∈ K, isNameChar c = true) (hv : ∀ c ∈ v, c.isAlphanum = true ∨ c = '_') :
    isIgnoredLine (ws1 ++ (K ++ ws2) ++ '=' :: (List.replicate n ' ' ++ (v ++ List.replicate k ' ')))
      = false ∧
    parseLine (ws1 ++ (K ++ ws2) ++ '=' :: (List.replicate n ' ' ++ (v ++ List.replicate k ' '))) m
      = .ok (K, v) := by
  have hb : ∀ (ws : Str), (∀ c ∈ ws, c = ' ' ∨ c = '\t') → ∀ x : Char, x ≠ ' ' → x ≠ '\t' → x ∉ ws := by
    intro ws hws x hx1 hx2 hm
    rcases hws x hm with h | h
    · exact hx1 h
    · exact hx2 h
  have hkey : ∀ x : Char, x ≠ ' ' → x ≠ '\t' → isNameChar x = false → x ∉ ws1 ++ (K ++ ws2) := by
    intro x hx1 hx2 hx3 hm
    rcases List.mem_append.1 hm with h | h
    · exact hb ws1 h1 x hx1 hx2 h
    · rcases List.mem_append.1 h with h | h
      · exact not_mem_of_forall _ _ hKn _ hx3 h
      · exact hb ws2 h2 x hx1 hx2 h
  have hval : ∀ x : Char, x ≠ ' ' → x.isAlphanum = false → x ≠ '_' →
      x ∉ List.replicate n ' ' ++ (v ++ List.replicate k ' ') := by
    intro x hx1 hx2 hx3 hm
    rcases List.mem_append.1 hm with h | h
    · exact hx1 (List.eq_of_mem_replicate h)
    · rcases List.mem_append.1 h with h | h
      · exact not_mem_of_valueChars v hv x hx2 hx3 h
      · exact hx1 (List.eq_of_mem_replicate h)
  have hs1 : ∀ c ∈ ws1, strings.IsSpace c = true := fun c hc => IsSpace_of_blank c (h1 c hc)
  have hs2 : ∀ c ∈ ws2, strings.IsSpace c = true := fun c hc => IsSpace_of_blank c (h2 c hc)
  have hsK : ∀ c ∈ K, strings.IsSpace c = false :=
    fun c hc => not_IsSpace_of_isNameChar c (hKn c hc)
  constructor
  · cases K with
    | nil =>
      have := isIgnoredLine_padded (ws1 ++ ws2) '='
        (List.replicate n ' ' ++ (v ++ List.replicate k ' '))
        (by
          intro c hc
          rcases List.mem_append.1 hc with h | h
          · exact hs1 c h
          · exact hs2 c h) (by decide) (by decide)
      simpa using this
    | cons a as =>
      have ha := hKn a (List.mem_cons_self _ _)
      have := isIgnoredLine_padded ws1 a
        (as ++ ws2 ++ '=' :: (List.replicate n ' ' ++ (v ++ List.replicate k ' ')))
        hs1 (not_IsSpace_of_isNameChar a ha) (by rintro rfl; revert ha; decide)
      simpa using this
  · have hh : '#' ∉ ws1 ++ (K ++ ws2) ++ '=' :: (List.replicate n ' ' ++ (v ++ List.replicate k ' ')) := by
      intro hm
      rcases List.mem_append.1 hm with h | h
      · exact hkey _ (by decide) (by decide) (by decide) h
      · rcases List.mem_cons.1 h with h | h
        · revert h; decide
        · exact hval _ (by decide) (by decide) (by decide) h
    have hsplit := splitKeyValue_equals (ws1 ++ (K ++ ws2))
      (List.replicate n ' ' ++ (v ++ List.replicate k ' '))
      (hkey _ (by decide) (by decide) (by decide)) (hkey _ (by decide) (by decide) (by decide))
    have hpre : strings.HasPrefix (ws1 ++ (K ++ ws2)) "export".toList = false := by
      rcases hl : ws1 ++ (K ++ ws2) with _ | ⟨x, xs⟩
      · rfl
      · have hx : x ≠ 'e' := by
          rintro rfl
          have : 'e' ∈ ws1 ++ (K ++ ws2) := by rw [hl]; exact List.mem_cons_self _ _
          exact hkey _ (by decide) (by decide) (by decide) this
        have hx' : ¬ ('e' = x) := fun e => hx e.symm
        simp [strings.HasPrefix, List.isPrefixOf, hx']
    have hnorm : normalizeKey (ws1 ++ (K ++ ws2)) = K := by
      unfold normalizeKey strings.TrimPrefix
      rw [hpre]
      simp only [Bool.false_eq_true, if_false]
      rw [TrimSpace_padded ws1 ws2 K hs1 hs2 hsK]
      exact exportRegex_of_plain K hsK (HasPrefix_export_of_name K hKn)
    rw [parseLine_of_split _ m _ _ v (by simp)
      (by rw [stripComments_of_not_mem _ hh]; exact hsplit) (parseValue_plain_padded v n k m hv),
      hnorm]

/-- C17, the code at `KEY=<tab>v` and `KEY=v<tab>`: `strings.Trim(value, " ")` takes
spaces off the value and nothing else, the tab stays in the value. -/
theorem parseLine_tab_kept_in_value :
    parseLine "KEY=\tv".toList [] = .ok ("KEY".toList, "\tv".toList) ∧
    parseLine "KEY=v\t".toList [] = .ok ("KEY".toList, "v\t".toList) ∧
    strings.Trim "\tv".toList ' ' = "\tv".toList :=
  ⟨rfl, rfl, by decide⟩

/-- C17, amended. Plain assignments: for a `KEY` of upper-case letters, digits and
underscore and a value of letters and digits, with any blanks (spaces or tabs)
before the key and between the key and `=`, and any number of spaces between `=` and
the value and after the value, the line is not ignored and parses to the entry
`KEY = value`, all of that white space removed; `FromReader` on that one line gives
the mapping with this one entry. -/
theorem parseLine_plain_assignment (ws1 ws2 KEY value : Str) (n k : Nat) (m : EnvMap)
    (h1 : ∀ c ∈ ws1, c = ' ' ∨ c = '\t') (h2 : ∀ c ∈ ws2, c = ' ' ∨ c = '\t')
    (hK : ∀ c ∈ KEY, isNameChar c = true) (hv : ∀ c ∈ value, c.isAlphanum = true) :
    parseLine (ws1 ++ (KEY ++ ws2) ++ '=' ::
        (List.replicate n ' ' ++ (value ++ List.replicate k ' '))) m = .ok (KEY, value) ∧
    FromReader (.ok [ws1 ++ (KEY ++ ws2) ++ '=' ::
        (List.replicate n ' ' ++ (value ++ List.replicate k ' '))]) = ([(KEY, value)], none) := by
  have h := parseLine_padded ws1 ws2 KEY value n k m h1 h2 hK (fun c hc => Or.inl (hv c hc))
  have h0 := parseLine_padded ws1 ws2 KEY value n k [] h1 h2 hK (fun c hc => Or.inl (hv c hc))
  refine ⟨h.2, ?_⟩
  unfold FromReader
  dsimp only
  rw [parseLines_cons_ok _ _ [] KEY value h0.1 h0.2]
  rfl

/-- C17 amended, at the line ` <tab>KEY <tab>=  v1  `. -/
theorem parseLine_plain_assignment_witness :
    parseLine " \tKEY \t=  v1  ".toList [] = .ok ("KEY".toList, "v1".toList) ∧
    FromReader (.ok [" \tKEY \t=  v1  ".toList]) = ([("KEY".toList, "v1".toList)], none) :=
  parseLine_plain_assignment " \t".toList " \t".toList "KEY".toList "v1".toList 2 2 []
    (by decide) (by decide) (by decide) (by decide)

end Env

namespace Env

/-! ## Ignored lines -/

theorem parseLines_cons_ignored (l : Str) (rest : List Str) (m : EnvMap)
    (h : isIgnoredLine l = true) : parseLines (l :: rest) m = parseLines rest m := by
  simp [parseLines, h]

theorem parseLines_filter (lines : List Str) (m : EnvMap) :
    parseLines (lines.filter (fun l => !isIgnoredLine l)) m = parseLines lines m := by
  induction lines generalizing m with
  | nil => rfl
  | cons l rest ih =>
    by_cases hi : isIgnoredLine l = true
    · rw [parseLines_cons_ignored l rest m hi, List.filter_cons_of_neg (by simp [hi])]
      exact ih m
    · have hi' : isIgnoredLine l = false := by simpa using hi
      rw [List.filter_cons_of_pos (by simp [hi'])]
      simp only [parseLines, hi']
      rcases parseLine l m with e | ⟨k, v⟩
      · rfl
      · exact ih _

/-- C19. Ignored lines contribute nothing: a line is ignored exactly when its text
without the white space around it is empty or begins with `#`; putting such a line
into a source, or taking it out, at any place, changes neither the mapping nor the
error of `FromReader`; so the result is that of the source without its ignored
lines. -/
theorem isIgnoredLine_contributes_nothing (line : Str) (pre post lines : List Str) :
    (isIgnoredLine line = true ↔
      (strings.TrimSpace line = [] ∨ (strings.TrimSpace line).head? = some '#')) ∧
    (isIgnoredLine line = true →
      FromReader (.ok (pre ++ line :: post)) = FromReader (.ok (pre ++ post))) ∧
    FromReader (.ok (lines.filter (fun l => !isIgnoredLine l))) = FromReader (.ok lines) := by
  refine ⟨?_, ?_, ?_⟩
  · unfold isIgnoredLine
    dsimp only
    rw [Bool.or_eq_true, decide_eq_true_iff, byteLen_eq_zero_iff]
    rcases strings.TrimSpace line with _ | ⟨x, xs⟩
    · simp
    · simp only [strings.HasPrefix, List.isPrefixOf, Bool.and_true, beq_iff_eq, List.head?_cons,
        Option.some.injEq, false_or, reduceCtorEq]
      exact eq_comm
  · intro hi
    unfold FromReader
    dsimp only
    rw [parseLines_append, parseLines_append pre post]
    rcases parseLines pre [] with ⟨m', e⟩
    cases e with
    | none => exact parseLines_cons_ignored line post m' hi
    | some e => rfl
  · unfold FromReader
    exact parseLines_filter lines []

end Env

namespace Env

/-! ## Parsing a rendered mapping again -/

theorem EnvMap.set_of_not_mem_keys (m : EnvMap) (k v : Str) (h : k ∉ m.keys) :
    m.set k v = m ++ [(k, v)] := by
  induction m with
  | nil => rfl
  | cons p rest ih =>
    obtain ⟨k0, v0⟩ := p
    simp only [EnvMap.keys, List.map_cons, List.mem_cons, not_or] at h
    have h0 : ¬ k0 = k := fun e => h.1 e.symm
    simp only [EnvMap.set, h0, if_false, List.cons_append]
    rw [ih h.2]

/-- The loop of the comment removal keeps what it has and adds segments in their order,
each at most once. -/
theorem keepSegments_sublist (segs : List Str) (b : Bool) (keep : List Str) :
    ∃ t, keepSegments segs b keep = keep ++ t ∧ t.Sublist segs := by
  induction segs generalizing b keep with
  | nil => exact ⟨[], by simp [keepSegments], List.Sublist.refl _⟩
  | cons seg rest ih =>
    simp only [keepSegments]
    by_cases htog : strings.Count seg '"' = 1 ∨ strings.Count seg '\'' = 1
    · rw [if_pos htog]
      cases b with
      | true =>
        have hlen : ¬ ((keep ++ [seg]).length = 0 ∨ false = true) := by simp
        simp only [if_true]
        rw [if_neg hlen]
        obtain ⟨t, ht, hs⟩ := ih false (keep ++ [seg])
        exact ⟨seg :: t, by rw [ht]; simp, hs.cons₂ seg⟩
      | false =>
        simp only [Bool.false_eq_true, if_false, or_true, if_true]
        obtain ⟨t, ht, hs⟩ := ih true (keep ++ [seg])
        exact ⟨seg :: t, by rw [ht]; simp, hs.cons₂ seg⟩
    · rw [if_neg htog]
      dsimp only
      split
      · obtain ⟨t, ht, hs⟩ := ih b (keep ++ [seg])
        exact ⟨seg :: t, by rw [ht]; simp, hs.cons₂ seg⟩
      · obtain ⟨t, ht, hs⟩ := ih b keep
        exact ⟨t, ht, hs.cons seg⟩

theorem strings.Join_sublist (c : Char) (l1 l2 : List Str) (h : l1.Sublist l2) :
    (strings.Join c l1).Sublist (strings.Join c l2) := by
  induction h with
  | slnil => exact List.Sublist.refl _
  | @cons l1 l2 a _ ih =>
    cases l2 with
    | nil =>
      cases l1 with
      | nil => simp [strings.Join]
      | cons x xs => simp at *
    | cons t r =>
      rw [strings.Join_cons_cons]
      exact ih.trans ((List.sublist_cons_self _ _).trans (List.sublist_append_right _ _))
  | @cons₂ l1 l2 a hs ih =>
    cases l1 with
    | nil =>
      cases l2 with
      | nil => exact List.Sublist.refl _
      | cons t r =>
        rw [strings.Join_cons_cons]
        simp [strings.Join]
    | cons x xs =>
      cases l2 with
      | nil => simp at hs
      | cons t r =>
        rw [strings.Join_cons_cons, strings.Join_cons_cons]
        exact List.Sublist.append (List.Sublist.refl _) (ih.cons₂ c)

/-- The comment removal only takes characters away. -/
theorem stripComments_sublist (line : Str) : (stripComments line).Sublist line := by
  unfold stripComments
  split
  · obtain ⟨t, ht, hs⟩ := keepSegments_sublist (strings.Split '#' line) false []
    rw [ht, List.nil_append]
    have := strings.Join_sublist '#' _ _ hs
    rwa [strings.Join_Split] at this
  · exact List.Sublist.refl _

theorem strings.TrimSpace_sublist (s : Str) : (strings.TrimSpace s).Sublist s :=
  (List.rdropWhile_prefix _ _).sublist.trans (List.dropWhile_suffix _).sublist

theorem strings.TrimPrefix_sublist (s p : Str) : (strings.TrimPrefix s p).Sublist s := by
  unfold strings.TrimPrefix
  split
  · exact List.drop_sublist _ _
  · exact List.Sublist.refl _

theorem exportRegex_sublist (key : Str) : (exportRegex_ReplaceAllString key).Sublist key := by
  have hbody : ∀ body : Str, body.Sublist key →
      (if '\n' ∈ body.rdropWhile isRegexSpace then key
        else body.rdropWhile isRegexSpace).Sublist key := by
    intro body hb
    split
    · exact List.Sublist.refl _
    · exact (List.rdropWhile_prefix _ _).sublist.trans hb
  unfold exportRegex_ReplaceAllString
  dsimp only
  apply hbody
  split
  · exact (List.dropWhile_suffix _).sublist.trans
      ((List.drop_sublist _ _).trans (List.dropWhile_suffix _).sublist)
  · exact (List.dropWhile_suffix _).sublist

/-- The key steps only take characters away. -/
theorem normalizeKey_sublist_TrimPrefix (key : Str) :
    (normalizeKey key).Sublist (strings.TrimPrefix key "export".toList) :=
  (exportRegex_sublist _).trans (strings.TrimSpace_sublist _)

theorem normalizeKey_sublist (key : Str) : (normalizeKey key).Sublist key :=
  (normalizeKey_sublist_TrimPrefix key).trans (strings.TrimPrefix_sublist _ _)

/-- What the separator step gives: the raw key holds no separator, and the text is the
raw key, a separator and the raw value. -/
theorem splitKeyValue_some_inv (line rk rv : Str) (h : splitKeyValue line = some (rk, rv)) :
    '=' ∉ rk ∧ ':' ∉ rk ∧ (line = rk ++ '=' :: rv ∨ line = rk ++ ':' :: rv) := by
  have hsep : '=' ∈ line ∨ ':' ∈ line := by
    by_contra hcon
    rw [not_or] at hcon
    rw [(splitKeyValue_eq_none_iff line).2 hcon] at h
    cases h
  obtain ⟨k, v, h1, h2, hl⟩ := exists_first_sep line hsep
  rcases hl with hl | hl
  · rw [hl, splitKeyValue_equals k v h1 h2] at h
    cases h
    exact ⟨h1, h2, Or.inl hl⟩
  · rw [hl, splitKeyValue_colon k v h1 h2] at h
    cases h
    exact ⟨h1, h2, Or.inr hl⟩

/-- A text cut at its first `=`, taken out of another text cut at its only `=`: the
parts are taken out of the parts. -/
theorem sublist_at_equals (a b k v : Str) (ha : '=' ∉ a) (hk : '=' ∉ k) (hv : '=' ∉ v)
    (h : (a ++ '=' :: b).Sublist (k ++ '=' :: v)) : a.Sublist k ∧ b.Sublist v := by
  induction k generalizing a with
  | nil =>
    rw [List.nil_append] at h
    cases a with
    | nil =>
      rw [List.nil_append] at h
      exact ⟨List.Sublist.refl _, List.cons_sublist_cons.1 h⟩
    | cons x xs =>
      have hx : x ≠ '=' := fun e => ha (by rw [e]; exact List.mem_cons_self _ _)
      rw [List.cons_append] at h
      rcases List.sublist_cons_iff.1 h with h' | ⟨r, hr, _⟩
      · exact absurd (h'.subset (by simp)) hv
      · simp only [List.cons.injEq] at hr
        exact absurd hr.1 hx
  | cons y ys ih =>
    have hy : y ≠ '=' := fun e => hk (by rw [e]; exact List.mem_cons_self _ _)
    have hys : '=' ∉ ys := fun hm => hk (List.mem_cons_of_mem _ hm)
    cases a with
    | nil =>
      rw [List.nil_append, List.cons_append] at h
      rcases List.sublist_cons_iff.1 h with h' | ⟨r, hr, _⟩
      · have := ih [] (by simp) hys (by simpa using h')
        exact ⟨List.nil_sublist _, this.2⟩
      · simp only [List.cons.injEq] at hr
        exact absurd hr.1.symm hy
    | cons x xs =>
      have hxs : '=' ∉ xs := fun hm => ha (List.mem_cons_of_mem _ hm)
      rw [List.cons_append, List.cons_append] at h
      rcases List.sublist_cons_iff.1 h with h' | ⟨r, hr, hs⟩
      · have := ih (x :: xs) ha hys (by simpa using h')
        exact ⟨this.1.cons y, this.2⟩
      · simp only [List.cons.injEq] at hr
        obtain ⟨rfl, rfl⟩ := hr
        have := ih xs hxs hys hs
        exact ⟨this.1.cons₂ x, this.2⟩

/-- A text that `strings.TrimSpace` leaves as it is has no white space at its ends. -/
theorem TrimSpace_eq_self_inv (k : Str) (h : strings.TrimSpace k = k) :
    k.dropWhile strings.IsSpace = k ∧ k.rdropWhile strings.IsSpace = k := by
  have h1 : (strings.TrimSpace k).Sublist (k.dropWhile strings.IsSpace) :=
    (List.rdropWhile_prefix _ _).sublist
  have h2 : (k.dropWhile strings.IsSpace).Sublist k := (List.dropWhile_suffix _).sublist
  rw [h] at h1
  have hd : k.dropWhile strings.IsSpace = k := h2.antisymm h1
  refine ⟨hd, ?_⟩
  unfold strings.TrimSpace at h
  rwa [hd] at h

theorem not_isRegexSpace_of_not_IsSpace (c : Char) (h : ¬ strings.IsSpace c = true) :
    ¬ isRegexSpace c = true :=
  fun hr => h (isRegexSpace_imp_IsSpace c hr)

/-- The pattern `exportRegex` gives back a text that has no white space at its ends and
does not begin with `export`. -/
theorem exportRegex_of_trimmed (k : Str) (hb : strings.TrimSpace k = k)
    (ha : strings.HasPrefix k "export".toList = false) : exportRegex_ReplaceAllString k = k := by
  obtain ⟨hd, hr⟩ := TrimSpace_eq_self_inv k hb
  have hd' : k.dropWhile isRegexSpace = k :=
    List.dropWhile_eq_self_iff.2
      (fun hl => not_isRegexSpace_of_not_IsSpace _ (List.dropWhile_eq_self_iff.1 hd hl))
  have hr' : k.rdropWhile isRegexSpace = k :=
    List.rdropWhile_eq_self_iff.2
      (fun hl => not_isRegexSpace_of_not_IsSpace _ (List.rdropWhile_eq_self_iff.1 hr hl))
  unfold exportRegex_ReplaceAllString
  simp only [hd', ha, Bool.false_eq_true, false_and, if_false, hr', ite_self]

/-- The key steps give back a key that has no white space at its ends and does not
begin with `export`. -/
theorem normalizeKey_of_trimmed (k : Str) (hb : strings.TrimSpace k = k)
    (ha : strings.HasPrefix k "export".toList = false) : normalizeKey k = k := by
  unfold normalizeKey strings.TrimPrefix
  rw [ha]
  simp only [Bool.false_eq_true, if_false]
  rw [hb]
  exact exportRegex_of_trimmed k hb ha

/-- The key steps change every key that begins with `export`, and every key with white
space at an end. -/
theorem normalizeKey_eq_self_inv (k : Str) (h : normalizeKey k = k) :
    strings.HasPrefix k "export".toList = false ∧ strings.TrimSpace k = k := by
  have ha : strings.HasPrefix k "export".toList = false := by
    by_contra hcon
    have hp : strings.HasPrefix k "export".toList = true := by simpa using hcon
    have hs := normalizeKey_sublist_TrimPrefix k
    rw [h] at hs
    have hlen := hs.length_le
    unfold strings.TrimPrefix at hlen
    rw [if_pos hp, List.length_drop] at hlen
    have h6 : "export".toList.length ≤ k.length := by
      unfold strings.HasPrefix at hp
      exact (List.isPrefixOf_iff_prefix.1 hp).length_le
    have : "export".toList.length = 6 := rfl
    omega
  refine ⟨ha, ?_⟩
  have hs : (normalizeKey k).Sublist (strings.TrimSpace k) := by
    have := exportRegex_sublist (strings.TrimSpace (strings.TrimPrefix k "export".toList))
    unfold strings.TrimPrefix at this
    rw [ha] at this
    simp only [Bool.false_eq_true, if_false] at this
    have hn : normalizeKey k = exportRegex_ReplaceAllString (strings.TrimSpace k) := by
      unfold normalizeKey strings.TrimPrefix
      rw [ha]
      simp only [Bool.false_eq_true, if_false]
    rw [hn]
    exact this
  rw [h] at hs
  exact (strings.TrimSpace_sublist k).antisymm hs

theorem valueChars_sublist (rv v : Str) (hs : rv.Sublist v)
    (hv : ∀ c ∈ v, c.isAlphanum = true ∨ c = '_') : ∀ c ∈ rv, c.isAlphanum = true ∨ c = '_' :=
  fun c hc => hv c (hs.subset hc)

/-- A line `KEY=value` stands for its entry when the key holds no separator, does not
begin with `export`, has no white space at its ends, does not begin with `#`, the
comment removal leaves the line whole, and the value is made of letters, digits and
underscores. -/
theorem parseLine_rendered (k v : Str) (m : EnvMap) (h1 : '=' ∉ k) (h2 : ':' ∉ k)
    (hv : ∀ c ∈ v, c.isAlphanum = true ∨ c = '_')
    (ha : strings.HasPrefix k "export".toList = false) (hb : strings.TrimSpace k = k)
    (hc : k.head? ≠ some '#') (hd : stripComments (k ++ '=' :: v) = k ++ '=' :: v) :
    isIgnoredLine (k ++ '=' :: v) = false ∧ parseLine (k ++ '=' :: v) m = .ok (k, v) := by
  constructor
  · cases k with
    | nil => exact isIgnoredLine_cons '=' v (by decide) (by decide)
    | cons x xs =>
      have hx := List.dropWhile_eq_self_iff.1 (TrimSpace_eq_self_inv _ hb).1 (by simp)
      simp only [List.get_eq_getElem, List.getElem_cons_zero] at hx
      exact isIgnoredLine_cons x _ (by simpa using hx) (by
        rintro rfl
        exact hc rfl)
  · have hp := parseValue_plain_padded v 0 0 m hv
    simp only [List.replicate_zero, List.nil_append, List.append_nil] at hp
    rw [parseLine_of_split _ m k v v (by simp)
      (by rw [hd]; exact splitKeyValue_equals k v h1 h2) hp, normalizeKey_of_trimmed k hb ha]

/-- The converse: a line `KEY=value` whose value is made of letters, digits and
underscores, which is not ignored and is parsed to the entry it was made from, has a
key that does not begin with `export`, has no white space at its ends and does not
begin with `#`, and the comment removal leaves the line whole. -/
theorem parseLine_rendered_inv (k v : Str) (m : EnvMap)
    (hv : ∀ c ∈ v, c.isAlphanum = true ∨ c = '_')
    (hi : isIgnoredLine (k ++ '=' :: v) = false)
    (hp : parseLine (k ++ '=' :: v) m = .ok (k, v)) :
    strings.HasPrefix k "export".toList = false ∧ strings.TrimSpace k = k ∧
      k.head? ≠ some '#' ∧ stripComments (k ++ '=' :: v) = k ++ '=' :: v := by
  obtain ⟨_, rk, rv, hsplit, hkey, hval⟩ := parseLine_ok_inv _ m k v hp
  obtain ⟨hrk1, hrk2, hS⟩ := splitKeyValue_some_inv _ rk rv hsplit
  have hkrk : k.Sublist rk := by rw [hkey]; exact normalizeKey_sublist rk
  have hk1 : '=' ∉ k := fun hm => hrk1 (hkrk.subset hm)
  have hk2 : ':' ∉ k := fun hm => hrk2 (hkrk.subset hm)
  have hv1 : '=' ∉ v := not_mem_of_valueChars v hv _ (by decide) (by decide)
  have hv2 : ':' ∉ v := not_mem_of_valueChars v hv _ (by decide) (by decide)
  have hsub := stripComments_sublist (k ++ '=' :: v)
  have hSeq : stripComments (k ++ '=' :: v) = rk ++ '=' :: rv := by
    rcases hS with hS | hS
    · exact hS
    · exfalso
      have : ':' ∈ k ++ '=' :: v := hsub.subset (by rw [hS]; simp)
      rcases List.mem_append.1 this with h | h
      · exact hk2 h
      · rcases List.mem_cons.1 h with h | h
        · revert h; decide
        · exact hv2 h
  rw [hSeq] at hsub
  obtain ⟨hs1, hs2⟩ := sublist_at_equals rk rv k v hrk1 hk1 hv1 hsub
  have hrk : rk = k := hs1.antisymm hkrk
  subst hrk
  have hrv : rv = v := by
    have := parseValue_plain_padded rv 0 0 m (valueChars_sublist rv v hs2 hv)
    simp only [List.replicate_zero, List.nil_append, List.append_nil] at this
    rw [this] at hval
    cases hval
    rfl
  subst hrv
  obtain ⟨ha, hb⟩ := normalizeKey_eq_self_inv rk hkey.symm
  refine ⟨ha, hb, ?_, hSeq⟩
  intro hh
  cases rk with
  | nil => cases hh
  | cons x xs =>
    simp only [List.head?_cons, Option.some.injEq] at hh
    subst hh
    obtain ⟨t, ht⟩ := rdropWhile_cons_of_neg strings.IsSpace '#' (xs ++ '=' :: rv) (by decide)
    have : isIgnoredLine ('#' :: xs ++ '=' :: rv) = true := by
      have hdw : ('#' :: (xs ++ '=' :: rv)).dropWhile strings.IsSpace = '#' :: (xs ++ '=' :: rv) :=
        List.dropWhile_cons_of_neg (by decide)
      simp [isIgnoredLine, strings.TrimSpace, hdw, ht, strings.HasPrefix, List.isPrefixOf]
    rw [this] at hi
    cases hi

theorem EnvMap.length_set (m : EnvMap) (k v : Str) :
    (m.set k v).length = if k ∈ m.keys then m.length else m.length + 1 := by
  induction m with
  | nil => simp [EnvMap.set, EnvMap.keys]
  | cons p rest ih =>
    obtain ⟨k0, v0⟩ := p
    by_cases h0 : k0 = k
    · simp [EnvMap.set, EnvMap.keys, h0]
    · have h0' : ¬ k = k0 := fun e => h0 e.symm
      simp only [EnvMap.set, h0, if_false, List.length_cons, ih, EnvMap.keys, List.map_cons,
        List.mem_cons, h0', false_or]
      split <;> rfl

/-- Every line adds one entry at most. -/
theorem parseLines_length_le (ls : List Str) (acc res : EnvMap)
    (h : parseLines ls acc = (res, none)) : res.length ≤ acc.length + ls.length := by
  induction ls generalizing acc with
  | nil =>
    simp only [parseLines, Prod.mk.injEq, and_true] at h
    subst h
    simp
  | cons l rest ih =>
    simp only [parseLines] at h
    split at h
    · split at h
      · cases h
      · rename_i k v _
        have := ih _ h
        have hl := EnvMap.length_set acc k v
        rw [List.length_cons]
        split at hl <;> omega
    · have := ih _ h
      rw [List.length_cons]
      omega

/-- When as many entries are added as there are lines, every line is parsed, none is
ignored, and its entry is added at the end. -/
theorem parseLines_full_inv (ls : List Str) (acc res : EnvMap)
    (h : parseLines ls acc = (res, none)) (hlen : res.length = acc.length + ls.length) :
    ∃ es, res = acc ++ es ∧
      List.Forall₂ (fun l e => isIgnoredLine l = false ∧ ∃ m', parseLine l m' = .ok e) ls es := by
  induction ls generalizing acc with
  | nil =>
    simp only [parseLines, Prod.mk.injEq, and_true] at h
    subst h
    exact ⟨[], by simp, List.Forall₂.nil⟩
  | cons l rest ih =>
    rw [List.length_cons] at hlen
    by_cases hi : isIgnoredLine l = true
    · rw [parseLines_cons_ignored l rest acc hi] at h
      have := parseLines_length_le rest acc res h
      omega
    · have hi' : isIgnoredLine l = false := by simpa using hi
      rcases hp : parseLine l acc with err | ⟨k, v⟩
      · simp only [parseLines, hi', hp] at h
        cases h
      · rw [parseLines_cons_ok l rest acc k v hi' hp] at h
        have hle := parseLines_length_le rest _ res h
        have hl := EnvMap.length_set acc k v
        have hnot : k ∉ acc.keys := by
          intro hm
          rw [if_pos hm] at hl
          omega
        rw [EnvMap.set_of_not_mem_keys acc k v hnot] at h
        obtain ⟨es, hes, hf⟩ := ih (acc ++ [(k, v)]) h (by simp; omega)
        exact ⟨(k, v) :: es, by rw [hes]; simp, List.Forall₂.cons ⟨hi', acc, hp⟩ hf⟩

/-- The keys of a parsed mapping hold no separator. -/
theorem FromReader_keys_no_separator (lines : List Str) (m : EnvMap)
    (h : FromReader (.ok lines) = (m, none)) : ∀ k ∈ m.keys, '=' ∉ k ∧ ':' ∉ k := by
  intro k hk
  unfold FromReader at h
  rcases ((parseLines_keys lines [] m h (by simp [EnvMap.keys])).2 k).1 hk with h0 | ⟨l, _, _, hl⟩
  · simp [EnvMap.keys] at h0
  · unfold lineKey at hl
    rcases hp : parseLine l [] with err | ⟨k', v'⟩
    · rw [hp] at hl
      cases hl
    · rw [hp] at hl
      simp only [Option.some.injEq] at hl
      subst hl
      obtain ⟨_, rk, rv, hsplit, hkey, _⟩ := parseLine_ok_inv l [] _ v' hp
      obtain ⟨h1, h2, _⟩ := splitKeyValue_some_inv _ rk rv hsplit
      have hs : (normalizeKey rk).Sublist rk := normalizeKey_sublist rk
      rw [hkey]
      exact ⟨fun hm => h1 (hs.subset hm), fun hm => h2 (hs.subset hm)⟩

/-- Lines `KEY=value` made from entries with distinct keys that stand for themselves
are parsed back to these entries, in that order, after the entries that are
there. -/
theorem parseLines_rendered (entries acc : EnvMap)
    (hnd : (EnvMap.keys (acc ++ entries)).Nodup)
    (hs : ∀ e ∈ entries, '=' ∉ e.1 ∧ ':' ∉ e.1)
    (hv : ∀ e ∈ entries, ∀ c ∈ e.2, c.isAlphanum = true ∨ c = '_')
    (hk : ∀ e ∈ entries, strings.HasPrefix e.1 "export".toList = false ∧
      strings.TrimSpace e.1 = e.1 ∧ e.1.head? ≠ some '#' ∧
      stripComments (e.1 ++ '=' :: e.2) = e.1 ++ '=' :: e.2) :
    parseLines (entries.map (fun e => e.1 ++ '=' :: e.2)) acc = (acc ++ entries, none) := by
  induction entries generalizing acc with
  | nil => simp [parseLines]
  | cons e rest ih =>
    obtain ⟨k, v⟩ := e
    obtain ⟨ha, hb, hc, hd⟩ := hk (k, v) (List.mem_cons_self _ _)
    obtain ⟨h1, h2⟩ := hs (k, v) (List.mem_cons_self _ _)
    have hp := parseLine_rendered k v acc h1 h2 (hv (k, v) (List.mem_cons_self _ _)) ha hb hc hd
    have hnot : k ∉ EnvMap.keys acc := by
      intro hmem
      simp only [EnvMap.keys, List.map_append, List.map_cons] at hnd
      have := (List.nodup_append.1 hnd).2.2
      exact this hmem (List.mem_cons_self _ _)
    rw [List.map_cons, parseLines_cons_ok _ _ acc k v hp.1 hp.2,
      EnvMap.set_of_not_mem_keys acc k v hnot,
      ih (acc ++ [(k, v)]) (by simpa using hnd)
        (fun e he => hs e (List.mem_cons_of_mem _ he))
        (fun e he => hv e (List.mem_cons_of_mem _ he))
        (fun e he => hk e (List.mem_cons_of_mem _ he))]
    simp

/-- What a line `KEY=value` is parsed to, when the key holds no separator and the value
is made of letters, digits and underscores: a key and a value that are the key and
the value with characters taken away, or as they are. -/
theorem parseLine_rendered_sublist (k v k' v' : Str) (m : EnvMap) (h1 : '=' ∉ k) (h2 : ':' ∉ k)
    (hv : ∀ c ∈ v, c.isAlphanum = true ∨ c = '_')
    (hp : parseLine (k ++ '=' :: v) m = .ok (k', v')) : k'.Sublist k ∧ v'.Sublist v := by
  obtain ⟨_, rk, rv, hsplit, hkey, hval⟩ := parseLine_ok_inv _ m k' v' hp
  obtain ⟨hrk1, _, hS⟩ := splitKeyValue_some_inv _ rk rv hsplit
  have hv1 : '=' ∉ v := not_mem_of_valueChars v hv _ (by decide) (by decide)
  have hv2 : ':' ∉ v := not_mem_of_valueChars v hv _ (by decide) (by decide)
  have hsub := stripComments_sublist (k ++ '=' :: v)
  have hSeq : stripComments (k ++ '=' :: v) = rk ++ '=' :: rv := by
    rcases hS with hS | hS
    · exact hS
    · exfalso
      have : ':' ∈ k ++ '=' :: v := hsub.subset (by rw [hS]; simp)
      rcases List.mem_append.1 this with h | h
      · exact h2 h
      · rcases List.mem_cons.1 h with h | h
        · revert h; decide
        · exact hv2 h
  rw [hSeq] at hsub
  obtain ⟨hs1, hs2⟩ := sublist_at_equals rk rv k v hrk1 h1 hv1 hsub
  have hrv : rv = v' := by
    have := parseValue_plain_padded rv 0 0 m (valueChars_sublist rv v hs2 hv)
    simp only [List.replicate_zero, List.nil_append, List.append_nil] at this
    rw [this] at hval
    cases hval
    rfl
  rw [hkey, ← hrv]
  exact ⟨(normalizeKey_sublist rk).trans hs1, hs2⟩

theorem forall₂_rendered_sublist (entries res : EnvMap)
    (hs : ∀ e ∈ entries, '=' ∉ e.1 ∧ ':' ∉ e.1)
    (hv : ∀ e ∈ entries, ∀ c ∈ e.2, c.isAlphanum = true ∨ c = '_')
    (hf : List.Forall₂ (fun c d => isIgnoredLine (c.1 ++ '=' :: c.2) = false ∧
      ∃ m', parseLine (c.1 ++ '=' :: c.2) m' = .ok d) entries res) :
    List.Forall₂ (fun c d => d.1.Sublist c.1 ∧ d.2.Sublist c.2) entries res := by
  induction hf with
  | nil => exact List.Forall₂.nil
  | @cons a b l1 l2 hab _ ih =>
    obtain ⟨_, m', hp⟩ := hab
    obtain ⟨h1, h2⟩ := hs a (List.mem_cons_self _ _)
    exact List.Forall₂.cons
      (parseLine_rendered_sublist a.1 a.2 b.1 b.2 m' h1 h2 (hv a (List.mem_cons_self _ _)) hp)
      (ih (fun e he => hs e (List.mem_cons_of_mem _ he))
        (fun e he => hv e (List.mem_cons_of_mem _ he)))

theorem forall₂_sublist_size_le (l1 l2 : EnvMap)
    (hf : List.Forall₂ (fun c d => d.1.Sublist c.1 ∧ d.2.Sublist c.2) l1 l2) :
    (l2.map (fun e => e.1.length + e.2.length)).sum ≤
      (l1.map (fun e => e.1.length + e.2.length)).sum := by
  induction hf with
  | nil => exact Nat.le_refl _
  | @cons a b l1 l2 hab _ ih =>
    have := hab.1.length_le
    have := hab.2.length_le
    simp only [List.map_cons, List.sum_cons]
    omega

/-- Entries with characters taken away, that have as many characters in all: nothing
was taken away. -/
theorem forall₂_sublist_eq (l1 l2 : EnvMap)
    (hf : List.Forall₂ (fun c d => d.1.Sublist c.1 ∧ d.2.Sublist c.2) l1 l2)
    (hsum : (l2.map (fun e => e.1.length + e.2.length)).sum =
      (l1.map (fun e => e.1.length + e.2.length)).sum) : l2 = l1 := by
  induction hf with
  | nil => rfl
  | @cons a b l1 l2 hab hrest ih =>
    have h1 := hab.1.length_le
    have h2 := hab.2.length_le
    have h3 := forall₂_sublist_size_le l1 l2 hrest
    simp only [List.map_cons, List.sum_cons] at hsum
    have e1 : b.1 = a.1 := hab.1.eq_of_length_le (by omega)
    have e2 : b.2 = a.2 := hab.2.eq_of_length_le (by omega)
    have e3 : l2 = l1 := ih (by omega)
    rw [e3, Prod.ext e1 e2]

/-- C18, the code at three sources. `export export export X=1` is parsed into the one
entry `export X = 1`; that entry rendered is the line `export X=1`, which is parsed
into the entry `X = 1`, another mapping. `export #k'=1` is parsed into the entry
`#k' = 1`; rendered it is the line `#k'=1`, which is ignored as a comment. `export
export`, a space, a vertical tab, `X=1` is parsed into an entry whose key begins with
the vertical tab; rendered, the key is parsed without it. -/
theorem FromReader_reparse_changes_key :
    (FromReader (.ok ["export export export X=1".toList])
        = ([("export X".toList, "1".toList)], none) ∧
      [("export X".toList, "1".toList)].map (fun e => e.1 ++ '=' :: e.2) = ["export X=1".toList] ∧
      FromReader (.ok ["export X=1".toList]) = ([("X".toList, "1".toList)], none)) ∧
    (FromReader (.ok ["export #k'=1".toList]) = ([("#k'".toList, "1".toList)], none) ∧
      [("#k'".toList, "1".toList)].map (fun e => e.1 ++ '=' :: e.2) = ["#k'=1".toList] ∧
      FromReader (.ok ["#k'=1".toList]) = ([], none)) ∧
    (FromReader (.ok ["export export \x0bX=1".toList]) = ([("\x0bX".toList, "1".toList)], none) ∧
      [("\x0bX".toList, "1".toList)].map (fun e => e.1 ++ '=' :: e.2) = ["\x0bX=1".toList] ∧
      FromReader (.ok ["\x0bX=1".toList]) = ([("X".toList, "1".toList)], none)) :=
  ⟨by decide, by decide, by decide⟩

/-- C18, amended. Parsing again what was parsed. Let `FromReader` parse a source
without error into a mapping whose values are made of letters, digits and
underscore, and let its entries be rendered as lines `KEY=value`, in whatever order.
These lines are parsed without error into a mapping with the same entries exactly
when every key of the mapping does not begin with `export`, has no white space at
either end, does not begin with `#`, and the comment removal leaves its line
`KEY=value` whole (as it does every line without `#`). The mapping then has these
entries in the order of the lines. -/
theorem FromReader_reparse (lines : List Str) (m : EnvMap)
    (h : FromReader (.ok lines) = (m, none))
    (hv : ∀ e ∈ m, ∀ c ∈ e.2, c.isAlphanum = true ∨ c = '_')
    (entries : EnvMap) (hperm : entries.Perm m) :
    ((∃ res, FromReader (.ok (entries.map (fun e => e.1 ++ '=' :: e.2))) = (res, none) ∧
        res.Perm m) ↔
      ∀ e ∈ m, strings.HasPrefix e.1 "export".toList = false ∧ strings.TrimSpace e.1 = e.1 ∧
        e.1.head? ≠ some '#' ∧ stripComments (e.1 ++ '=' :: e.2) = e.1 ++ '=' :: e.2) ∧
    ((∀ e ∈ m, strings.HasPrefix e.1 "export".toList = false ∧ strings.TrimSpace e.1 = e.1 ∧
        e.1.head? ≠ some '#' ∧ stripComments (e.1 ++ '=' :: e.2) = e.1 ++ '=' :: e.2) →
      FromReader (.ok (entries.map (fun e => e.1 ++ '=' :: e.2))) = (entries, none)) := by
  have hnd : m.keys.Nodup := by
    unfold FromReader at h
    exact (parseLines_keys lines [] m h (by simp [EnvMap.keys])).1
  have hsep : ∀ e ∈ entries, '=' ∉ e.1 ∧ ':' ∉ e.1 := fun e he =>
    FromReader_keys_no_separator lines m h e.1 (List.mem_map_of_mem Prod.fst (hperm.subset he))
  have hve : ∀ e ∈ entries, ∀ c ∈ e.2, c.isAlphanum = true ∨ c = '_' :=
    fun e he => hv e (hperm.subset he)
  have hsuff : (∀ e ∈ m, strings.HasPrefix e.1 "export".toList = false ∧
        strings.TrimSpace e.1 = e.1 ∧ e.1.head? ≠ some '#' ∧
        stripComments (e.1 ++ '=' :: e.2) = e.1 ++ '=' :: e.2) →
      FromReader (.ok (entries.map (fun e => e.1 ++ '=' :: e.2))) = (entries, none) := by
    intro hk
    unfold FromReader
    dsimp only
    have := parseLines_rendered entries []
      (by
        rw [List.nil_append]
        exact (List.Perm.nodup_iff (List.Perm.map Prod.fst hperm)).2 hnd)
      hsep hve (fun e he => hk e (hperm.subset he))
    simpa using this
  refine ⟨⟨?_, fun hk => ⟨entries, hsuff hk, hperm⟩⟩, hsuff⟩
  rintro ⟨res, hres, hrp⟩ e he
  unfold FromReader at hres
  dsimp only at hres
  obtain ⟨es, hes, hf⟩ := parseLines_full_inv _ [] res hres (by
    rw [List.length_map, List.length_nil, Nat.zero_add, hrp.length_eq, hperm.length_eq])
  rw [List.nil_append] at hes
  subst hes
  rw [List.forall₂_map_left_iff] at hf
  have hee : res = entries :=
    forall₂_sublist_eq entries res (forall₂_rendered_sublist entries res hsep hve hf)
      ((hrp.trans hperm.symm).map _).sum_eq
  subst hee
  have hin : e ∈ res := hperm.symm.subset he
  obtain ⟨hi, m', hp⟩ := List.forall₂_same.1 hf e hin
  exact parseLine_rendered_inv e.1 e.2 m' (hve e hin) hi hp

/-- C18 amended, at the source `foo.bar-baz = v_1`, `B=2`, `A = 1`, `B=3`: its entries
in the order `A`, `foo.bar-baz`, `B`. -/
theorem FromReader_reparse_witness :
    FromReader (.ok ["A=1".toList, "foo.bar-baz=v_1".toList, "B=3".toList])
      = ([("A".toList, "1".toList), ("foo.bar-baz".toList, "v_1".toList),
          ("B".toList, "3".toList)], none) :=
  (FromReader_reparse
    ["foo.bar-baz = v_1".toList, "B=2".toList, "A = 1".toList, "B=3".toList]
    [("foo.bar-baz".toList, "v_1".toList), ("B".toList, "3".toList), ("A".toList, "1".toList)]
    rfl (by decide)
    [("A".toList, "1".toList), ("foo.bar-baz".toList, "v_1".toList), ("B".toList, "3".toList)]
    ((List.Perm.swap _ _ _).trans (List.Perm.cons _ (List.Perm.swap _ _ _)))).2 (by decide)

end Env

namespace Env

/-! ## `Store` -/

theorem EnvMap.mem_keys_of_set_self (m : EnvMap) (k v : Str) : k ∈ (m.set k v).keys :=
  (EnvMap.mem_keys_set m k v k).2 (Or.inl rfl)

/-- The names `Store` finds in the raw environment are the names of the variables, when
no name holds a `=`. -/
theorem currentEnvKeys_Environ (E : EnvMap) (hE : ∀ k ∈ E.keys, '=' ∉ k) :
    currentEnvKeys (os_Environ E) = E.keys := by
  induction E with
  | nil => rfl
  | cons p rest ih =>
    obtain ⟨k, v⟩ := p
    have hk : '=' ∉ k := hE k (by simp [EnvMap.keys])
    have hrest : ∀ k' ∈ EnvMap.keys rest, '=' ∉ k' := by
      intro k' hk'
      exact hE k' (by simp only [EnvMap.keys, List.map_cons, List.mem_cons]; exact Or.inr hk')
    have := ih hrest
    simp only [currentEnvKeys, os_Environ, EnvMap.keys, List.map_cons, List.map_map] at this ⊢
    rw [strings.Split_append_cons '=' k v hk]
    simp only [List.headD_cons, List.cons.injEq, true_and]
    exact this

/-- A call of `os.Setenv` that is refused leaves the environment as it is. -/
theorem os_Setenv_refused (E : EnvMap) (key value : Str)
    (h : os_Setenv_EINVAL key value = true) : os_Setenv E key value = E := by
  unfold os_Setenv
  rw [if_pos h]

/-- A call of `os.Setenv` that is accepted sets the variable. -/
theorem os_Setenv_accepted (E : EnvMap) (key value : Str)
    (h : os_Setenv_EINVAL key value = false) : os_Setenv E key value = E.set key value := by
  unfold os_Setenv
  rw [if_neg (by rw [h]; exact Bool.false_ne_true)]

/-- A call of `os.Setenv` leaves every other variable as it is. -/
theorem os_Setenv_other (E : EnvMap) (k0 v0 k : Str) (hne : k ≠ k0) :
    (os_Setenv E k0 v0).get k = E.get k ∧ (k ∈ (os_Setenv E k0 v0).keys ↔ k ∈ E.keys) := by
  unfold os_Setenv
  split
  · exact ⟨rfl, Iff.rfl⟩
  · refine ⟨EnvMap.get_set_ne E k0 k v0 hne, ?_⟩
    rw [EnvMap.mem_keys_set]
    constructor
    · rintro (h | h)
      · exact absurd h hne
      · exact h
    · exact Or.inr

/-- Entries other than those of `k` leave the variable `k` as it is. -/
theorem storeLoop_other (cur : List Str) (ov : Bool) (entries E : EnvMap) (k : Str)
    (hk : k ∉ entries.keys) :
    (storeLoop cur ov entries E).get k = E.get k ∧
      (k ∈ (storeLoop cur ov entries E).keys ↔ k ∈ E.keys) := by
  induction entries generalizing E with
  | nil => exact ⟨rfl, Iff.rfl⟩
  | cons e rest ih =>
    obtain ⟨k0, v0⟩ := e
    simp only [EnvMap.keys, List.map_cons, List.mem_cons, not_or] at hk
    have hrest : k ∉ EnvMap.keys rest := hk.2
    simp only [storeLoop]
    split
    · obtain ⟨h1, h2⟩ := ih (os_Setenv E k0 v0) hrest
      obtain ⟨h3, h4⟩ := os_Setenv_other E k0 v0 k hk.1
      exact ⟨h1.trans h3, h2.trans h4⟩
    · exact ih E hrest

/-- An entry whose key passes the test of the loop, and that `os.Setenv` accepts, is
set. -/
theorem storeLoop_set (cur : List Str) (ov : Bool) (entries E : EnvMap) (k : Str)
    (hnd : entries.keys.Nodup) (hk : k ∈ entries.keys)
    (hok : os_Setenv_EINVAL k (entries.get k) = false) (hc : ov = true ∨ k ∉ cur) :
    (storeLoop cur ov entries E).get k = entries.get k ∧
      k ∈ (storeLoop cur ov entries E).keys := by
  induction entries generalizing E with
  | nil => simp [EnvMap.keys] at hk
  | cons e rest ih =>
    obtain ⟨k0, v0⟩ := e
    simp only [EnvMap.keys, List.map_cons, List.nodup_cons] at hnd
    simp only [EnvMap.keys, List.map_cons, List.mem_cons] at hk
    by_cases hkk : k = k0
    · subst hkk
      have hcond : (!(cur.contains k) || ov) = true := by
        rcases hc with h | h
        · simp [h]
        · simp [h]
      have hnot : k ∉ EnvMap.keys rest := hnd.1
      rw [EnvMap.get_cons, if_pos rfl] at hok
      obtain ⟨h1, h2⟩ := storeLoop_other cur ov rest (os_Setenv E k v0) k hnot
      simp only [storeLoop, hcond, if_true]
      rw [os_Setenv_accepted E k v0 hok] at h1 h2 ⊢
      refine ⟨?_, ?_⟩
      · rw [h1, EnvMap.get_cons, if_pos rfl]
        exact EnvMap.get_set_self E k v0
      · rw [h2]
        exact EnvMap.mem_keys_of_set_self E k v0
    · have hin : k ∈ EnvMap.keys rest := by
        rcases hk with h | h
        · exact absurd h hkk
        · exact h
      rw [EnvMap.get_cons, if_neg hkk] at hok ⊢
      simp only [storeLoop]
      split
      · exact ih _ hnd.2 hin hok
      · exact ih _ hnd.2 hin hok

/-- A key that fails the test of the loop is never set. -/
theorem storeLoop_kept (cur : List Str) (entries E : EnvMap) (k : Str) (hc : k ∈ cur) :
    (storeLoop cur false entries E).get k = E.get k := by
  induction entries generalizing E with
  | nil => rfl
  | cons e rest ih =>
    obtain ⟨k0, v0⟩ := e
    simp only [storeLoop]
    split
    · rename_i hcond
      have hne : k ≠ k0 := by
        rintro rfl
        simp [hc] at hcond
      rw [ih]
      exact (os_Setenv_other E k0 v0 k hne).1
    · exact ih E

/-- An entry that `os.Setenv` refuses leaves its variable as it was. -/
theorem storeLoop_refused (cur : List Str) (ov : Bool) (entries E : EnvMap) (k : Str)
    (hnd : entries.keys.Nodup) (hk : k ∈ entries.keys)
    (hbad : os_Setenv_EINVAL k (entries.get k) = true) :
    (storeLoop cur ov entries E).get k = E.get k ∧
      (k ∈ (storeLoop cur ov entries E).keys ↔ k ∈ E.keys) := by
  induction entries generalizing E with
  | nil => simp [EnvMap.keys] at hk
  | cons e rest ih =>
    obtain ⟨k0, v0⟩ := e
    simp only [EnvMap.keys, List.map_cons, List.nodup_cons] at hnd
    simp only [EnvMap.keys, List.map_cons, List.mem_cons] at hk
    by_cases hkk : k = k0
    · subst hkk
      rw [EnvMap.get_cons, if_pos rfl] at hbad
      simp only [storeLoop]
      rw [os_Setenv_refused E k v0 hbad]
      split
      · exact storeLoop_other cur ov rest E k hnd.1
      · exact storeLoop_other cur ov rest E k hnd.1
    · have hin : k ∈ EnvMap.keys rest := by
        rcases hk with h | h
        · exact absurd h hkk
        · exact h
      rw [EnvMap.get_cons, if_neg hkk] at hbad
      obtain ⟨h3, h4⟩ := os_Setenv_other E k0 v0 k hkk
      simp only [storeLoop]
      split
      · obtain ⟨h1, h2⟩ := ih (os_Setenv E k0 v0) hnd.2 hin hbad
        exact ⟨h1.trans h3, h2.trans h4⟩
      · exact ih E hnd.2 hin hbad

/-- What `Store` does with an entry that `os.Setenv` refuses (an empty name, a name
holding `=` or a NUL, a value holding a NUL): the variable is as it was, whatever
`overload` is. -/
theorem Store_refused_entry (E m : EnvMap) (overload : Bool) (hm : m.keys.Nodup) (k : Str)
    (hk : k ∈ m.keys) (hbad : os_Setenv_EINVAL k (m.get k) = true) :
    (Store E m overload).get k = E.get k ∧ (k ∈ (Store E m overload).keys ↔ k ∈ E.keys) :=
  storeLoop_refused _ overload m E k hm hk hbad

/-- C20, the code at the mapping `FromReader` gives for the line `=v`: its one key is
the empty name, which `os.Setenv` refuses. With `overload` true and an empty
environment, the environment after `Store` is still empty: it does not hold the
value `v` under that key. -/
theorem Store_empty_name_not_set :
    FromReader (.ok ["=v".toList]) = ([([], "v".toList)], none) ∧
    ([] : Str) ∈ EnvMap.keys [([], "v".toList)] ∧
    Store [] [([], "v".toList)] true = [] ∧
    (Store [] [([], "v".toList)] true).get [] ≠ EnvMap.get [([], "v".toList)] [] ∧
    ([] : Str) ∉ (Store [] [([], "v".toList)] true).keys := by
  decide

/-- C20, amended. The merge policy of `Store`, the process environment being the
explicit map `E` (no name in it holds a `=`) and `m` a mapping (its keys are
distinct): after `Store(m, overload)`, for a key `k` of `m` that `os.Setenv`
accepts with the value `m[k]` (the name is not empty and holds no `=` and no NUL,
the value holds no NUL) the variable `k` is set to `m[k]` when `overload` is true or
`k` was absent from `E`; for a key `k` of `m` the variable still is `E[k]` when
`overload` is false and `k` was present; a variable whose name is no key of `m` is
as it was. -/
theorem Store_merge_policy (E m : EnvMap) (overload : Bool) (hE : ∀ k ∈ E.keys, '=' ∉ k)
    (hm : m.keys.Nodup) :
    (∀ k ∈ m.keys, os_Setenv_EINVAL k (m.get k) = false → overload = true ∨ k ∉ E.keys →
      (Store E m overload).get k = m.get k ∧ k ∈ (Store E m overload).keys) ∧
    (∀ k ∈ m.keys, overload = false → k ∈ E.keys → (Store E m overload).get k = E.get k) ∧
    (∀ k, k ∉ m.keys →
      (Store E m overload).get k = E.get k ∧ (k ∈ (Store E m overload).keys ↔ k ∈ E.keys)) := by
  unfold Store
  rw [currentEnvKeys_Environ E hE]
  refine ⟨?_, ?_, ?_⟩
  · intro k hk hok hc
    exact storeLoop_set _ overload m E k hm hk hok hc
  · intro k _ ho hin
    subst ho
    exact storeLoop_kept _ m E k hin
  · intro k hk
    exact storeLoop_other _ overload m E k hk

/-- C20 amended, at `X=old` in the environment and `X=new` in the mapping: without
overload `X` stays `old`, with overload it becomes `new`. -/
theorem Store_merge_policy_witness :
    (Store [("X".toList, "old".toList)] [("X".toList, "new".toList)] false).get "X".toList
      = "old".toList ∧
    (Store [("X".toList, "old".toList)] [("X".toList, "new".toList)] true).get "X".toList
      = "new".toList :=
  ⟨(Store_merge_policy [("X".toList, "old".toList)] [("X".toList, "new".toList)] false
      (by decide) (by decide)).2.1 "X".toList (by decide) rfl (by decide),
    ((Store_merge_policy [("X".toList, "old".toList)] [("X".toList, "new".toList)] true
      (by decide) (by decide)).1 "X".toList (by decide) (by decide) (Or.inl rfl)).1⟩

end Env

namespace Text

open Env

/-! ## `Resize` -/

theorem toInt_of_lt (x : Nat) (h : x < 2 ^ 63) : toInt x = (x : Int) := by
  have h64 : x % 2 ^ 64 = x := Nat.mod_eq_of_lt (by omega)
  unfold toInt
  rw [h64, if_pos h]

theorem wrapInt_of_range (x : Int) (h1 : -(2 ^ 63) ≤ x) (h2 : x < 2 ^ 63) : wrapInt x = x := by
  unfold wrapInt
  omega

/-- C21, the code at `Resize("foobar", 2)` and `Resize("a", 0)`: the text is longer than
the length asked for, the loop that copies `n-3` bytes does not run, and the result
is `...`, three bytes long. -/
theorem Resize_length_below_three :
    Resize [102, 111, 111, 98, 97, 114] 2 = some [46, 46, 46] ∧
    Resize [97] 0 = some [46, 46, 46] ∧
    ([46, 46, 46] : Bytes).length = 3 := by
  decide

/-- C22, the code at `Resize("", 9223372036854775811)`, a length of `2^63 + 3`: `int(length)`
is negative, the text counts as longer than that, and the result is `...` where the
claim has the text padded with spaces. -/
theorem Resize_length_beyond_int :
    toInt (2 ^ 63 + 3) = -(2 ^ 63 - 3) ∧ Resize [] (2 ^ 63 + 3) = some [46, 46, 46] := by
  decide

/-- The three cases of `Resize` for a length below `2^63`. -/
theorem Resize_cases (s : Bytes) (n : Nat) (hn : n < 2 ^ 63) :
    (s.length < n → Resize s n = some (s ++ List.replicate (n - s.length) 32)) ∧
    (s.length = n → Resize s n = some s) ∧
    (n < s.length → 3 ≤ n → Resize s n = some (s.take (n - 3) ++ [46, 46, 46])) := by
  have hi := toInt_of_lt n hn
  refine ⟨?_, ?_, ?_⟩
  · intro hlt
    have h1 : ¬ ((s.length : Int) = (n : Int)) := by omega
    have h2 : ¬ ((s.length : Int) ≥ (n : Int)) := by omega
    have h3 : ((n : Int) - (s.length : Int)).toNat = n - s.length := by omega
    unfold Resize PadRight
    simp only [hi, h1, h2, if_false, h3, List.length_append, List.length_replicate]
    have h4 : ¬ (((s.length + (n - s.length) : Nat) : Int) > (n : Int)) := by omega
    simp only [h4, if_false]
  · intro heq
    have h1 : (s.length : Int) = (n : Int) := by omega
    unfold Resize
    simp only [hi, h1, if_true]
  · intro hgt h3
    have h1 : ¬ ((s.length : Int) = (n : Int)) := by omega
    have h2 : (s.length : Int) ≥ (n : Int) := by omega
    have h4 : (s.length : Int) > (n : Int) := by omega
    have hw : wrapInt ((n : Int) - 3) = (n : Int) - 3 := wrapInt_of_range _ (by omega) (by omega)
    have h5 : (n : Int) - 3 ≤ (s.length : Int) := by omega
    have h6 : ((n : Int) - 3).toNat = n - 3 := by omega
    unfold Resize PadRight
    simp only [hi, h1, h2, if_false, if_true, h4, hw, h5, h6]

/-- Apart from a text longer than a length below three, the result of `Resize` has the
length asked for (below `2^63`). -/
theorem Resize_length (s : Bytes) (n : Nat) (hn : n < 2 ^ 63) (h : 3 ≤ n ∨ s.length ≤ n) :
    ∃ r, Resize s n = some r ∧ r.length = n := by
  obtain ⟨h1, h2, h3⟩ := Resize_cases s n hn
  rcases Nat.lt_trichotomy s.length n with hlt | heq | hgt
  · refine ⟨_, h1 hlt, ?_⟩
    simp only [List.length_append, List.length_replicate]
    omega
  · exact ⟨_, h2 heq, heq⟩
  · have h3n : 3 ≤ n := by
      rcases h with h | h
      · exact h
      · omega
    refine ⟨_, h3 hgt h3n, ?_⟩
    simp only [List.length_append, List.length_take, List.length_cons, List.length_nil]
    omega

/-- C22, amended. `Resize` pads or ellipsizes, for a length `n` that Go's `int` holds
(`n < 2^63`): a text shorter than `n` is followed by `n - len(s)` spaces; a text of `n`
bytes is returned as it is; of a text longer than `n`, with `n >= 3`, the first `n - 3`
bytes are followed by `...`. -/
theorem Resize_pads_or_ellipsizes (s : Bytes) (n : Nat) (hn : n < 2 ^ 63) :
    (s.length < n → Resize s n = some (s ++ List.replicate (n - s.length) 32)) ∧
    (s.length = n → Resize s n = some s) ∧
    (n < s.length → 3 ≤ n → Resize s n = some (s.take (n - 3) ++ [46, 46, 46])) :=
  Resize_cases s n hn

/-- C22 amended, at `Resize("foo", 5) = "foo  "`, `Resize("foo", 3) = "foo"` and
`Resize("foobar", 5) = "fo..."`. -/
theorem Resize_pads_or_ellipsizes_witness :
    Resize [102, 111, 111] 5 = some [102, 111, 111, 32, 32] ∧
    Resize [102, 111, 111] 3 = some [102, 111, 111] ∧
    Resize [102, 111, 111, 98, 97, 114] 5 = some [102, 111, 46, 46, 46] :=
  ⟨(Resize_pads_or_ellipsizes [102, 111, 111] 5 (by decide)).1 (by decide),
    (Resize_pads_or_ellipsizes [102, 111, 111] 3 (by decide)).2.1 (by decide),
    (Resize_pads_or_ellipsizes [102, 111, 111, 98, 97, 114] 5 (by decide)).2.2 (by decide)
      (by decide)⟩

/-! ## `WrapString` -/

/-- C23, the code at `WrapString(" abc", 3)`: the only word, `abc`, is three columns wide,
not wider than the limit; when its third letter is read the line would be four
columns wide, but the test `wordWidth < lim` fails, no line feed is written, and the
result is the one line ` abc` of four columns. -/
theorem WrapString_line_beyond_limit :
    words " abc".toList = ["abc".toList] ∧
    WrapString asciiRuneWidth " abc".toList 3 = " abc".toList ∧
    (WrapString asciiRuneWidth " abc".toList 3).length = 4 := by
  decide

end Text

namespace Commander

open Env

/-! ## `unquoteUsage` -/

/-- What `unquoteUsage` returns for a usage with a back-quoted name: the name, and the
text after the second back quote without the white space around it. -/
theorem unquoteUsage_quoted (pre name post : Str) (h1 : '`' ∉ pre) (h2 : '`' ∉ name) :
    unquoteUsage (pre ++ '`' :: (name ++ '`' :: post)) = (name, strings.TrimSpace post) := by
  have hp : ∀ (l : Str), '`' ∉ l → ∀ x ∈ l, (fun c => c != '`') x = true := by
    intro l hl x hx
    simp only [bne_iff_ne, ne_eq]
    rintro rfl
    exact hl hx
  unfold unquoteUsage
  have hd1 : (pre ++ '`' :: (name ++ '`' :: post)).dropWhile (fun c => c != '`')
      = '`' :: (name ++ '`' :: post) := by
    rw [List.dropWhile_append_of_pos (hp pre h1)]
    exact List.dropWhile_cons_of_neg (by simp)
  have hd2 : (name ++ '`' :: post).dropWhile (fun c => c != '`') = '`' :: post := by
    rw [List.dropWhile_append_of_pos (hp name h2)]
    exact List.dropWhile_cons_of_neg (by simp)
  have ht2 : (name ++ '`' :: post).takeWhile (fun c => c != '`') = name := by
    rw [List.takeWhile_append_of_pos (hp name h2)]
    simp [List.takeWhile]
  simp only [hd1, List.drop_succ_cons, List.drop_zero, hd2, ht2, List.mem_append, List.mem_cons,
    true_or, or_true, if_true]

/-- C25, the code at the usage of its own comment, "a `name` to show": the usage returned
is `to show`, the text after the name; the text before the name and the name are not
in it. -/
theorem unquoteUsage_drops_text_before_name :
    unquoteUsage "a `name` to show".toList = ("name".toList, "to show".toList) := by
  decide

end Commander

namespace Env

/-! ## Values with a quote at one end -/

theorem quotesRegex_none_of_ends (q : Char) (t : Str)
    (h : ¬ (t.head? = some q ∧ t.getLast? = some q)) :
    quotesRegex_FindStringSubmatch q t = none := by
  cases t with
  | nil => rfl
  | cons c rest =>
    unfold quotesRegex_FindStringSubmatch
    simp only
    rw [if_neg]
    rintro ⟨hc, hl, _⟩
    apply h
    refine ⟨by simp [hc], ?_⟩
    cases rest with
    | nil => simp at hl
    | cons d ds =>
      rw [List.getLast?_cons_cons]
      exact hl

/-- C24. A value that is not quoted at both ends is kept as it is: when the value, its
spaces trimmed, does not both begin and end with the same quote character and holds
no `$`, `parseValue` returns it with the spaces around it trimmed and nothing else
changed, whatever the mapping, and reports no error. (This holds for trimmed values
of every length, so for those of length two and more.) -/
theorem parseValue_unquoted_literal (v : Str) (m : EnvMap)
    (hs : ¬ ((strings.Trim v ' ').head? = some '\'' ∧ (strings.Trim v ' ').getLast? = some '\''))
    (hq : ¬ ((strings.Trim v ' ').head? = some '"' ∧ (strings.Trim v ' ').getLast? = some '"'))
    (hd : '$' ∉ strings.Trim v ' ') :
    parseValue v m = .ok (strings.Trim v ' ') :=
  parseValue_not_quoted v _ m rfl (quotesRegex_none_of_ends '\'' _ hs)
    (quotesRegex_none_of_ends '"' _ hq) hd

/-- C24 at the values ` "a\b ` (a quote at the front only, a backslash) and `a'b'`. -/
theorem parseValue_unquoted_literal_witness :
    parseValue " \"a\\b ".toList [("A".toList, "1".toList)] = .ok "\"a\\b".toList ∧
    parseValue "a'b'".toList [] = .ok "a'b'".toList :=
  ⟨parseValue_unquoted_literal " \"a\\b ".toList [("A".toList, "1".toList)] (by decide)
      (by decide) (by decide),
    parseValue_unquoted_literal "a'b'".toList [] (by decide) (by decide) (by decide)⟩

end Env

namespace Text

open Env

/-! ## `Indent` -/

theorem Indent_write_dropLast (indent : Str) (parts : List Str) (h : parts ≠ []) :
    (Indent.write indent parts).dropLast
      = strings.Join '\n' (parts.map (fun j => indent ++ j)) := by
  induction parts with
  | nil => exact absurd rfl h
  | cons j rest ih =>
    cases rest with
    | nil =>
      simp only [Indent.write, List.append_nil, List.map_cons, List.map_nil, strings.Join]
      rw [List.dropLast_concat]
    | cons k rest =>
      have hne : Indent.write indent (k :: rest) ≠ [] := by
        simp [Indent.write]
      rw [Indent.write, List.dropLast_append_of_ne_nil _ hne, ih (by simp)]
      simp only [List.map_cons, strings.Join_cons_cons]
      simp

theorem TrimRight_of_last (s : Str) (c : Char) (h : s.getLast? ≠ some c) : TrimRight s c = s := by
  unfold TrimRight
  rw [List.rdropWhile_eq_self_iff]
  intro hl e
  simp only [beq_iff_eq] at e
  apply h
  rw [List.getLast?_eq_getLast _ hl, e]

/-- C26. `Indent` prefixes every line: a text that ends with a line feed gives the lines
of the text before that line feed, and a text that is not empty and does not end
with a line feed gives its own lines, each with the indent in front, joined by
single line feeds. So the line feed the text ended with is not in the result
(with an empty indent, `Indent` of `t` and a line feed is `t`), `Indent(text, "")` is
`text` when `text` does not end with a line feed, and `Indent("", indent)` is empty. -/
theorem Indent_prefixes_lines (text t indent : Str) :
    Indent (t ++ ['\n']) indent
      = strings.Join '\n' ((strings.Split '\n' t).map (fun j => indent ++ j)) ∧
    (text ≠ [] → text.getLast? ≠ some '\n' →
      Indent text indent
        = strings.Join '\n' ((strings.Split '\n' text).map (fun j => indent ++ j))) ∧
    Indent (t ++ ['\n']) [] = t ∧
    (text.getLast? ≠ some '\n' → Indent text [] = text) ∧
    Indent [] indent = [] := by
  have hnl : ∀ (u ind : Str), Indent (u ++ ['\n']) ind
      = strings.Join '\n' ((strings.Split '\n' u).map (fun j => ind ++ j)) := by
    intro u ind
    have hb : ¬ byteLen (u ++ ['\n']) = 0 := by
      rw [byteLen_eq_zero_iff]; simp
    unfold Indent
    simp only [hb, if_false, List.getLast?_concat, if_true, List.dropLast_concat]
    exact Indent_write_dropLast ind _ (strings.Split_ne_nil _ _)
  have hplain : ∀ (u ind : Str), u ≠ [] → u.getLast? ≠ some '\n' → Indent u ind
      = strings.Join '\n' ((strings.Split '\n' u).map (fun j => ind ++ j)) := by
    intro u ind hne hl
    have hb : ¬ byteLen u = 0 := by
      rw [byteLen_eq_zero_iff]; exact hne
    unfold Indent
    simp only [hb, if_false, hl, TrimRight_of_last u '\n' hl]
    exact Indent_write_dropLast ind _ (strings.Split_ne_nil _ _)
  have hid : ∀ u : Str, strings.Join '\n' ((strings.Split '\n' u).map (fun j => ([] : Str) ++ j)) = u := by
    intro u
    simp only [List.nil_append, List.map_id']
    exact strings.Join_Split '\n' u
  refine ⟨hnl t indent, hplain text indent, ?_, ?_, rfl⟩
  · rw [hnl t [], hid]
  · intro hl
    by_cases hne : text = []
    · subst hne; rfl
    · rw [hplain text [] hne hl, hid]

end Text

namespace Text

open Env

/-! ## `WordWrap` -/

theorem wordsFrom_append_word (cur w rest : Str) (hw : ∀ c ∈ w, strings.IsSpace c = false) :
    wordsFrom cur (w ++ rest) = wordsFrom (cur ++ w) rest := by
  induction w generalizing cur with
  | nil => simp
  | cons x xs ih =>
    have hx := hw x (List.mem_cons_self _ _)
    rw [List.cons_append, wordsFrom]
    simp only [hx, Bool.false_eq_true, if_false]
    rw [ih (cur ++ [x]) (fun c hc => hw c (List.mem_cons_of_mem _ hc))]
    simp

theorem wordsFrom_append_space (cur a b : Str) (c : Char) (hc : strings.IsSpace c = true) :
    wordsFrom cur (a ++ c :: b) = wordsFrom cur a ++ wordsFrom [] b := by
  induction a generalizing cur with
  | nil =>
    simp only [List.nil_append, wordsFrom, hc, if_true]
    split <;> simp
  | cons x xs ih =>
    rw [List.cons_append, wordsFrom, wordsFrom]
    by_cases hx : strings.IsSpace x = true
    · simp only [hx, if_true]
      split
      · exact ih []
      · rw [ih []]; rfl
    · simp only [hx, if_false]
      exact ih (cur ++ [x])

theorem words_word (w : Str) (hne : w ≠ []) (hw : ∀ c ∈ w, strings.IsSpace c = false) :
    wordsFrom [] w = [w] := by
  have := wordsFrom_append_word [] w [] hw
  rw [List.append_nil, List.nil_append] at this
  rw [this]
  simp [wordsFrom, hne]

theorem NoDoubleSpace_word (w : Str) (hw : ∀ c ∈ w, strings.IsSpace c = false) :
    NoDoubleSpace w := by
  unfold NoDoubleSpace
  induction w with
  | nil => exact List.chain'_nil
  | cons x xs ih =>
    rw [List.chain'_cons']
    refine ⟨?_, ih (fun c hc => hw c (List.mem_cons_of_mem _ hc))⟩
    intro y _
    rintro ⟨h, _⟩
    rw [hw x (List.mem_cons_self _ _)] at h
    cases h

theorem GoodWrap_nil : GoodWrap [] := by
  refine ⟨List.chain'_nil, ?_, ?_⟩
  · intro c hc; cases hc
  · intro c hc; cases hc

theorem GoodWrap_word (w : Str) (hw : ∀ c ∈ w, strings.IsSpace c = false) : GoodWrap w := by
  refine ⟨NoDoubleSpace_word w hw, ?_, ?_⟩
  · intro c hc hs
    rw [hw c hc] at hs
    cases hs
  · intro c hc
    exact hw c (List.mem_of_getLast?_eq_some hc)

/-- A separator and a word behind a good `wrap`. -/
theorem GoodWrap_append (wrap w : Str) (sep : Char) (hg : GoodWrap wrap)
    (hsep : sep = ' ' ∨ sep = '\n') (hne : w ≠ []) (hw : ∀ c ∈ w, strings.IsSpace c = false) :
    GoodWrap (wrap ++ [sep] ++ w) ∧ words (wrap ++ [sep] ++ w) = words wrap ++ [w] := by
  obtain ⟨h1, h2, h3⟩ := hg
  have hs : strings.IsSpace sep = true := by rcases hsep with rfl | rfl <;> decide
  refine ⟨⟨?_, ?_, ?_⟩, ?_⟩
  · unfold NoDoubleSpace at h1 ⊢
    rw [List.chain'_append]
    refine ⟨?_, NoDoubleSpace_word w hw, ?_⟩
    · rw [List.chain'_append]
      refine ⟨h1, List.chain'_singleton _, ?_⟩
      intro x hx y _
      rintro ⟨hxs, _⟩
      rw [h3 x hx] at hxs
      cases hxs
    · intro x _ y hy
      rintro ⟨_, hys⟩
      rw [hw y (List.mem_of_mem_head? hy)] at hys
      cases hys
  · intro c hc hcs
    rcases List.mem_append.1 hc with h | h
    · rcases List.mem_append.1 h with h | h
      · exact h2 c h hcs
      · simp only [List.mem_singleton] at h
        rw [h]; exact hsep
    · rw [hw c h] at hcs
      cases hcs
  · intro c hc
    rw [List.getLast?_append_of_ne_nil _ hne] at hc
    exact hw c (List.mem_of_getLast?_eq_some hc)
  · unfold words
    rw [List.append_assoc, List.singleton_append, wordsFrom_append_space [] wrap w sep hs,
      words_word w hne hw]

theorem WordState_nil : WordState [] false :=
  ⟨fun h => Bool.noConfusion h, fun _ => rfl⟩

theorem emit_good (lineWidth i eoLine : Int) (word wrap : Str) (inWord : Bool)
    (hg : GoodWrap wrap) (hw : WordState word inWord) :
    GoodWrap (WordWrap.emit lineWidth i word inWord wrap eoLine).1 ∧
      words (WordWrap.emit lineWidth i word inWord wrap eoLine).1
        = words wrap ++ wordsFrom word [] := by
  cases inWord with
  | false =>
    have hnil := hw.2 rfl
    subst hnil
    simp only [WordWrap.emit, Bool.false_eq_true, if_false]
    exact ⟨hg, by simp [wordsFrom]⟩
  | true =>
    obtain ⟨hne, hns⟩ := hw.1 rfl
    have hwf : wordsFrom word [] = [word] := by simp [wordsFrom, hne]
    rw [hwf]
    unfold WordWrap.emit
    simp only [if_true]
    split
    · exact GoodWrap_append wrap word '\n' hg (Or.inr rfl) hne hns
    · split
      · exact GoodWrap_append wrap word ' ' hg (Or.inl rfl) hne hns
      · rename_i hb
        have hnil : wrap = [] := by
          have : byteLen wrap = 0 := by omega
          exact (byteLen_eq_zero_iff wrap).1 this
        subst hnil
        simp only [List.nil_append]
        exact ⟨GoodWrap_word word hns, by
          unfold words
          rw [words_word word hne hns]
          simp [wordsFrom]⟩

/-- The loop keeps `wrap` good and adds to its words the words of what is left to read. -/
theorem loop_good (lineWidth : Int) (rest : Str) :
    ∀ (i : Int) (word : Str) (inWord : Bool) (wrap : Str) (eoLine : Int),
      GoodWrap wrap → WordState word inWord →
      GoodWrap (WordWrap.loop lineWidth rest i word inWord wrap eoLine) ∧
        words (WordWrap.loop lineWidth rest i word inWord wrap eoLine)
          = words wrap ++ wordsFrom word rest := by
  induction rest with
  | nil =>
    intro i word inWord wrap eoLine hg hw
    simp only [WordWrap.loop]
    exact emit_good lineWidth i eoLine word wrap inWord hg hw
  | cons r rest ih =>
    intro i word inWord wrap eoLine hg hw
    by_cases hr : strings.IsSpace r = true
    · obtain ⟨hg', hwords⟩ := emit_good lineWidth i eoLine word wrap inWord hg hw
      have := ih (i + r.utf8Size) [] false _
        (WordWrap.emit lineWidth i word inWord wrap eoLine).2 hg'
        WordState_nil
      simp only [WordWrap.loop, hr, if_true]
      refine ⟨this.1, ?_⟩
      rw [this.2, hwords, List.append_assoc]
      congr 1
      rw [wordsFrom, wordsFrom]
      simp only [hr, if_true]
      split <;> simp
    · have hr' : strings.IsSpace r = false := by simpa using hr
      cases inWord with
      | false =>
        have hnil := hw.2 rfl
        subst hnil
        have := ih (i + r.utf8Size) [r] true wrap eoLine hg
          ⟨fun _ => ⟨by simp, by
            intro c hc
            simp only [List.mem_singleton] at hc
            rw [hc]; exact hr'⟩, fun h => by cases h⟩
        simp only [WordWrap.loop, hr', Bool.false_eq_true, if_false, Bool.not_false, if_true]
        refine ⟨this.1, ?_⟩
        rw [this.2, wordsFrom]
        simp [hr']
      | true =>
        obtain ⟨hne, hns⟩ := hw.1 rfl
        have := ih (i + r.utf8Size) (word ++ [r]) true wrap eoLine hg
          ⟨fun _ => ⟨by simp, by
            intro c hc
            rcases List.mem_append.1 hc with h | h
            · exact hns c h
            · simp only [List.mem_singleton] at h
              rw [h]; exact hr'⟩, fun h => by cases h⟩
        simp only [WordWrap.loop, hr', Bool.false_eq_true, if_false, Bool.not_true]
        refine ⟨this.1, ?_⟩
        rw [this.2, wordsFrom]
        simp [hr']

/-- C27. `WordWrap` keeps the words: for every text and every `lineWidth >= 1` it returns
(no run-time panic; the loop ends with the text), and the words of the result, the
maximal runs without white space, are the words of the text, in the same order. In
the result no two white-space characters stand side by side, every white-space
character is a space or a line feed, and the last character is none: between two
words there is exactly one space or one line feed, and no white space trails. -/
theorem WordWrap_preserves_words (text : Str) (lineWidth : Int) (h : 1 ≤ lineWidth) :
    ∃ out, WordWrap text lineWidth = some out ∧ words out = words text ∧
      List.Chain' (fun a b => ¬ (strings.IsSpace a = true ∧ strings.IsSpace b = true)) out ∧
      (∀ c ∈ out, strings.IsSpace c = true → c = ' ' ∨ c = '\n') ∧
      (∀ c, out.getLast? = some c → strings.IsSpace c = false) := by
  have h0 : ¬ lineWidth = 0 := by omega
  have hcap : ¬ ((byteLen text : Int) + Int.tdiv (2 * (byteLen text : Int)) lineWidth < 0) := by
    have : 0 ≤ Int.tdiv (2 * (byteLen text : Int)) lineWidth :=
      Int.tdiv_nonneg (by omega) (by omega)
    omega
  obtain ⟨⟨hc, hsp, hlast⟩, hwords⟩ := loop_good lineWidth text 0 [] false [] lineWidth GoodWrap_nil
    WordState_nil
  refine ⟨WordWrap.loop lineWidth text 0 [] false [] lineWidth, ?_, ?_, hc, hsp, hlast⟩
  · simp only [WordWrap, h0, hcap, if_false]
  · rw [hwords]
    rfl

/-- C27 at the text `hello world  foo`, tab, `bar`, line feed, ` baz` with a line width of
7, and at `hello` with a line width of 3. -/
theorem WordWrap_preserves_words_witness :
    (∃ out, WordWrap "hello world  foo\tbar\n baz".toList 7 = some out ∧
      words out = ["hello", "world", "foo", "bar", "baz"].map String.toList) ∧
    WordWrap "hello world  foo\tbar\n baz".toList 7 = some "hello\nworld\nfoo\nbar\nbaz".toList ∧
    WordWrap "hello".toList 3 = some "\nhello".toList :=
  ⟨(WordWrap_preserves_words "hello world  foo\tbar\n baz".toList 7 (by decide)).imp
      (fun _ ho => ⟨ho.1, ho.2.1.trans (by decide)⟩),
    by decide, by decide⟩

end Text
